import Mathlib

/-!
Verification development for a LOUDS-based trie map library.

The development shallowly embeds the construction pipeline and the search
engine of the library:

* `NaiveTrie` and `NaiveTrie.push` model the mutable construction trie
  (`internal_data_structure/naive_trie/naive_trie_impl.rs`).
* `bfsS` models the breadth-first iterator with phantom sibling markers
  (`internal_data_structure/naive_trie/naive_trie_b_f_iter.rs`).
* `Trie.build` models the builder that serialises the naive trie into a
  LOUDS bitstring plus a label table (the builder source is not part of
  the provided sources, so it is modelled from the specification).
* `childrenNodeNums` models the LOUDS navigation primitive of the external
  louds-rs crate, modelled from the specification (rank and select over the
  level-order bitstring).
* `exactMatch`, `isPrefixFun`, `postfixDescend`, `longestPrefixFun` and the
  helpers model the search engine of `map/trie.rs`.

Machine integers of the source (`usize` indices, `u8` labels) are modelled
as `Nat`; none of the modelled arithmetic can overflow in the source since
indices are bounded by vector lengths. Rust panics (the `panic!` branch of
`label()` reached on a `Value` cell, and out-of-range indexing) are modelled
with `PanicOr` or `Option` results.

The children of a naive trie node are stored in a specialised list type
`NaiveTrieL` (a mutually inductive copy of `List`) so that all recursions
over the tree are structural and the definitions evaluate inside the
kernel. `NaiveTrieL.toList` and `NaiveTrieL.ofList` convert to ordinary
lists, on which the vector operations of the source (`binary_search_by`,
`insert`, indexing) are performed.
-/

/-- Tagged union of label cells of the trie, from `map/mod.rs`
(declaration visible through its uses in `map/trie.rs`): `Label`
carries a label token, `Value` carries the payload of a terminal. -/
inductive TrieLabel (L V : Type) where
  | label (l : L)
  | value (v : V)
deriving DecidableEq, Repr

mutual
/-- Naive construction trie, from
`internal_data_structure/naive_trie/naive_trie_impl.rs`: a `Root` node
with children, an `IntermOrLeaf` node carrying a `TrieLabel` cell plus
children, and the `PhantomSibling` traversal marker. -/
inductive NaiveTrie (L V : Type) where
  | root (children : NaiveTrieL L V)
  | intermOrLeaf (lbl : TrieLabel L V) (children : NaiveTrieL L V)
  | phantomSibling
deriving DecidableEq, Repr
/-- Children sequence of a naive trie node (a specialised copy of `List`,
so that recursion over the tree is structural). -/
inductive NaiveTrieL (L V : Type) where
  | nil
  | cons (t : NaiveTrie L V) (ts : NaiveTrieL L V)
deriving DecidableEq, Repr
end

namespace NaiveTrieL

/-- Convert the specialised children sequence to an ordinary list. -/
def toList {L V : Type} : NaiveTrieL L V → List (NaiveTrie L V)
  | .nil => []
  | .cons t ts => t :: ts.toList

/-- Convert an ordinary list of nodes to the specialised children sequence. -/
def ofList {L V : Type} : List (NaiveTrie L V) → NaiveTrieL L V
  | [] => .nil
  | t :: ts => .cons t (ofList ts)

theorem toList_ofList {L V : Type} (l : List (NaiveTrie L V)) :
    (ofList l).toList = l := by
  induction l with
  | nil => rfl
  | cons t ts ih => simp [ofList, toList, ih]

end NaiveTrieL

namespace NaiveTrie

/-- Children of a node as an ordinary list (`children()` in the source;
the `PhantomSibling` case is a Rust panic, modelled as the empty list and
never reached on trees built by `make_root` and `push`). -/
def childrenL {L V : Type} : NaiveTrie L V → List (NaiveTrie L V)
  | .root cs => cs.toList
  | .intermOrLeaf _ cs => cs.toList
  | .phantomSibling => []

/-- Replace the children of a node, keeping its variant and cell. -/
def withChildren {L V : Type} : NaiveTrie L V → List (NaiveTrie L V) → NaiveTrie L V
  | .root _, l => .root (NaiveTrieL.ofList l)
  | .intermOrLeaf lbl _, l => .intermOrLeaf lbl (NaiveTrieL.ofList l)
  | .phantomSibling, _ => .phantomSibling

/-- Cell of an `IntermOrLeaf` node (`label()` in the source; the other
variants are a Rust panic, modelled as `none`). -/
def cellOf {L V : Type} : NaiveTrie L V → Option (TrieLabel L V)
  | .intermOrLeaf lbl _ => some lbl
  | _ => none

/-- Empty construction trie (`make_root`). -/
def makeRoot {L V : Type} : NaiveTrie L V := .root .nil

/-- Fresh intermediate node carrying a label token (`make_interm`). -/
def makeInterm {L V : Type} (l : L) : NaiveTrie L V :=
  .intermOrLeaf (.label l) .nil

/-- Fresh terminal leaf carrying a value (`make_leaf`). -/
def makeLeaf {L V : Type} (v : V) : NaiveTrie L V :=
  .intermOrLeaf (.value v) .nil

end NaiveTrie

/-- Three-way comparison on a linear order, the model of `Ord::cmp` and of
`PartialOrd::partial_cmp` of the label type. -/
def lcmp {L : Type} [LinearOrder L] (a b : L) : Ordering :=
  if a < b then .lt else if a = b then .eq else .gt

/-- Comparison of a `TrieLabel` cell against a bare label token, from the
`PartialOrd<Label> for TrieLabel` impl in `map/trie.rs`: a `Value` cell
sorts strictly below every label token. -/
def cellCmpLabel {L V : Type} [LinearOrder L] (cell : TrieLabel L V) (q : L) : Ordering :=
  match cell with
  | .label a => lcmp a q
  | .value _ => .lt

/-- Comparator used by `push` on a child node
(`child.label().partial_cmp(&chr).unwrap()`): compares the cell of the
child against the query token. The `Root` and `PhantomSibling` variants are
a Rust panic inside `label()`; they never occur among children of trees
built by `make_root` and `push`, and are mapped to `.lt` here. -/
def childCmpLabel {L V : Type} [LinearOrder L] (child : NaiveTrie L V) (q : L) : Ordering :=
  match child.cellOf with
  | some cell => cellCmpLabel cell q
  | none => .lt

/-- Core loop of `slice::binary_search_by` from the Rust standard library,
with a totally defined comparator. The fuel argument bounds the number of
iterations; `right - left` strictly decreases at every step, so fuel equal
to the initial size is exact and the zero-fuel branch is never reached in
`binarySearchBy`. Result `.inl j` models `Ok(j)` (the comparator returned
`Equal` at index `j`), `.inr j` models `Err(j)` (the insertion point). -/
def binSearchGo {α : Type} (f : α → Ordering) (xs : List α) :
    Nat → Nat → Nat → Nat ⊕ Nat
  | 0, left, _right => .inr left
  | fuel + 1, left, right =>
    if left < right then
      let mid := left + (right - left) / 2
      match xs.get? mid with
      | none => .inr left
      | some x =>
        match f x with
        | .lt => binSearchGo f xs fuel (mid + 1) right
        | .gt => binSearchGo f xs fuel left mid
        | .eq => .inl mid
    else .inr left

/-- Model of `slice::binary_search_by` with a total comparator. -/
def binarySearchBy {α : Type} (f : α → Ordering) (xs : List α) : Nat ⊕ Nat :=
  binSearchGo f xs xs.length 0 xs.length

/-- Core loop of `slice::binary_search_by` with a comparator that can
panic (`none`). A `none` result of the whole search models the panic
propagating out of the probe. -/
def binSearchPGo {α : Type} (f : α → Option Ordering) (xs : List α) :
    Nat → Nat → Nat → Option (Nat ⊕ Nat)
  | 0, left, _right => some (.inr left)
  | fuel + 1, left, right =>
    if left < right then
      let mid := left + (right - left) / 2
      match xs.get? mid with
      | none => some (.inr left)
      | some x =>
        match f x with
        | none => none
        | some .lt => binSearchPGo f xs fuel (mid + 1) right
        | some .gt => binSearchPGo f xs fuel left mid
        | some .eq => some (.inl mid)
    else some (.inr left)

/-- Model of `slice::binary_search_by` with a panicking comparator. -/
def binarySearchByP {α : Type} (f : α → Option Ordering) (xs : List α) :
    Option (Nat ⊕ Nat) :=
  binSearchPGo f xs xs.length 0 xs.length

namespace NaiveTrie

/-- Model of `insert_or_set_value` from `naive_trie_impl.rs`: if the first
child is a `Value` cell its payload is overwritten, otherwise a fresh
leaf is inserted at position `0`. -/
def insertOrSetValue {L V : Type} (children : List (NaiveTrie L V)) (v : V) :
    List (NaiveTrie L V) :=
  match children with
  | .intermOrLeaf (.value _) cs :: rest => .intermOrLeaf (.value v) cs :: rest
  | _ => makeLeaf v :: children

/-- Model of `push` from `naive_trie_impl.rs`. The Rust loop descends the
word one token at a time, keeping a cursor into the trie; the recursion on
the word models the loop, and the branch on the binary search result
models the `Ok`/`Err` arms (descend into the existing child, or insert a
fresh intermediate node at the reported position and continue inside it).
When the word is exhausted, `insert_or_set_value` runs on the children of
the final node. -/
def push {L V : Type} [LinearOrder L] : NaiveTrie L V → List L → V → NaiveTrie L V
  | t, [], v => t.withChildren (insertOrSetValue t.childrenL v)
  | t, c :: rest, v =>
    let cs := t.childrenL
    match binarySearchBy (fun child => childCmpLabel child c) cs with
    | .inl j => t.withChildren (cs.set j (push (cs.getD j .phantomSibling) rest v))
    | .inr j => t.withChildren (cs.insertIdx j (push (makeInterm c) rest v))

/-- Push a list of key-value pairs in order (the builder loop around
`push`). -/
def pushAll {L V : Type} [LinearOrder L] (t : NaiveTrie L V)
    (pairs : List (List L × V)) : NaiveTrie L V :=
  pairs.foldl (fun acc p => push acc p.1 p.2) t

end NaiveTrie

/-- Item of the breadth-first stream: the popped node with its children
drained. Only the variant and the cell survive draining, which is all the
builder consumes. -/
inductive BFItem (L V : Type) where
  | root
  | node (cell : TrieLabel L V)
  | phantom
deriving DecidableEq, Repr

mutual
/-- Stream weight of a node: the exact number of queue pops its subtree
contributes to the breadth-first iteration (itself, its phantom marker and
its descendants; a phantom marker only itself). -/
def sumWeight {L V : Type} : NaiveTrie L V → Nat
  | .root cs => 2 + sumWeightL cs
  | .intermOrLeaf _ cs => 2 + sumWeightL cs
  | .phantomSibling => 1
/-- Stream weight of a children sequence. -/
def sumWeightL {L V : Type} : NaiveTrieL L V → Nat
  | .nil => 0
  | .cons t ts => sumWeight t + sumWeightL ts
end

/-- Stream weight of a queue of nodes. -/
def sumWeightQ {L V : Type} (q : List (NaiveTrie L V)) : Nat :=
  (q.map sumWeight).sum

/-- Stream item produced when a node is popped. -/
def NaiveTrie.item {L V : Type} : NaiveTrie L V → BFItem L V
  | .root _ => .root
  | .intermOrLeaf lbl _ => .node lbl
  | .phantomSibling => .phantom

/-- Nodes appended to the queue when a node is popped: its children in
order followed by one `PhantomSibling`, nothing for a phantom. -/
def NaiveTrie.expandBF {L V : Type} : NaiveTrie L V → List (NaiveTrie L V)
  | .root cs => cs.toList ++ [.phantomSibling]
  | .intermOrLeaf _ cs => cs.toList ++ [.phantomSibling]
  | .phantomSibling => []

/-- Fuelled model of the breadth-first iterator `NaiveTrieBFIter::next`
from `naive_trie_b_f_iter.rs`: pop the front of the queue, emit it, and
for a real node push its drained children followed by a `PhantomSibling`.
One unit of fuel is spent per pop; `sumWeightQ` is the exact number of
pops, so the zero-fuel branch is never reached from `bfsS`. -/
def bfsFuel {L V : Type} : Nat → List (NaiveTrie L V) → List (BFItem L V)
  | 0, _ => []
  | _ + 1, [] => []
  | fuel + 1, t :: q => t.item :: bfsFuel fuel (q ++ t.expandBF)

/-- Breadth-first stream of a queue of naive trie nodes. -/
def bfsS {L V : Type} (q : List (NaiveTrie L V)) : List (BFItem L V) :=
  bfsFuel (sumWeightQ q) q

/-- LOUDS bit contributed by one stream item: a real labelled node emits
`1`, a phantom marker emits `0`, and the root emits nothing (its position
is the fixed `10` prefix of the bitstring). -/
def itemBit {L V : Type} : BFItem L V → Option Bool
  | .root => none
  | .node _ => some true
  | .phantom => some false

/-- Label table entry contributed by one stream item. -/
def itemCell {L V : Type} : BFItem L V → Option (TrieLabel L V)
  | .node cell => some cell
  | _ => none

/-- Result of an operation that can hit a Rust panic branch. -/
inductive PanicOr (α : Type) where
  | panic
  | ok (val : α)
deriving DecidableEq, Repr

/-- Map over the non-panic result. -/
def PanicOr.map {α β : Type} (f : α → β) : PanicOr α → PanicOr β
  | .panic => .panic
  | .ok a => .ok (f a)

/-- Succinct trie: the LOUDS bitstring and the parallel label table, the
fields `louds` and `trie_labels` of `map::Trie`. -/
structure Trie (L V : Type) where
  louds : List Bool
  trieLabels : List (TrieLabel L V)
deriving DecidableEq, Repr

/-- Modelled from the spec: the builder `TrieBuilder::build` (its source
file is not among the provided sources; only its output shape is visible
through `map/trie.rs`). Per the specification it walks the naive trie in
breadth-first order, emits a `1` bit per real node and a `0` bit per
phantom sibling marker after the fixed `10` prefix encoding the
super-root, and appends the cell of every real node to the label table in
the same order. -/
def Trie.build {L V : Type} (nt : NaiveTrie L V) : Trie L V :=
  let stream := bfsS [nt]
  { louds := true :: false :: stream.filterMap itemBit
    trieLabels := stream.filterMap itemCell }

/-- Walk a bitstring past a given number of `0` bits, counting the `1`
bits seen on the way; returns the count and the remaining suffix. This is
the select0 and rank1 arithmetic of the LOUDS navigation. -/
def walk0 : List Bool → Nat → Nat → Nat × List Bool
  | bits, 0, c => (c, bits)
  | [], _ + 1, c => (c, [])
  | true :: rest, k + 1, c => walk0 rest (k + 1) (c + 1)
  | false :: rest, k + 1, c => walk0 rest k c

/-- Length of the leading run of `1` bits. -/
def trueRun : List Bool → Nat
  | true :: rest => trueRun rest + 1
  | _ => 0

/-- Modelled from the spec: `parent_to_children_nodes` of the external
louds-rs crate. The child group of node `i` is the run of `1` bits that
follows the `i`-th `0` bit of the bitstring, and the node number of a `1`
bit is one plus the number of `1` bits strictly before it. -/
def childrenNodeNums {L V : Type} (t : Trie L V) (i : Nat) : List Nat :=
  let w := walk0 t.louds i 0
  (List.range (trueRun w.2)).map (fun j => w.1 + j + 1)

namespace Trie

/-- Model of `has_children_node_nums`: the node has a nonempty child
group (`parent_to_children_indices(..).next().is_some()`). -/
def hasChildrenNodeNums {L V : Type} (t : Trie L V) (n : Nat) : Bool :=
  !(childrenNodeNums t n).isEmpty

/-- Cell of a node in the label table (`trie_label` in the source, which
indexes `trie_labels[node_num - 2]`; the out-of-range case is a Rust
panic, modelled as `none` and never reached on nodes obtained from the
navigation of a built trie). -/
def trieLabelAt {L V : Type} (t : Trie L V) (n : Nat) : Option (TrieLabel L V) :=
  t.trieLabels.get? (n - 2)

/-- Comparator of `bin_search_by_children_labels`
(`self.label(*child_node_num).cmp(query)`): `label()` panics on a `Value`
cell, modelled as `none`. -/
def labelCmpP {L V : Type} [LinearOrder L] (t : Trie L V) (q : L) (n : Nat) :
    Option Ordering :=
  match t.trieLabelAt n with
  | some (.label l) => some (lcmp l q)
  | some (.value _) => none
  | none => none

/-- Model of `bin_search_by_children_labels` from `map/trie.rs`. -/
def binSearchByChildrenLabels {L V : Type} [LinearOrder L] (t : Trie L V) (q : L)
    (children : List Nat) : Option (Nat ⊕ Nat) :=
  binarySearchByP (t.labelCmpP q) children

/-- Model of `is_terminal`: for a node number at least `2`, whether the
first child exists and its cell is a `Value`. -/
def isTerminal {L V : Type} (t : Trie L V) (n : Nat) : Bool :=
  if 2 ≤ n then
    match (childrenNodeNums t n).head? with
    | some x =>
      match t.trieLabelAt x with
      | some (.value _) => true
      | _ => false
    | none => false
  else false

/-- Model of `value`: for a node number at least `2`, the payload of the
first child when its cell is a `Value`. -/
def valueAt {L V : Type} (t : Trie L V) (n : Nat) : Option V :=
  if 2 ≤ n then
    match (childrenNodeNums t n).head? with
    | some x =>
      match t.trieLabelAt x with
      | some (.value v) => some v
      | _ => none
    | none => none
  else none

/-- Loop of `exact_match_node` from `map/trie.rs`, with the cursor node
number as a parameter: binary search the current children for the query
token; on `Ok`, if this was the last token and the child is terminal
return it, else continue from the child; on `Err` return `None`; a panic
of the comparator propagates. -/
def exactMatchGo {L V : Type} [LinearOrder L] (t : Trie L V) :
    Nat → List L → PanicOr (Option Nat)
  | _, [] => .ok none
  | cur, c :: rest =>
    let children := childrenNodeNums t cur
    match t.binSearchByChildrenLabels c children with
    | none => .panic
    | some (.inr _) => .ok none
    | some (.inl j) =>
      let child := children.getD j 0
      if rest = [] ∧ t.isTerminal child then .ok (some child)
      else exactMatchGo t child rest

/-- Model of `exact_match_node`: the loop starting at node number `1`. -/
def exactMatchNode {L V : Type} [LinearOrder L] (t : Trie L V) (query : List L) :
    PanicOr (Option Nat) :=
  t.exactMatchGo 1 query

/-- Model of `exact_match`: the landing node resolved to its value. -/
def exactMatch {L V : Type} [LinearOrder L] (t : Trie L V) (query : List L) :
    PanicOr (Option V) :=
  (t.exactMatchNode query).map (fun o => o.bind (t.valueAt))

/-- Shared descent loop of `is_prefix` and `postfix_search` (their Rust
loops are identical): follow the query tokens from the cursor, returning
the landing node, `none` on a failed search, and propagating a panic. -/
def descGo {L V : Type} [LinearOrder L] (t : Trie L V) :
    Nat → List L → PanicOr (Option Nat)
  | cur, [] => .ok (some cur)
  | cur, c :: rest =>
    let children := childrenNodeNums t cur
    match t.binSearchByChildrenLabels c children with
    | none => .panic
    | some (.inr _) => .ok none
    | some (.inl j) => descGo t (children.getD j 0) rest

/-- Model of `is_prefix`: descend from node `1`; a failed search is
`false`, otherwise report whether the landing node has any child. -/
def isPrefixFun {L V : Type} [LinearOrder L] (t : Trie L V) (query : List L) :
    PanicOr Bool :=
  (t.descGo 1 query).map (fun o =>
    match o with
    | some n => t.hasChildrenNodeNums n
    | none => false)

/-- Model of the descent phase of `postfix_search` (the phase present in
`map/trie.rs`): the node from which the postfix iterator starts, or
`none` when the iterator is empty. -/
def postfixDescend {L V : Type} [LinearOrder L] (t : Trie L V) (query : List L) :
    PanicOr (Option Nat) :=
  t.descGo 1 query

/-- Greedy extension loop of `longest_prefix`: while the current node is
not terminal and has exactly one child, descend into it, recording the
path. The fuel bounds the number of steps; `longestPrefixFun` passes one
more than the label table length, which the strictly increasing node
numbers of a built trie can never exhaust. -/
def longestGreedy {L V : Type} (t : Trie L V) :
    Nat → Nat → List Nat → List Nat
  | 0, _, buffer => buffer
  | fuel + 1, cur, buffer =>
    if t.isTerminal cur then buffer
    else
      match childrenNodeNums t cur with
      | [child] => t.longestGreedy fuel child (buffer ++ [child])
      | _ => buffer

/-- Descent loop of `longest_prefix`: follow the query, recording every
matched child node in the buffer; a failed search aborts with `none`. -/
def longestDescGo {L V : Type} [LinearOrder L] (t : Trie L V) :
    Nat → List Nat → List L → PanicOr (Option (Nat × List Nat))
  | cur, buffer, [] => .ok (some (cur, buffer))
  | cur, buffer, c :: rest =>
    let children := childrenNodeNums t cur
    match t.binSearchByChildrenLabels c children with
    | none => .panic
    | some (.inr _) => .ok none
    | some (.inl j) =>
      let child := children.getD j 0
      t.longestDescGo child (buffer ++ [child]) rest

/-- Read the label token of a buffered node (`self.label(x).clone()` in
the collection step of `longest_prefix`; a `Value` cell is the panic
branch of `label()`). -/
def labelTokenAt {L V : Type} (t : Trie L V) (n : Nat) : Option L :=
  match t.trieLabelAt n with
  | some (.label l) => some l
  | _ => none

/-- Tail of `longest_prefix` after the query descent: extend the buffer
greedily from the landing node, then return nothing on an empty buffer,
else map the recorded nodes to their label tokens (`none` of the token
read models the panic branch of `label()`; the `expect` of the collector
cannot fail for the list collector modelled here). -/
def longestCollect {L V : Type} (t : Trie L V) (cur : Nat) (buffer : List Nat) :
    PanicOr (Option (List L)) :=
  let buffer := t.longestGreedy (t.trieLabels.length + 1) cur buffer
  if buffer.isEmpty then .ok none
  else
    match buffer.mapM (t.labelTokenAt) with
    | some labels => .ok (some labels)
    | none => .panic

/-- Model of `longest_prefix` from `map/trie.rs`: descend along the query
recording the path (a failed search returns `None`); then extend greedily
while the node is not terminal and has a unique child; finally map the
recorded nodes to their label tokens. -/
def longestPrefixFun {L V : Type} [LinearOrder L] (t : Trie L V) (query : List L) :
    PanicOr (Option (List L)) :=
  match t.longestDescGo 1 [] query with
  | .panic => .panic
  | .ok none => .ok none
  | .ok (some (cur, buffer)) => t.longestCollect cur buffer

end Trie

/-! ### Auxiliary definitions for the statements and proofs -/

/-- Number of phantom sibling markers in a breadth-first stream. -/
def countPhantom {L V : Type} (s : List (BFItem L V)) : Nat :=
  s.countP (fun i => match i with | .phantom => true | _ => false)

/-- Number of real nodes (root or labelled) in a breadth-first stream. -/
def countReal {L V : Type} (s : List (BFItem L V)) : Nat :=
  s.countP (fun i => match i with | .phantom => false | _ => true)

mutual
/-- Whether a tree is free of `PhantomSibling` constructors (phantom
markers exist only inside the traversal, never as stored nodes). -/
def noPhantomB {L V : Type} : NaiveTrie L V → Bool
  | .root cs => noPhantomL cs
  | .intermOrLeaf _ cs => noPhantomL cs
  | .phantomSibling => false
/-- Whether a children sequence is free of `PhantomSibling` constructors. -/
def noPhantomL {L V : Type} : NaiveTrieL L V → Bool
  | .nil => true
  | .cons t ts => noPhantomB t && noPhantomL ts
end

/-- Whether a node is the `PhantomSibling` marker. -/
def NaiveTrie.isPhantomB {L V : Type} : NaiveTrie L V → Bool
  | .phantomSibling => true
  | _ => false

/-- Whether a node is an `IntermOrLeaf` (the only variant stored as a
child). -/
def NaiveTrie.isIntermB {L V : Type} : NaiveTrie L V → Bool
  | .intermOrLeaf _ _ => true
  | _ => false

/-- Whether a cell is a `Value` cell. -/
def isValueCell {L V : Type} : TrieLabel L V → Bool
  | .value _ => true
  | _ => false

/-- Strict cell ordering of the specification: any `Value` cell sorts
strictly below any `Label` cell, `Label` cells compare by their tokens,
and two `Value` cells are unrelated (their coexistence is the panic
branch of the `PartialOrd` impl). -/
def cellLT {L V : Type} [LinearOrder L] : TrieLabel L V → TrieLabel L V → Prop
  | .value _, .label _ => True
  | .label a, .label b => a < b
  | _, _ => False

/-- Strict cell ordering lifted to child nodes through their cells. -/
def childLTc {L V : Type} [LinearOrder L] (a b : NaiveTrie L V) : Prop :=
  match a.cellOf, b.cellOf with
  | some x, some y => cellLT x y
  | _, _ => False

/-- Structural invariant of the naive trie maintained by `push` starting
from `make_root`: the node is not a phantom, every child is an
`IntermOrLeaf` satisfying the invariant, and the children are strictly
sorted under the cell ordering. -/
inductive NaiveInv {L V : Type} [LinearOrder L] : NaiveTrie L V → Prop where
  | mk : ∀ (t : NaiveTrie L V),
      t ≠ .phantomSibling →
      (∀ c ∈ t.childrenL, c.isIntermB = true) →
      (∀ c ∈ t.childrenL, NaiveInv c) →
      t.childrenL.Pairwise childLTc →
      NaiveInv t

/-- Predicate holding at every node of a tree: the property applies to
the children list of the node and recursively to every child. -/
inductive AllNodes {L V : Type} (P : List (NaiveTrie L V) → Prop) :
    NaiveTrie L V → Prop where
  | mk : ∀ (t : NaiveTrie L V),
      P t.childrenL →
      (∀ c ∈ t.childrenL, AllNodes P c) →
      AllNodes P t

/-- Cell sequence of a children list. -/
def childCells {L V : Type} (cs : List (NaiveTrie L V)) : List (TrieLabel L V) :=
  cs.filterMap NaiveTrie.cellOf

/-- Whether the cell of a node is the `Label` cell of a given token. -/
def NaiveTrie.hasLabelB {L V : Type} [DecidableEq L] (c : L) (u : NaiveTrie L V) : Bool :=
  match u.cellOf with
  | some (.label a) => decide (a = c)
  | _ => false

/-- Reference child lookup in the naive trie: the first child whose cell
is a `Label` equal to the token. -/
def NaiveTrie.findChild {L V : Type} [LinearOrder L] (t : NaiveTrie L V) (c : L) :
    Option (NaiveTrie L V) :=
  t.childrenL.find? (NaiveTrie.hasLabelB c)

/-- Value stored at a node of the naive trie: the payload of its first
child when that child is a `Value` leaf. -/
def NaiveTrie.headValue {L V : Type} (t : NaiveTrie L V) : Option V :=
  match t.childrenL.head? with
  | some u =>
    match u.cellOf with
    | some (.value v) => some v
    | _ => none
  | none => none

/-- Reference lookup semantics of the naive trie: descend along the key
by `findChild` and read the stored value at the landing node. Used to
state and prove correctness of `push` and of the built trie. -/
def NaiveTrie.lookupNaive {L V : Type} [LinearOrder L] :
    NaiveTrie L V → List L → Option V
  | t, [] => t.headValue
  | t, c :: rest =>
    match t.findChild c with
    | some u => u.lookupNaive rest
    | none => none

/-- Value associated with a key by the last push of that key in a pair
sequence (last write wins). -/
def lastAssoc {L V : Type} [DecidableEq L] (pairs : List (List L × V)) (k : List L) :
    Option V :=
  pairs.foldl (fun acc p => if p.1 = k then some p.2 else acc) none

/-- Whether a subtree stores at least one value, so that the enumeration
of its keys is nonempty. -/
def NaiveTrie.productive {L V : Type} [LinearOrder L] (t : NaiveTrie L V) : Prop :=
  ∃ (s : List L) (v : V), t.lookupNaive s = some v

/-- Every child at every node of the tree stores at least one value:
trees built by `push` never contain dead branches. -/
def NaiveTrie.minimalT {L V : Type} [LinearOrder L] (t : NaiveTrie L V) : Prop :=
  AllNodes (fun cs => ∀ c ∈ cs, c.productive) t

/-- Correspondence between a node number of the succinct trie and a
subtree of the naive trie: the child group of the number lists exactly
the children of the subtree in order, the label table holds their cells,
and the correspondence continues recursively. This is the LOUDS
soundness relation. -/
inductive NodeCorr {L V : Type} (T : Trie L V) : Nat → NaiveTrie L V → Prop where
  | mk : ∀ (i : Nat) (t : NaiveTrie L V),
      (childrenNodeNums T i).length = t.childrenL.length →
      (∀ j, j < t.childrenL.length →
        2 ≤ (childrenNodeNums T i).getD j 0) →
      (∀ j, j < t.childrenL.length →
        T.trieLabelAt ((childrenNodeNums T i).getD j 0) =
          (t.childrenL.getD j .phantomSibling).cellOf) →
      (∀ j, j < t.childrenL.length →
        NodeCorr T ((childrenNodeNums T i).getD j 0)
          (t.childrenL.getD j .phantomSibling)) →
      NodeCorr T i t

/-- Queue made of the child blocks of a frontier: every block is a
children list followed by one phantom marker. -/
def frontierQueue {L V : Type} (fr : List (List (NaiveTrie L V))) :
    List (NaiveTrie L V) :=
  fr.flatMap (fun cs => cs ++ [.phantomSibling])

/-- Nodes of a frontier in order. -/
def elemsF {L V : Type} (fr : List (List (NaiveTrie L V))) : List (NaiveTrie L V) :=
  fr.flatMap id

/-- Next frontier: the children lists of all nodes of the frontier. -/
def nextFrontier {L V : Type} (fr : List (List (NaiveTrie L V))) :
    List (List (NaiveTrie L V)) :=
  (elemsF fr).map NaiveTrie.childrenL

/-- LOUDS bits of one level of the stream: one `1` per node of each
block, one `0` closing each block. -/
def blocksBits {L V : Type} (fr : List (List (NaiveTrie L V))) : List Bool :=
  fr.flatMap (fun cs => List.replicate cs.length true ++ [false])

/-- Label cells of one level of the stream. -/
def levelCells {L V : Type} (fr : List (List (NaiveTrie L V))) :
    List (TrieLabel L V) :=
  (elemsF fr).filterMap NaiveTrie.cellOf

/-- Model of a write through the reference returned by
`exact_match_mut`: locate the node by `exact_match_node`, then, as
`value_mut` does, take the first child of the landing node; when its cell
is a `Value`, replace the payload in the label table. In all other cases
`exact_match_mut` returned `None` and the write does not happen. -/
def Trie.setValueAt {L V : Type} [LinearOrder L] (t : Trie L V) (k : List L) (v : V) :
    Trie L V :=
  match t.exactMatchNode k with
  | .ok (some n) =>
    match (childrenNodeNums t n).head? with
    | some c =>
      match t.trieLabelAt c with
      | some (.value _) => { t with trieLabels := t.trieLabels.set (c - 2) (.value v) }
      | _ => t
    | none => t
  | _ => t

/-- Equality of cells up to `Value` payloads: used to state that a write
through `exact_match_mut` changes no label cell. -/
def cellShapeEq {L V : Type} : TrieLabel L V → TrieLabel L V → Prop
  | .label a, .label b => a = b
  | .value _, .value _ => True
  | _, _ => False

/-- Modelled from the claim wording of C8: the exact match descent
beginning at node number `2` instead of node number `1`. -/
def Trie.exactMatchFromTwo {L V : Type} [LinearOrder L] (t : Trie L V)
    (query : List L) : PanicOr (Option V) :=
  (t.exactMatchGo 2 query).map (fun o => o.bind (t.valueAt))

/-- Children of a node that are not `Value` cells (the unique
continuation test of the claim wording of C4). -/
def Trie.nonValueChildren {L V : Type} (t : Trie L V) (n : Nat) : List Nat :=
  (childrenNodeNums t n).filter (fun c =>
    match t.trieLabelAt c with
    | some (.value _) => false
    | _ => true)

/-- Modelled from the claim wording of C4: the descent phase that, when
an unmatched label forces a stop, keeps the path walked so far instead of
returning nothing. -/
def Trie.longestDescClaimGo {L V : Type} [LinearOrder L] (t : Trie L V) :
    Nat → List Nat → List L → PanicOr (Nat × List Nat)
  | cur, buffer, [] => .ok (cur, buffer)
  | cur, buffer, c :: rest =>
    let children := childrenNodeNums t cur
    match t.binSearchByChildrenLabels c children with
    | none => .panic
    | some (.inr _) => .ok (cur, buffer)
    | some (.inl j) =>
      let child := children.getD j 0
      t.longestDescClaimGo child (buffer ++ [child]) rest

/-- Modelled from the claim wording of C4: greedy descent while the node
is not terminal and has exactly one non-value child. -/
def Trie.longestGreedyClaim {L V : Type} (t : Trie L V) :
    Nat → Nat → List Nat → List Nat
  | 0, _, buffer => buffer
  | fuel + 1, cur, buffer =>
    if t.isTerminal cur then buffer
    else
      match t.nonValueChildren cur with
      | [child] => t.longestGreedyClaim fuel child (buffer ++ [child])
      | _ => buffer

/-- Modelled from the claim wording of C4: `longest_prefix` as the claim
describes it, continuing greedily even after an unmatched label, and
returning nothing only if no labels were consumed. -/
def Trie.longestPrefixClaim {L V : Type} [LinearOrder L] (t : Trie L V)
    (query : List L) : PanicOr (Option (List L)) :=
  match t.longestDescClaimGo 1 [] query with
  | .panic => .panic
  | .ok (cur, buffer) =>
    let buffer := t.longestGreedyClaim (t.trieLabels.length + 1) cur buffer
    if buffer.isEmpty then .ok none
    else
      match buffer.mapM (t.labelTokenAt) with
      | some labels => .ok (some labels)
      | none => .panic

/-- Descent phase of the amended description of `longest_prefix`,
building the node path by consing rather than through an accumulator:
returns the landing node and the matched path, or nothing on an
unmatched label. -/
def Trie.longestDescSpec {L V : Type} [LinearOrder L] (t : Trie L V) :
    Nat → List L → PanicOr (Option (Nat × List Nat))
  | cur, [] => .ok (some (cur, []))
  | cur, c :: rest =>
    let children := childrenNodeNums t cur
    match t.binSearchByChildrenLabels c children with
    | none => .panic
    | some (.inr _) => .ok none
    | some (.inl j) =>
      let child := children.getD j 0
      (t.longestDescSpec child rest).map (fun o =>
        o.map (fun p => (p.1, child :: p.2)))

/-- Greedy phase of the amended description of `longest_prefix`: the
unique-continuation extension below a node, built by consing. -/
def Trie.longestGreedySpec {L V : Type} (t : Trie L V) : Nat → Nat → List Nat
  | 0, _ => []
  | fuel + 1, cur =>
    if t.isTerminal cur then []
    else
      match childrenNodeNums t cur with
      | [child] => child :: t.longestGreedySpec fuel child
      | _ => []

/-- Tail of the amended description of `longest_prefix`: append the
greedy extension to the matched path and read off the labels. -/
def Trie.longestCollectSpec {L V : Type} (t : Trie L V) (cur : Nat) (path : List Nat) :
    PanicOr (Option (List L)) :=
  let full := path ++ t.longestGreedySpec (t.trieLabels.length + 1) cur
  if full.isEmpty then .ok none
  else
    match full.mapM (t.labelTokenAt) with
    | some labels => .ok (some labels)
    | none => .panic

/-- Amended description of `longest_prefix`: descend along the query
(an unmatched label yields nothing); then extend greedily while the node
is not terminal and has exactly one child; return the labels along the
concatenated path, nothing if the path is empty. -/
def Trie.longestPrefixSpec {L V : Type} [LinearOrder L] (t : Trie L V)
    (query : List L) : PanicOr (Option (List L)) :=
  match t.longestDescSpec 1 query with
  | .panic => .panic
  | .ok none => .ok none
  | .ok (some (cur, path)) => t.longestCollectSpec cur path

/-- LOUDS bits contributed to the stream by a frontier and everything
below it. -/
def bitsFrom {L V : Type} (fr : List (List (NaiveTrie L V))) : List Bool :=
  (bfsS (frontierQueue fr)).filterMap itemBit

/-- Label cells contributed to the stream by a frontier and everything
below it. -/
def cellsFrom {L V : Type} (fr : List (List (NaiveTrie L V))) : List (TrieLabel L V) :=
  (bfsS (frontierQueue fr)).filterMap itemCell

/-- Number of nodes placed in the blocks of a frontier strictly before a
given block. -/
def offsetIn {L V : Type} (fr : List (List (NaiveTrie L V))) (b : Nat) : Nat :=
  ((fr.take b).map List.length).sum

/-- Every node of every block of a frontier is an `IntermOrLeaf` node,
as are all of its descendants. -/
def frInterm {L V : Type} (fr : List (List (NaiveTrie L V))) : Prop :=
  ∀ blk ∈ fr, ∀ u ∈ blk, u.isIntermB = true ∧
    AllNodes (fun cs => ∀ c ∈ cs, c.isIntermB = true) u

/-- Localised payload difference between two naive tries: the two trees
are identical except that along one descending path the payload of one
`Value` cell has been replaced (`w` by `v`). This is the exact shape of
the change `push` makes when the pushed key is already stored. -/
inductive PayloadDiff {L V : Type} (w v : V) : NaiveTrie L V → NaiveTrie L V → Prop where
  | cell : ∀ (cs : NaiveTrieL L V),
      PayloadDiff w v (.intermOrLeaf (.value w) cs) (.intermOrLeaf (.value v) cs)
  | down : ∀ (t t2 u2 : NaiveTrie L V) (j : Nat),
      j < t.childrenL.length →
      t2.item = t.item →
      t2.childrenL = t.childrenL.set j u2 →
      PayloadDiff w v (t.childrenL.getD j .phantomSibling) u2 →
      PayloadDiff w v t t2

/-- Lookup semantics of a bare children list: the reference lookup of a
node with exactly these children (the lookup only ever reads the
children). -/
def lookupCs {L V : Type} [LinearOrder L] (cs : List (NaiveTrie L V))
    (k : List L) : Option V :=
  (NaiveTrie.root (NaiveTrieL.ofList cs)).lookupNaive k

/-- Tidiness invariant maintained by `push`: at every node, a child
carrying a `Label` cell stores at least one value below it, and a child
carrying a `Value` cell is a bare leaf. Together with the sortedness
invariant this makes a trie determined by its lookup function. -/
def NaiveTrie.tidy {L V : Type} [LinearOrder L] (t : NaiveTrie L V) : Prop :=
  AllNodes (fun cs => ∀ c ∈ cs,
    ((∃ a, c.cellOf = some (.label a)) → c.productive) ∧
    ((∃ v2, c.cellOf = some (.value v2)) → c.childrenL = [])) t

/-! ### Concrete inputs used by counterexamples and witnesses -/

/-- Bytes of the key "a". -/
def keyA : List Nat := [97]

/-- Bytes of the key "app". -/
def keyApp : List Nat := [97, 112, 112]

/-- Bytes of the key "apple". -/
def keyApple : List Nat := [97, 112, 112, 108, 101]

/-- Bytes of the key "better". -/
def keyBetter : List Nat := [98, 101, 116, 116, 101, 114]

/-- Bytes of the key "application". -/
def keyApplication : List Nat := [97, 112, 112, 108, 105, 99, 97, 116, 105, 111, 110]

/-- Bytes of the UTF-8 key made of four katakana and one emoji
(the sixth key of scenario 1 of the specification). -/
def keyKatakana : List Nat :=
  [227, 130, 162, 227, 131, 131, 227, 131, 151, 227, 131, 171, 240, 159, 141, 142]

/-- Key and value pairs of scenario 1 of the specification. -/
def scenarioPairs : List (List Nat × Nat) :=
  [(keyA, 0), (keyApp, 1), (keyApple, 2), (keyBetter, 3), (keyApplication, 4),
   (keyKatakana, 5)]

/-- Naive trie of scenario 1. -/
def scenarioNaive : NaiveTrie Nat Nat :=
  NaiveTrie.pushAll NaiveTrie.makeRoot scenarioPairs

/-- Built trie of scenario 1. -/
def scenarioTrie : Trie Nat Nat := Trie.build scenarioNaive

/-- Built trie storing the single pair with the empty key. -/
def emptyKeyTrie : Trie Nat Nat :=
  Trie.build (NaiveTrie.pushAll NaiveTrie.makeRoot [([], 7)])

/-- Built trie storing the two one-byte keys "a" and "b". -/
def twoKeyTrie : Trie Nat Nat :=
  Trie.build (NaiveTrie.pushAll NaiveTrie.makeRoot [([97], 0), ([98], 1)])

/-- Built trie storing the single two-byte key "ab". -/
def abTrie : Trie Nat Nat :=
  Trie.build (NaiveTrie.pushAll NaiveTrie.makeRoot [([97, 98], 0)])

/-! ### Basic facts about the breadth-first stream -/

theorem sumWeight_pos {L V : Type} (t : NaiveTrie L V) : 1 ≤ sumWeight t := by
  cases t <;> simp [sumWeight] <;> omega

theorem sumWeightQ_nil {L V : Type} : sumWeightQ ([] : List (NaiveTrie L V)) = 0 := rfl

theorem sumWeightQ_cons {L V : Type} (t : NaiveTrie L V) (q : List (NaiveTrie L V)) :
    sumWeightQ (t :: q) = sumWeight t + sumWeightQ q := by
  simp [sumWeightQ]

theorem sumWeightQ_append {L V : Type} (q r : List (NaiveTrie L V)) :
    sumWeightQ (q ++ r) = sumWeightQ q + sumWeightQ r := by
  simp [sumWeightQ]

theorem sumWeightQ_toList {L V : Type} :
    ∀ (cs : NaiveTrieL L V), sumWeightQ cs.toList = sumWeightL cs
  | .nil => rfl
  | .cons t ts => by
      simp [NaiveTrieL.toList, sumWeightQ_cons, sumWeightL, sumWeightQ_toList ts]

theorem sumWeightQ_expand {L V : Type} (t : NaiveTrie L V) (q : List (NaiveTrie L V)) :
    sumWeightQ (q ++ t.expandBF) + 1 = sumWeight t + sumWeightQ q := by
  cases t <;>
    simp [NaiveTrie.expandBF, sumWeightQ_append, sumWeightQ_cons, sumWeightQ_toList,
      sumWeight, sumWeightQ_nil] <;> omega

theorem bfsFuel_sufficient {L V : Type} :
    ∀ (fuel : Nat) (q : List (NaiveTrie L V)), sumWeightQ q ≤ fuel →
      bfsFuel fuel q = bfsS q := by
  intro fuel
  induction fuel with
  | zero =>
    intro q hq
    match q with
    | [] => rfl
    | t :: q' =>
      exfalso
      have := sumWeight_pos t
      rw [sumWeightQ_cons] at hq
      omega
  | succ fuel ih =>
    intro q hq
    match q with
    | [] => rfl
    | t :: q' =>
      have hw : sumWeightQ (q' ++ t.expandBF) + 1 = sumWeight t + sumWeightQ q' :=
        sumWeightQ_expand t q'
      have h1 : sumWeightQ (q' ++ t.expandBF) ≤ fuel := by
        rw [sumWeightQ_cons] at hq; omega
      have h2 : sumWeightQ (t :: q') = sumWeightQ (q' ++ t.expandBF) + 1 := by
        rw [sumWeightQ_cons]; omega
      show t.item :: bfsFuel fuel (q' ++ t.expandBF) = bfsS (t :: q')
      rw [ih _ h1]
      unfold bfsS
      rw [h2]
      rfl

theorem bfsS_nil {L V : Type} : bfsS ([] : List (NaiveTrie L V)) = [] := rfl

theorem bfsS_cons {L V : Type} (t : NaiveTrie L V) (q : List (NaiveTrie L V)) :
    bfsS (t :: q) = t.item :: bfsS (q ++ t.expandBF) := by
  unfold bfsS
  have h2 : sumWeightQ (t :: q) = sumWeightQ (q ++ t.expandBF) + 1 := by
    have := sumWeightQ_expand t q
    rw [sumWeightQ_cons]; omega
  rw [h2]
  rfl

/-- Level decomposition of the breadth-first stream: the stream of a
queue is the items of the queue followed by the stream of all their
expansions in order. Each real node of the queue contributes its
children as a contiguous block closed by exactly one phantom marker. -/
theorem bfsS_level {L V : Type} :
    ∀ (q1 q2 : List (NaiveTrie L V)),
      bfsS (q1 ++ q2) =
        q1.map NaiveTrie.item ++ bfsS (q2 ++ q1.flatMap NaiveTrie.expandBF)
  | [], q2 => by simp
  | t :: q1', q2 => by
    rw [List.cons_append, bfsS_cons, List.append_assoc,
      bfsS_level q1' (q2 ++ t.expandBF)]
    simp [List.append_assoc]

/-! ### Claim C10: the empty query -/

/-- C10: for every built trie, `exact_match` applied to the empty query
returns `None`, even when the empty key was pushed before `build`: the
push stores the value as a `Value` cell that becomes the first child of
the root, but the query loop of `exact_match_node` never runs on an empty
query and falls through to `None`. The third conjunct shows the concrete
empty-key trie: the cell is stored in the label table, yet the query
returns nothing. -/
theorem c10_empty_query_none :
    (∀ (T : Trie Nat Nat), T.exactMatch [] = .ok none) ∧
    (∀ (cs : NaiveTrieL Nat Nat) (v : Nat),
      ((NaiveTrie.root cs).push [] v).headValue = some v) ∧
    (emptyKeyTrie.exactMatch [] = .ok none ∧
      emptyKeyTrie.trieLabels.head? = some (.value 7)) := by
  refine ⟨fun T => rfl, ?_, by decide⟩
  intro cs v
  show ((NaiveTrie.root cs).withChildren
      (NaiveTrie.insertOrSetValue cs.toList v)).headValue = some v
  unfold NaiveTrie.insertOrSetValue
  cases h : cs.toList with
  | nil =>
    simp [h, NaiveTrie.withChildren, NaiveTrie.headValue, NaiveTrie.childrenL,
      NaiveTrieL.toList_ofList, NaiveTrie.makeLeaf, NaiveTrie.cellOf]
  | cons u rest =>
    cases u with
    | root ucs =>
      simp [h, NaiveTrie.withChildren, NaiveTrie.headValue, NaiveTrie.childrenL,
        NaiveTrieL.toList_ofList, NaiveTrie.makeLeaf, NaiveTrie.cellOf]
    | phantomSibling =>
      simp [h, NaiveTrie.withChildren, NaiveTrie.headValue, NaiveTrie.childrenL,
        NaiveTrieL.toList_ofList, NaiveTrie.makeLeaf, NaiveTrie.cellOf]
    | intermOrLeaf lbl ucs =>
      cases lbl with
      | label a =>
        simp [h, NaiveTrie.withChildren, NaiveTrie.headValue, NaiveTrie.childrenL,
          NaiveTrieL.toList_ofList, NaiveTrie.makeLeaf, NaiveTrie.cellOf]
      | value w =>
        simp [h, NaiveTrie.withChildren, NaiveTrie.headValue, NaiveTrie.childrenL,
          NaiveTrieL.toList_ofList, NaiveTrie.makeLeaf, NaiveTrie.cellOf]

/-! ### Claim C2: the search traversal can panic -/

/-- C2 failing input: on the scenario 1 trie, the query "appler" makes
`exact_match` descend to the node of "apple", whose only child is the
`Value` cell; the binary search for the token `r` probes that cell and
`label()` takes its precondition-failure branch. The repository test
`exact_match_tests::t8` expects `None` for this query. The second
conjunct shows the same panic for `longest_prefix`
(`longest_prefix_tests::t7` expects `None`), and the third shows the
minimal two-push reproduction. -/
theorem c2_exact_match_panic_eval :
    scenarioTrie.exactMatch (keyApple ++ [114]) = .panic ∧
    scenarioTrie.longestPrefixFun (keyApple ++ [114]) = .panic ∧
    abTrie.exactMatch [97, 98, 99] = .panic := by
  decide

/-! ### Claim C3: is_prefix on a stored full key -/

/-- C3 evaluation: on the scenario 1 trie, `is_prefix("appl")` is `true`
as the claim states, but `is_prefix("apple")` is also `true`: the landing
node of "apple" has its `Value` cell as a child and
`has_children_node_nums` counts it, while the repository test
`is_prefix_tests::t3` and the specification expect `false`. The third
conjunct shows the same divergence for "better"
(`is_prefix_tests::t5`). -/
theorem c3_is_prefix_eval :
    scenarioTrie.isPrefixFun [97, 112, 112, 108] = .ok true ∧
    scenarioTrie.isPrefixFun keyApple = .ok true ∧
    scenarioTrie.isPrefixFun keyBetter = .ok true := by
  decide

/-! ### Claim C1, counterexample part: the empty key -/

/-- C1 counterexample: the claim quantifies over every pushed key
including the empty key; pushing the empty key with value `7` and
building, `exact_match` on the empty key returns `None`, not `Some 7`. -/
theorem c1_empty_key_counterexample :
    emptyKeyTrie.exactMatch [] = .ok none ∧
    emptyKeyTrie.exactMatch [] ≠ .ok (some 7) ∧
    lastAssoc [(([] : List Nat), 7)] [] = some 7 := by
  decide

/-! ### Claim C8: the descent start node -/

/-- C8 counterexample: on the trie of the keys "a" and "b",
`exact_match("a")` succeeds, while the descent the claim describes,
beginning at node number `2` and matching the first query label against
the children of node `2`, does not (node 2 is the labelled node of "a";
its only child is a `Value` cell, so the probe panics). The last two
conjuncts show the label table positions: node 2 holds the first label
cell, so node 2 cannot be an unlabelled root. -/
theorem c8_start_node_counterexample :
    twoKeyTrie.exactMatch [97] = .ok (some 0) ∧
    twoKeyTrie.exactMatchFromTwo [97] ≠ twoKeyTrie.exactMatch [97] ∧
    twoKeyTrie.trieLabelAt 2 = some (.label 97) ∧
    childrenNodeNums twoKeyTrie 1 = [2, 3] := by
  decide

/-- C8 amended: every search operation of `map/trie.rs` begins its
descent at node number `1` (the root of the stored trie, whose children
are the first-level labelled nodes) and matches the first query label
against the children of node `1`; labelled nodes are numbered from `2`
(the label table is indexed by node number minus two). The first group
of conjuncts exhibits the start node of each operation; the second group
shows the concrete numbering on the two-key trie. -/
theorem c8_start_node_amended :
    (∀ (T : Trie Nat Nat) (q : List Nat),
      T.exactMatchNode q = T.exactMatchGo 1 q ∧
      T.isPrefixFun q = (T.descGo 1 q).map (fun o =>
        match o with
        | some n => T.hasChildrenNodeNums n
        | none => false) ∧
      T.postfixDescend q = T.descGo 1 q ∧
      (∀ cur buffer, T.longestDescGo 1 [] q = .ok (some (cur, buffer)) →
        T.longestPrefixFun q = T.longestCollect cur buffer) ∧
      (T.longestDescGo 1 [] q = .ok none → T.longestPrefixFun q = .ok none)) ∧
    (childrenNodeNums twoKeyTrie 1 = [2, 3] ∧
      twoKeyTrie.trieLabelAt 2 = some (.label 97) ∧
      twoKeyTrie.trieLabelAt 3 = some (.label 98) ∧
      twoKeyTrie.exactMatch [97] = .ok (some 0) ∧
      twoKeyTrie.exactMatch [98] = .ok (some 1)) := by
  refine ⟨fun T q => ⟨rfl, rfl, rfl, ?_, ?_⟩, by decide⟩
  · intro cur buffer h
    unfold Trie.longestPrefixFun
    rw [h]
  · intro h
    unfold Trie.longestPrefixFun
    rw [h]

/-! ### Claim C4: longest_prefix -/

theorem longestDescGo_spec {L V : Type} [LinearOrder L] (t : Trie L V) :
    ∀ (q : List L) (cur : Nat) (buf : List Nat),
      t.longestDescGo cur buf q =
        (t.longestDescSpec cur q).map (fun o => o.map (fun p => (p.1, buf ++ p.2)))
  | [], cur, buf => by
    simp [Trie.longestDescGo, Trie.longestDescSpec, PanicOr.map]
  | c :: rest, cur, buf => by
    unfold Trie.longestDescGo Trie.longestDescSpec
    dsimp only
    cases hb : t.binSearchByChildrenLabels c (childrenNodeNums t cur) with
    | none => rfl
    | some r =>
      cases r with
      | inr j => rfl
      | inl j =>
        dsimp only
        rw [longestDescGo_spec t rest ((childrenNodeNums t cur).getD j 0)
          (buf ++ [(childrenNodeNums t cur).getD j 0])]
        cases hs : t.longestDescSpec ((childrenNodeNums t cur).getD j 0) rest with
        | panic => rfl
        | ok o =>
          cases o with
          | none => rfl
          | some p => simp [PanicOr.map]

theorem longestGreedy_spec {L V : Type} (t : Trie L V) :
    ∀ (fuel : Nat) (cur : Nat) (buf : List Nat),
      t.longestGreedy fuel cur buf = buf ++ t.longestGreedySpec fuel cur
  | 0, cur, buf => by simp [Trie.longestGreedy, Trie.longestGreedySpec]
  | fuel + 1, cur, buf => by
    unfold Trie.longestGreedy Trie.longestGreedySpec
    by_cases ht : t.isTerminal cur
    · simp [ht]
    · simp only [ht, Bool.false_eq_true, if_false]
      cases hc : childrenNodeNums t cur with
      | nil => simp
      | cons a l =>
        cases l with
        | nil =>
          show t.longestGreedy fuel a (buf ++ [a]) = buf ++ (a :: t.longestGreedySpec fuel a)
          rw [longestGreedy_spec t fuel a (buf ++ [a])]
          simp
        | cons b l2 => simp

theorem longestCollect_spec {L V : Type} (t : Trie L V) (cur : Nat) (buf : List Nat) :
    t.longestCollect cur buf = t.longestCollectSpec cur buf := by
  unfold Trie.longestCollect Trie.longestCollectSpec
  rw [longestGreedy_spec]

/-- C4 counterexample: on the trie of the single key "ab", the query
"az" consumes the label `a` and then meets the unmatched label `z`; the
code returns `None`, while the descent the claim describes (stop, then
continue greedily, returning nothing only if no labels were consumed)
produces "ab". -/
theorem c4_unmatched_label_counterexample :
    abTrie.longestPrefixFun [97, 122] = .ok none ∧
    abTrie.longestPrefixClaim [97, 122] = .ok (some [97, 98]) ∧
    abTrie.longestPrefixFun [97, 122] ≠ abTrie.longestPrefixClaim [97, 122] := by
  decide

/-- C4 amended: `longest_prefix(q)` descends along `q` remembering the
path; an unmatched query label makes it return `None` regardless of how
many labels were already consumed; when the query is exhausted it
continues descending greedily while the current node is not terminal and
has exactly one child, and returns the concatenation of the labels along
the traversed path, returning nothing only if no labels were consumed;
in particular, on the scenario 1 trie, `longest_prefix("appli")` is
`Some("application")`. The first conjunct proves the code equal to the
amended description; the second conjunct is the concrete instance. -/
theorem c4_longest_prefix_amended :
    (∀ (T : Trie Nat Nat) (q : List Nat),
      T.longestPrefixFun q = T.longestPrefixSpec q) ∧
    scenarioTrie.longestPrefixFun [97, 112, 112, 108, 105] =
      .ok (some keyApplication) := by
  refine ⟨fun T q => ?_, by decide⟩
  unfold Trie.longestPrefixFun Trie.longestPrefixSpec
  rw [longestDescGo_spec T q 1 []]
  cases hs : T.longestDescSpec 1 q with
  | panic => rfl
  | ok o =>
    cases o with
    | none => rfl
    | some p =>
      obtain ⟨cur, path⟩ := p
      simp [PanicOr.map, longestCollect_spec]

/-! ### Claim C6: the sibling sentinel law -/

theorem noPhantomL_mem {L V : Type} :
    ∀ (cs : NaiveTrieL L V), noPhantomL cs = true →
      ∀ u ∈ cs.toList, noPhantomB u = true
  | .nil, _, u, hu => by simp [NaiveTrieL.toList] at hu
  | .cons t ts, h, u, hu => by
    rw [noPhantomL, Bool.and_eq_true] at h
    rw [NaiveTrieL.toList, List.mem_cons] at hu
    cases hu with
    | inl he => rw [he]; exact h.1
    | inr ht => exact noPhantomL_mem ts h.2 u ht

theorem countPhantom_cons {L V : Type} (i : BFItem L V) (s : List (BFItem L V)) :
    countPhantom (i :: s) =
      countPhantom s + (match i with | .phantom => 1 | _ => 0) := by
  cases i <;> simp [countPhantom, List.countP_cons]

theorem countReal_cons {L V : Type} (i : BFItem L V) (s : List (BFItem L V)) :
    countReal (i :: s) =
      countReal s + (match i with | .phantom => 0 | _ => 1) := by
  cases i <;> simp [countReal, List.countP_cons]

/-- Phantom accounting of the breadth-first stream of a queue: every real
node popped contributes exactly one phantom marker to the rest of the
stream, so the phantom count of the stream exceeds the real count by the
number of phantoms already in the queue. -/
theorem bfs_phantom_count {L V : Type} :
    ∀ (n : Nat) (q : List (NaiveTrie L V)), sumWeightQ q ≤ n →
      (∀ u ∈ q, u = .phantomSibling ∨ noPhantomB u = true) →
      countPhantom (bfsS q) =
        countReal (bfsS q) + q.countP NaiveTrie.isPhantomB := by
  intro n
  induction n with
  | zero =>
    intro q hq _
    match q with
    | [] => rfl
    | t :: q' =>
      exfalso
      have := sumWeight_pos t
      rw [sumWeightQ_cons] at hq
      omega
  | succ n ih =>
    intro q hq hwf
    match q with
    | [] => rfl
    | t :: q' =>
      rw [bfsS_cons]
      have hwq' : ∀ u ∈ q', u = .phantomSibling ∨ noPhantomB u = true :=
        fun u hu => hwf u (List.mem_cons_of_mem t hu)
      cases t with
      | phantomSibling =>
        rw [show (NaiveTrie.phantomSibling : NaiveTrie L V).expandBF = [] from rfl,
          List.append_nil]
        have hs : sumWeightQ q' ≤ n := by
          rw [sumWeightQ_cons] at hq
          have h1 : sumWeight (NaiveTrie.phantomSibling : NaiveTrie L V) = 1 := rfl
          omega
        rw [countPhantom_cons, countReal_cons, ih q' hs hwq']
        simp [NaiveTrie.item, List.countP_cons, NaiveTrie.isPhantomB]
        omega
      | root cs =>
        have hnp : noPhantomB (NaiveTrie.root cs) = true := by
          rcases hwf _ (List.mem_cons_self _ _) with h | h
          · exact absurd h (by simp)
          · exact h
        have hs : sumWeightQ (q' ++ (NaiveTrie.root cs).expandBF) ≤ n := by
          have := sumWeightQ_expand (NaiveTrie.root cs) q'
          rw [sumWeightQ_cons] at hq
          have hp := sumWeight_pos (NaiveTrie.root cs)
          omega
        have hwq : ∀ u ∈ q' ++ (NaiveTrie.root cs).expandBF,
            u = .phantomSibling ∨ noPhantomB u = true := by
          intro u hu
          rw [List.mem_append] at hu
          cases hu with
          | inl h => exact hwq' u h
          | inr h =>
            rw [NaiveTrie.expandBF, List.mem_append] at h
            cases h with
            | inl h2 =>
              right
              exact noPhantomL_mem cs (by simpa [noPhantomB] using hnp) u h2
            | inr h2 => left; simpa using h2
        have hcs0 : List.countP NaiveTrie.isPhantomB cs.toList = 0 := by
          rw [List.countP_eq_zero]
          intro u hu
          have h2 := noPhantomL_mem cs (by simpa [noPhantomB] using hnp) u hu
          cases u <;> simp [NaiveTrie.isPhantomB] <;> simp [noPhantomB] at h2
        rw [countPhantom_cons, countReal_cons, ih _ hs hwq]
        simp [NaiveTrie.expandBF, NaiveTrie.item, List.countP_append,
          List.countP_cons, NaiveTrie.isPhantomB, hcs0]
        omega
      | intermOrLeaf lbl cs =>
        have hnp : noPhantomB (NaiveTrie.intermOrLeaf lbl cs) = true := by
          rcases hwf _ (List.mem_cons_self _ _) with h | h
          · exact absurd h (by simp)
          · exact h
        have hs : sumWeightQ (q' ++ (NaiveTrie.intermOrLeaf lbl cs).expandBF) ≤ n := by
          have := sumWeightQ_expand (NaiveTrie.intermOrLeaf lbl cs) q'
          rw [sumWeightQ_cons] at hq
          have hp := sumWeight_pos (NaiveTrie.intermOrLeaf lbl cs)
          omega
        have hwq : ∀ u ∈ q' ++ (NaiveTrie.intermOrLeaf lbl cs).expandBF,
            u = .phantomSibling ∨ noPhantomB u = true := by
          intro u hu
          rw [List.mem_append] at hu
          cases hu with
          | inl h => exact hwq' u h
          | inr h =>
            rw [NaiveTrie.expandBF, List.mem_append] at h
            cases h with
            | inl h2 =>
              right
              exact noPhantomL_mem cs (by simpa [noPhantomB] using hnp) u h2
            | inr h2 => left; simpa using h2
        have hcs0 : List.countP NaiveTrie.isPhantomB cs.toList = 0 := by
          rw [List.countP_eq_zero]
          intro u hu
          have h2 := noPhantomL_mem cs (by simpa [noPhantomB] using hnp) u hu
          cases u <;> simp [NaiveTrie.isPhantomB] <;> simp [noPhantomB] at h2
        rw [countPhantom_cons, countReal_cons, ih _ hs hwq]
        simp [NaiveTrie.expandBF, NaiveTrie.item, List.countP_append,
          List.countP_cons, NaiveTrie.isPhantomB, hcs0]
        omega

/-- C6: in the breadth-first stream of a naive trie (a tree that stores
no phantom marker, as produced by `make_root` and `push`), every real
node popped contributes exactly one `PhantomSibling` to the stream, so
the phantom count equals the real node count; and, level by level, the
stream lists the items of the queue followed by the expansion of each
popped node in order, its children as a contiguous block closed by one
phantom marker. -/
theorem c6_sibling_sentinel :
    (∀ (t : NaiveTrie Nat Nat), noPhantomB t = true →
      countPhantom (bfsS [t]) = countReal (bfsS [t])) ∧
    (∀ (q : List (NaiveTrie Nat Nat)),
      bfsS q = q.map NaiveTrie.item ++ bfsS (q.flatMap NaiveTrie.expandBF)) := by
  constructor
  · intro t ht
    have h := bfs_phantom_count (sumWeightQ [t]) [t] (le_refl _)
      (fun u hu => by
        rw [List.mem_singleton] at hu
        right; rw [hu]; exact ht)
    have hz : List.countP NaiveTrie.isPhantomB [t] = 0 := by
      cases t <;> simp [List.countP_cons, NaiveTrie.isPhantomB] <;>
        simp [noPhantomB] at ht
    rw [h, hz]
    omega
  · intro q
    have := bfsS_level q []
    simpa using this

/-- C6 witness: the count law applied to the scenario 1 naive trie. -/
theorem c6_sibling_sentinel_witness :
    noPhantomB scenarioNaive = true ∧
    countPhantom (bfsS [scenarioNaive]) = countReal (bfsS [scenarioNaive]) :=
  ⟨by decide, c6_sibling_sentinel.1 scenarioNaive (by decide)⟩

/-! ### Correctness of the binary searches on sorted children -/

theorem lcmp_lt {L : Type} [LinearOrder L] {a b : L} (h : a < b) : lcmp a b = .lt := by
  simp [lcmp, h]

theorem lcmp_eq {L : Type} [LinearOrder L] {a b : L} (h : a = b) : lcmp a b = .eq := by
  simp [lcmp, h]

theorem lcmp_gt {L : Type} [LinearOrder L] {a b : L} (h : b < a) : lcmp a b = .gt := by
  have h1 : ¬ a < b := not_lt_of_gt h
  have h2 : a ≠ b := ne_of_gt h
  simp [lcmp, h1, h2]

theorem eq_of_lcmp_eq {L : Type} [LinearOrder L] {a b : L} (h : lcmp a b = .eq) :
    a = b := by
  unfold lcmp at h
  split_ifs at h with h1 h2
  exact h2

/-- The Rust binary search finds an index at which the comparator
answers `Equal`, provided everything strictly before answers `Less` and
everything strictly after answers `Greater`. -/
theorem binSearchGo_found {α : Type} (f : α → Ordering) (xs : List α) (j : Nat)
    (hj : j < xs.length) (heq : f (xs.get ⟨j, hj⟩) = .eq)
    (hlt : ∀ i (hi : i < xs.length), i < j → f (xs.get ⟨i, hi⟩) = .lt)
    (hgt : ∀ i (hi : i < xs.length), j < i → f (xs.get ⟨i, hi⟩) = .gt) :
    ∀ (fuel left right : Nat), left ≤ j → j < right → right ≤ xs.length →
      right - left ≤ fuel → binSearchGo f xs fuel left right = .inl j
  | 0, left, right, h1, h2, h3, h4 => by omega
  | fuel + 1, left, right, h1, h2, h3, h4 => by
    have hlr : left < right := by omega
    have hmid : left + (right - left) / 2 < xs.length := by omega
    rw [binSearchGo, if_pos hlr]
    dsimp only
    rw [List.get?_eq_get hmid]
    dsimp only
    rcases lt_trichotomy (left + (right - left) / 2) j with hm | hm | hm
    · rw [hlt _ hmid hm]
      exact binSearchGo_found f xs j hj heq hlt hgt fuel _ right (by omega) h2 h3 (by omega)
    · have hx : xs.get ⟨left + (right - left) / 2, hmid⟩ = xs.get ⟨j, hj⟩ := by
        congr 1
        exact Fin.ext hm
      rw [hx, heq]
      show Sum.inl (left + (right - left) / 2) = Sum.inl j
      rw [hm]
    · rw [hgt _ hmid hm]
      have hm2 : left + (right - left) / 2 < right := by omega
      exact binSearchGo_found f xs j hj heq hlt hgt fuel left _ h1 hm
        (by omega) (by omega)

theorem binarySearchBy_found {α : Type} (f : α → Ordering) (xs : List α) (j : Nat)
    (hj : j < xs.length) (heq : f (xs.get ⟨j, hj⟩) = .eq)
    (hlt : ∀ i (hi : i < xs.length), i < j → f (xs.get ⟨i, hi⟩) = .lt)
    (hgt : ∀ i (hi : i < xs.length), j < i → f (xs.get ⟨i, hi⟩) = .gt) :
    binarySearchBy f xs = .inl j :=
  binSearchGo_found f xs j hj heq hlt hgt xs.length 0 xs.length
    (Nat.zero_le j) hj (le_refl _) (by omega)

/-- The Rust binary search returns the boundary insertion point when the
comparator answers `Less` strictly below that point and `Greater` from it
on. -/
theorem binSearchGo_absent {α : Type} (f : α → Ordering) (xs : List α) (p : Nat)
    (hp : p ≤ xs.length)
    (hlt : ∀ i (hi : i < xs.length), i < p → f (xs.get ⟨i, hi⟩) = .lt)
    (hgt : ∀ i (hi : i < xs.length), p ≤ i → f (xs.get ⟨i, hi⟩) = .gt) :
    ∀ (fuel left right : Nat), left ≤ p → p ≤ right → right ≤ xs.length →
      right - left ≤ fuel → binSearchGo f xs fuel left right = .inr p
  | 0, left, right, h1, h2, h3, h4 => by
    have hlp : left = p := by omega
    subst hlp
    rfl
  | fuel + 1, left, right, h1, h2, h3, h4 => by
    by_cases hlr : left < right
    · have hmid : left + (right - left) / 2 < xs.length := by omega
      rw [binSearchGo, if_pos hlr]
      dsimp only
      rw [List.get?_eq_get hmid]
      dsimp only
      rcases Nat.lt_or_ge (left + (right - left) / 2) p with hm | hm
      · rw [hlt _ hmid hm]
        exact binSearchGo_absent f xs p hp hlt hgt fuel _ right (by omega) h2 h3 (by omega)
      · rw [hgt _ hmid hm]
        have hm2 : left + (right - left) / 2 < right := by omega
        exact binSearchGo_absent f xs p hp hlt hgt fuel left _ h1 hm (by omega) (by omega)
    · have hlp : left = p := by omega
      subst hlp
      rw [binSearchGo, if_neg hlr]

theorem binarySearchBy_absent {α : Type} (f : α → Ordering) (xs : List α) (p : Nat)
    (hp : p ≤ xs.length)
    (hlt : ∀ i (hi : i < xs.length), i < p → f (xs.get ⟨i, hi⟩) = .lt)
    (hgt : ∀ i (hi : i < xs.length), p ≤ i → f (xs.get ⟨i, hi⟩) = .gt) :
    binarySearchBy f xs = .inr p :=
  binSearchGo_absent f xs p hp hlt hgt xs.length 0 xs.length
    (Nat.zero_le p) hp (le_refl _) (by omega)

/-- The Rust binary search with a panicking comparator finds an index at
which the comparator answers `Equal` without ever probing index `0`,
provided indices between `1` and the match answer `Less` and indices
after it answer `Greater`: the probe sequence reaches index `0` only
when the whole remaining range is the singleton `0`, which cannot happen
while the match index is still inside the range. -/
theorem binSearchPGo_found {α : Type} (f : α → Option Ordering) (xs : List α) (j : Nat)
    (hj : j < xs.length) (heq : f (xs.get ⟨j, hj⟩) = some .eq)
    (hlt : ∀ i (hi : i < xs.length), 1 ≤ i → i < j → f (xs.get ⟨i, hi⟩) = some .lt)
    (hgt : ∀ i (hi : i < xs.length), j < i → f (xs.get ⟨i, hi⟩) = some .gt) :
    ∀ (fuel left right : Nat), left ≤ j → j < right → right ≤ xs.length →
      right - left ≤ fuel → binSearchPGo f xs fuel left right = some (.inl j)
  | 0, left, right, h1, h2, h3, h4 => by omega
  | fuel + 1, left, right, h1, h2, h3, h4 => by
    have hlr : left < right := by omega
    have hmid : left + (right - left) / 2 < xs.length := by omega
    rw [binSearchPGo, if_pos hlr]
    dsimp only
    rw [List.get?_eq_get hmid]
    dsimp only
    rcases lt_trichotomy (left + (right - left) / 2) j with hm | hm | hm
    · have hone : 1 ≤ left + (right - left) / 2 := by
        rcases Nat.eq_zero_or_pos (left + (right - left) / 2) with hz | hz
        · exfalso
          have hl0 : left = 0 := by omega
          have hd0 : (right - left) / 2 = 0 := by omega
          have hr1 : right ≤ 1 := by omega
          omega
        · exact hz
      rw [hlt _ hmid hone hm]
      exact binSearchPGo_found f xs j hj heq hlt hgt fuel _ right (by omega) h2 h3 (by omega)
    · have hx : xs.get ⟨left + (right - left) / 2, hmid⟩ = xs.get ⟨j, hj⟩ := by
        congr 1
        exact Fin.ext hm
      rw [hx, heq]
      show some (Sum.inl (left + (right - left) / 2)) = some (Sum.inl j)
      rw [hm]
    · rw [hgt _ hmid hm]
      have hm2 : left + (right - left) / 2 < right := by omega
      exact binSearchPGo_found f xs j hj heq hlt hgt fuel left _ h1 hm (by omega) (by omega)

theorem binarySearchByP_found {α : Type} (f : α → Option Ordering) (xs : List α) (j : Nat)
    (hj : j < xs.length) (heq : f (xs.get ⟨j, hj⟩) = some .eq)
    (hlt : ∀ i (hi : i < xs.length), 1 ≤ i → i < j → f (xs.get ⟨i, hi⟩) = some .lt)
    (hgt : ∀ i (hi : i < xs.length), j < i → f (xs.get ⟨i, hi⟩) = some .gt) :
    binarySearchByP f xs = some (.inl j) :=
  binSearchPGo_found f xs j hj heq hlt hgt xs.length 0 xs.length
    (Nat.zero_le j) hj (le_refl _) (by omega)

/-! ### Sorted children and the push search -/

theorem exists_boundary (n : Nat) (P : Nat → Prop)
    (hdc : ∀ i k, i ≤ k → k < n → P k → P i) :
    ∃ p, p ≤ n ∧ ∀ i, i < n → (i < p ↔ P i) := by
  classical
  by_cases h : ∃ i, i < n ∧ ¬ P i
  · refine ⟨Nat.find h, ?_, ?_⟩
    · exact le_of_lt (Nat.find_spec h).1
    · intro i hi
      constructor
      · intro hip
        by_contra hnp
        exact absurd ⟨hi, hnp⟩ (Nat.find_min h hip)
      · intro hp
        by_contra hge
        push_neg at hge
        exact (Nat.find_spec h).2 (hdc (Nat.find h) i hge hi hp)
  · push_neg at h
    exact ⟨n, le_refl n, fun i hi => ⟨fun _ => h i hi, fun _ => hi⟩⟩

theorem childCmpLabel_eq_iff {L V : Type} [LinearOrder L] (u : NaiveTrie L V) (c : L) :
    childCmpLabel u c = .eq ↔ u.cellOf = some (.label c) := by
  unfold childCmpLabel
  cases hc : u.cellOf with
  | none => simp
  | some cell =>
    cases cell with
    | value w => simp [cellCmpLabel]
    | label a =>
      simp only [cellCmpLabel, Option.some.injEq, TrieLabel.label.injEq]
      constructor
      · exact fun h => eq_of_lcmp_eq h
      · exact fun h => lcmp_eq h

theorem childCmpLabel_lt_of_childLTc {L V : Type} [LinearOrder L]
    {a b : NaiveTrie L V} {c : L} (hab : childLTc a b)
    (hb : b.cellOf = some (.label c)) : childCmpLabel a c = .lt := by
  unfold childLTc at hab
  unfold childCmpLabel
  cases ha : a.cellOf with
  | none => rfl
  | some cell =>
    rw [ha, hb] at hab
    cases cell with
    | value w => rfl
    | label x =>
      simp only [cellLT] at hab
      exact lcmp_lt hab

theorem childCmpLabel_gt_of_childLTc {L V : Type} [LinearOrder L]
    {a b : NaiveTrie L V} {c : L} (hab : childLTc a b)
    (ha : a.cellOf = some (.label c)) : childCmpLabel b c = .gt := by
  unfold childLTc at hab
  unfold childCmpLabel
  cases hb : b.cellOf with
  | none => rw [ha, hb] at hab; exact absurd hab (by simp [cellLT])
  | some cell =>
    rw [ha, hb] at hab
    cases cell with
    | value w => exact absurd hab (by simp [cellLT])
    | label x =>
      simp only [cellLT] at hab
      exact lcmp_gt hab

/-- On a children list sorted by the cell ordering, the push binary
search finds the index whose cell carries the query token. -/
theorem binSearch_children_found {L V : Type} [LinearOrder L]
    {cs : List (NaiveTrie L V)} {c : L} (hpw : cs.Pairwise childLTc)
    {j : Nat} (hj : j < cs.length)
    (hcell : (cs.get ⟨j, hj⟩).cellOf = some (.label c)) :
    binarySearchBy (fun child => childCmpLabel child c) cs = .inl j := by
  rw [List.pairwise_iff_get] at hpw
  refine binarySearchBy_found _ cs j hj ?_ ?_ ?_
  · rw [childCmpLabel_eq_iff]
    exact hcell
  · intro i hi hij
    exact childCmpLabel_lt_of_childLTc (hpw ⟨i, hi⟩ ⟨j, hj⟩ hij) hcell
  · intro i hi hji
    exact childCmpLabel_gt_of_childLTc (hpw ⟨j, hj⟩ ⟨i, hi⟩ hji) hcell

/-- On a sorted children list that carries no cell with the query token,
the push binary search reports an insertion point: everything before it
compares `Less`, everything from it on compares `Greater`. -/
theorem binSearch_children_absent {L V : Type} [LinearOrder L]
    {cs : List (NaiveTrie L V)} {c : L} (hpw : cs.Pairwise childLTc)
    (habs : ∀ u ∈ cs, ¬ u.cellOf = some (.label c)) :
    ∃ p, p ≤ cs.length ∧
      binarySearchBy (fun child => childCmpLabel child c) cs = .inr p ∧
      (∀ i (hi : i < cs.length), (i < p ↔ childCmpLabel (cs.get ⟨i, hi⟩) c = .lt)) ∧
      (∀ i (hi : i < cs.length), p ≤ i → childCmpLabel (cs.get ⟨i, hi⟩) c = .gt) := by
  have hpg := List.pairwise_iff_get.1 hpw
  have hne : ∀ i (hi : i < cs.length), childCmpLabel (cs.get ⟨i, hi⟩) c ≠ .eq := by
    intro i hi hcontra
    rw [childCmpLabel_eq_iff] at hcontra
    exact habs _ (List.get_mem cs i hi) hcontra
  have hdc : ∀ i k, i ≤ k → k < cs.length →
      (∃ hk : k < cs.length, childCmpLabel (cs.get ⟨k, hk⟩) c = .lt) →
      (∃ hi : i < cs.length, childCmpLabel (cs.get ⟨i, hi⟩) c = .lt) := by
    intro i k hik hk hP
    obtain ⟨hk2, hPk⟩ := hP
    have hi : i < cs.length := lt_of_le_of_lt hik hk
    refine ⟨hi, ?_⟩
    rcases Nat.eq_or_lt_of_le hik with he | hlt
    · subst he
      exact hPk
    · have hrel := hpg ⟨i, hi⟩ ⟨k, hk2⟩ hlt
      unfold childCmpLabel at hPk ⊢
      unfold childLTc at hrel
      cases ha : (cs.get ⟨i, hi⟩).cellOf with
      | none => rfl
      | some celli =>
        cases hb : (cs.get ⟨k, hk2⟩).cellOf with
        | none => rw [ha, hb] at hrel; exact absurd hrel (by simp)
        | some cellk =>
          rw [ha, hb] at hrel
          rw [hb] at hPk
          cases celli with
          | value w => rfl
          | label x =>
            cases cellk with
            | value w2 => exact absurd hrel (by simp [cellLT])
            | label y =>
              simp only [cellLT] at hrel
              simp only [cellCmpLabel] at hPk ⊢
              have hyc : y < c := by
                unfold lcmp at hPk
                split_ifs at hPk with h1 h2
                exact h1
              exact lcmp_lt (lt_trans hrel hyc)
  obtain ⟨p, hp, hiff⟩ := exists_boundary cs.length
    (fun i => ∃ hi : i < cs.length, childCmpLabel (cs.get ⟨i, hi⟩) c = .lt) hdc
  have hgt : ∀ i (hi : i < cs.length), p ≤ i → childCmpLabel (cs.get ⟨i, hi⟩) c = .gt := by
    intro i hi hpi
    have hnlt : ¬ childCmpLabel (cs.get ⟨i, hi⟩) c = .lt := by
      intro hcontra
      have := (hiff i hi).2 ⟨hi, hcontra⟩
      omega
    cases ho : childCmpLabel (cs.get ⟨i, hi⟩) c with
    | lt => exact absurd ho hnlt
    | eq => exact absurd ho (hne i hi)
    | gt => rfl
  refine ⟨p, hp, ?_, ?_, hgt⟩
  · refine binarySearchBy_absent _ cs p hp ?_ hgt
    intro i hi hip
    obtain ⟨hi2, hP⟩ := (hiff i hi).1 hip
    exact hP
  · intro i hi
    constructor
    · intro hip
      obtain ⟨hi2, hP⟩ := (hiff i hi).1 hip
      exact hP
    · intro hP
      exact (hiff i hi).2 ⟨hi, hP⟩

/-! ### Structural facts about push -/

theorem childrenL_withChildren {L V : Type} (t : NaiveTrie L V)
    (l : List (NaiveTrie L V)) (ht : t ≠ .phantomSibling) :
    (t.withChildren l).childrenL = l := by
  cases t with
  | root cs => simp [NaiveTrie.withChildren, NaiveTrie.childrenL, NaiveTrieL.toList_ofList]
  | intermOrLeaf lbl cs =>
    simp [NaiveTrie.withChildren, NaiveTrie.childrenL, NaiveTrieL.toList_ofList]
  | phantomSibling => exact absurd rfl ht

theorem cellOf_withChildren {L V : Type} (t : NaiveTrie L V)
    (l : List (NaiveTrie L V)) : (t.withChildren l).cellOf = t.cellOf := by
  cases t <;> rfl

theorem withChildren_ne_phantom {L V : Type} (t : NaiveTrie L V)
    (l : List (NaiveTrie L V)) (ht : t ≠ .phantomSibling) :
    t.withChildren l ≠ .phantomSibling := by
  cases t <;> simp [NaiveTrie.withChildren] at *

theorem isIntermB_withChildren {L V : Type} (t : NaiveTrie L V)
    (l : List (NaiveTrie L V)) : (t.withChildren l).isIntermB = t.isIntermB := by
  cases t <;> rfl

theorem cellOf_push {L V : Type} [LinearOrder L] (t : NaiveTrie L V)
    (w : List L) (v : V) : (t.push w v).cellOf = t.cellOf := by
  cases w with
  | nil => exact cellOf_withChildren t _
  | cons c rest =>
    rw [NaiveTrie.push]
    cases binarySearchBy (fun child => childCmpLabel child c) t.childrenL with
    | inl j => exact cellOf_withChildren t _
    | inr j => exact cellOf_withChildren t _

theorem isIntermB_push {L V : Type} [LinearOrder L] (t : NaiveTrie L V)
    (w : List L) (v : V) : (t.push w v).isIntermB = t.isIntermB := by
  cases w with
  | nil => exact isIntermB_withChildren t _
  | cons c rest =>
    rw [NaiveTrie.push]
    cases binarySearchBy (fun child => childCmpLabel child c) t.childrenL with
    | inl j => exact isIntermB_withChildren t _
    | inr j => exact isIntermB_withChildren t _

theorem push_ne_phantom {L V : Type} [LinearOrder L] (t : NaiveTrie L V)
    (w : List L) (v : V) (ht : t ≠ .phantomSibling) :
    t.push w v ≠ .phantomSibling := by
  cases w with
  | nil => exact withChildren_ne_phantom t _ ht
  | cons c rest =>
    rw [NaiveTrie.push]
    cases binarySearchBy (fun child => childCmpLabel child c) t.childrenL with
    | inl j => exact withChildren_ne_phantom t _ ht
    | inr j => exact withChildren_ne_phantom t _ ht

theorem push_nil_childrenL {L V : Type} [LinearOrder L] (t : NaiveTrie L V) (v : V)
    (ht : t ≠ .phantomSibling) :
    (t.push [] v).childrenL = NaiveTrie.insertOrSetValue t.childrenL v :=
  childrenL_withChildren t _ ht

theorem push_cons_found {L V : Type} [LinearOrder L] (t : NaiveTrie L V)
    (c : L) (rest : List L) (v : V) (ht : t ≠ .phantomSibling) {j : Nat}
    (hbs : binarySearchBy (fun child => childCmpLabel child c) t.childrenL = .inl j) :
    (t.push (c :: rest) v).childrenL =
      t.childrenL.set j ((t.childrenL.getD j .phantomSibling).push rest v) := by
  rw [NaiveTrie.push, hbs]
  exact childrenL_withChildren t _ ht

theorem push_cons_absent {L V : Type} [LinearOrder L] (t : NaiveTrie L V)
    (c : L) (rest : List L) (v : V) (ht : t ≠ .phantomSibling) {p : Nat}
    (hbs : binarySearchBy (fun child => childCmpLabel child c) t.childrenL = .inr p) :
    (t.push (c :: rest) v).childrenL =
      t.childrenL.insertIdx p ((NaiveTrie.makeInterm c).push rest v) := by
  rw [NaiveTrie.push, hbs]
  exact childrenL_withChildren t _ ht

/-! ### Pairwise preservation utilities -/

theorem childLTc_congr {L V : Type} [LinearOrder L] {a a2 b b2 : NaiveTrie L V}
    (ha : a.cellOf = a2.cellOf) (hb : b.cellOf = b2.cellOf) :
    childLTc a b ↔ childLTc a2 b2 := by
  unfold childLTc
  rw [ha, hb]

theorem pairwise_set_cell_eq {L V : Type} [LinearOrder L]
    {cs : List (NaiveTrie L V)} (hpw : cs.Pairwise childLTc) {j : Nat}
    (hj : j < cs.length) {x : NaiveTrie L V}
    (hcell : x.cellOf = (cs.get ⟨j, hj⟩).cellOf) :
    (cs.set j x).Pairwise childLTc := by
  rw [List.pairwise_iff_get] at hpw ⊢
  intro a b hab
  have hla : (cs.set j x).length = cs.length := by simp
  have ha2 : (a : Nat) < cs.length := by omega
  have hb2 : (b : Nat) < cs.length := by omega
  have hget : ∀ (k : Nat) (hk : k < cs.length),
      ((cs.set j x).get ⟨k, by omega⟩).cellOf = (cs.get ⟨k, hk⟩).cellOf := by
    intro k hk
    by_cases hkj : k = j
    · subst hkj
      have h1 : (cs.set k x).get ⟨k, by omega⟩ = x := by
        simp [List.get_eq_getElem, List.getElem_set_self]
      rw [h1, hcell]
    · have h1 : (cs.set j x).get ⟨k, by omega⟩ = cs.get ⟨k, hk⟩ := by
        simp [List.get_eq_getElem, List.getElem_set_ne (fun h => hkj h.symm)]
      rw [h1]
  rw [childLTc_congr (hget a ha2) (hget b hb2)]
  exact hpw ⟨a, ha2⟩ ⟨b, hb2⟩ hab

theorem pairwise_insertIdx {L V : Type} [LinearOrder L]
    {cs : List (NaiveTrie L V)} (hpw : cs.Pairwise childLTc) {p : Nat}
    (hp : p ≤ cs.length) {x : NaiveTrie L V}
    (hbefore : ∀ i (hi : i < cs.length), i < p → childLTc (cs.get ⟨i, hi⟩) x)
    (hafter : ∀ i (hi : i < cs.length), p ≤ i → childLTc x (cs.get ⟨i, hi⟩)) :
    (cs.insertIdx p x).Pairwise childLTc := by
  have hpg := List.pairwise_iff_get.1 hpw
  rw [List.pairwise_iff_get]
  intro a b hab
  have habn : (a : Nat) < (b : Nat) := hab
  have hlen : (cs.insertIdx p x).length = cs.length + 1 := by
    rw [List.length_insertIdx p cs hp]
  have hget : ∀ (k : Nat) (hk : k < (cs.insertIdx p x).length),
      (k < p → ∃ hk2 : k < cs.length, (cs.insertIdx p x).get ⟨k, hk⟩ = cs.get ⟨k, hk2⟩) ∧
      (k = p → (cs.insertIdx p x).get ⟨k, hk⟩ = x) ∧
      (p < k → ∃ hk2 : k - 1 < cs.length,
        (cs.insertIdx p x).get ⟨k, hk⟩ = cs.get ⟨k - 1, hk2⟩) := by
    intro k hk
    refine ⟨?_, ?_, ?_⟩
    · intro hkp
      have hk2 : k < cs.length := by omega
      refine ⟨hk2, ?_⟩
      simp only [List.get_eq_getElem]
      exact List.getElem_insertIdx_of_lt cs x p k hkp hk2
    · intro hkp
      subst hkp
      simp only [List.get_eq_getElem]
      exact List.getElem_insertIdx_self cs x k hp
    · intro hpk
      have hk2 : k - 1 < cs.length := by omega
      refine ⟨hk2, ?_⟩
      have hg := List.getElem_insertIdx_add_succ cs x p (k - 1 - p) (by omega) (by omega)
      have hq : (cs.insertIdx p x).get? (p + (k - 1 - p) + 1) =
          cs.get? (p + (k - 1 - p)) := by
        rw [List.get?_eq_get (by omega), List.get?_eq_get (by omega)]
        exact congrArg some hg
      have hkeq : p + (k - 1 - p) + 1 = k := by omega
      have hidx : p + (k - 1 - p) = k - 1 := by omega
      rw [hkeq, hidx] at hq
      rw [List.get?_eq_get hk, List.get?_eq_get hk2] at hq
      exact Option.some.inj hq
  obtain ⟨ha1, ha2, ha3⟩ := hget a a.isLt
  obtain ⟨hb1, hb2, hb3⟩ := hget b b.isLt
  rcases lt_trichotomy (a : Nat) p with hap | hap | hap
  · obtain ⟨ha4, hae⟩ := ha1 hap
    rw [hae]
    rcases lt_trichotomy (b : Nat) p with hbp | hbp | hbp
    · obtain ⟨hb4, hbe⟩ := hb1 hbp
      rw [hbe]
      exact hpg _ _ hab
    · rw [hb2 hbp]
      exact hbefore a ha4 hap
    · obtain ⟨hb4, hbe⟩ := hb3 hbp
      rw [hbe]
      have h : (a : Nat) < (b : Nat) - 1 := by omega
      exact hpg ⟨a, ha4⟩ ⟨(b : Nat) - 1, hb4⟩ (Fin.mk_lt_mk.2 h)
  · rw [ha2 hap]
    rcases lt_trichotomy (b : Nat) p with hbp | hbp | hbp
    · exfalso; omega
    · exfalso; omega
    · obtain ⟨hb4, hbe⟩ := hb3 hbp
      rw [hbe]
      exact hafter (b - 1) hb4 (by omega)
  · obtain ⟨ha4, hae⟩ := ha3 hap
    rw [hae]
    rcases lt_trichotomy (b : Nat) p with hbp | hbp | hbp
    · exfalso; omega
    · exfalso; omega
    · obtain ⟨hb4, hbe⟩ := hb3 hbp
      rw [hbe]
      exact hpg ⟨(a : Nat) - 1, ha4⟩ ⟨(b : Nat) - 1, hb4⟩ (Fin.mk_lt_mk.2 (by omega))

/-! ### Destructors of the naive invariant -/

theorem NaiveInv.ne_phantom {L V : Type} [LinearOrder L] {t : NaiveTrie L V}
    (h : NaiveInv t) : t ≠ .phantomSibling := by
  cases h with
  | mk t h1 h2 h3 h4 => exact h1

theorem NaiveInv.interm_of {L V : Type} [LinearOrder L] {t : NaiveTrie L V}
    (h : NaiveInv t) : ∀ c ∈ t.childrenL, c.isIntermB = true := by
  cases h with
  | mk t h1 h2 h3 h4 => exact h2

theorem NaiveInv.child_of {L V : Type} [LinearOrder L] {t : NaiveTrie L V}
    (h : NaiveInv t) : ∀ c ∈ t.childrenL, NaiveInv c := by
  cases h with
  | mk t h1 h2 h3 h4 => exact h3

theorem NaiveInv.pairwise_of {L V : Type} [LinearOrder L] {t : NaiveTrie L V}
    (h : NaiveInv t) : t.childrenL.Pairwise childLTc := by
  cases h with
  | mk t h1 h2 h3 h4 => exact h4

theorem NaiveInv.makeInterm {L V : Type} [LinearOrder L] (c : L) :
    NaiveInv (NaiveTrie.makeInterm c (V := V)) := by
  refine NaiveInv.mk _ (by simp [NaiveTrie.makeInterm]) ?_ ?_ ?_ <;>
    simp [NaiveTrie.makeInterm, NaiveTrie.childrenL, NaiveTrieL.toList]

theorem NaiveInv.makeLeaf {L V : Type} [LinearOrder L] (v : V) :
    NaiveInv (NaiveTrie.makeLeaf v (L := L)) := by
  refine NaiveInv.mk _ (by simp [NaiveTrie.makeLeaf]) ?_ ?_ ?_ <;>
    simp [NaiveTrie.makeLeaf, NaiveTrie.childrenL, NaiveTrieL.toList]

theorem NaiveInv.makeRoot {L V : Type} [LinearOrder L] :
    NaiveInv (NaiveTrie.makeRoot (L := L) (V := V)) := by
  refine NaiveInv.mk _ (by simp [NaiveTrie.makeRoot]) ?_ ?_ ?_ <;>
    simp [NaiveTrie.makeRoot, NaiveTrie.childrenL, NaiveTrieL.toList]

/-! ### The push invariant (claim C5 machinery) -/

theorem cellLT_value_congr {L V : Type} [LinearOrder L] (v w : V) (y : TrieLabel L V) :
    cellLT (.value v) y ↔ cellLT (.value w) y := by
  cases y <;> simp [cellLT]

theorem lt_of_lcmp_lt {L : Type} [LinearOrder L] {a b : L} (h : lcmp a b = .lt) :
    a < b := by
  unfold lcmp at h
  split_ifs at h with h1 h2
  exact h1

theorem gt_of_lcmp_gt {L : Type} [LinearOrder L] {a b : L} (h : lcmp a b = .gt) :
    b < a := by
  unfold lcmp at h
  split_ifs at h with h1 h2
  rcases lt_trichotomy a b with hx | hx | hx
  · exact absurd hx h1
  · exact absurd hx h2
  · exact hx

theorem childLTc_of_cmp_lt {L V : Type} [LinearOrder L] {u x : NaiveTrie L V} {c : L}
    (hu : u.isIntermB = true) (hcmp : childCmpLabel u c = .lt)
    (hx : x.cellOf = some (.label c)) : childLTc u x := by
  unfold childLTc
  rw [hx]
  cases u with
  | root cs => simp [NaiveTrie.isIntermB] at hu
  | phantomSibling => simp [NaiveTrie.isIntermB] at hu
  | intermOrLeaf lbl cs =>
    simp only [NaiveTrie.cellOf]
    cases lbl with
    | value w => simp [cellLT]
    | label a =>
      simp only [cellLT]
      unfold childCmpLabel at hcmp
      simp only [NaiveTrie.cellOf, cellCmpLabel] at hcmp
      exact lt_of_lcmp_lt hcmp

theorem childLTc_of_cmp_gt {L V : Type} [LinearOrder L] {u x : NaiveTrie L V} {c : L}
    (hu : u.isIntermB = true) (hcmp : childCmpLabel u c = .gt)
    (hx : x.cellOf = some (.label c)) : childLTc x u := by
  unfold childLTc
  rw [hx]
  cases u with
  | root cs => simp [NaiveTrie.isIntermB] at hu
  | phantomSibling => simp [NaiveTrie.isIntermB] at hu
  | intermOrLeaf lbl cs =>
    simp only [NaiveTrie.cellOf]
    cases lbl with
    | value w =>
      unfold childCmpLabel at hcmp
      simp [NaiveTrie.cellOf, cellCmpLabel] at hcmp
    | label a =>
      simp only [cellLT]
      unfold childCmpLabel at hcmp
      simp only [NaiveTrie.cellOf, cellCmpLabel] at hcmp
      exact gt_of_lcmp_gt hcmp

/-- Shape analysis of `insert_or_set_value`: either the first child is a
value leaf and only its payload changes, or a fresh value leaf is
prepended. -/
theorem insertOrSetValue_cases {L V : Type} (cs : List (NaiveTrie L V)) (v : V) :
    (∃ w0 cs0 tail, cs = .intermOrLeaf (.value w0) cs0 :: tail ∧
       NaiveTrie.insertOrSetValue cs v = .intermOrLeaf (.value v) cs0 :: tail) ∨
    ((∀ (w0 : V) (cs0 : NaiveTrieL L V) tail,
        cs ≠ .intermOrLeaf (.value w0) cs0 :: tail) ∧
       NaiveTrie.insertOrSetValue cs v = NaiveTrie.makeLeaf v :: cs) := by
  unfold NaiveTrie.insertOrSetValue
  rcases cs with _ | ⟨u0, tail⟩
  · right
    exact ⟨fun w0 cs0 tl => by simp, rfl⟩
  · cases u0 with
    | root cs0 => exact Or.inr ⟨fun w0 cs0 tl => by simp, rfl⟩
    | phantomSibling => exact Or.inr ⟨fun w0 cs0 tl => by simp, rfl⟩
    | intermOrLeaf lbl cs0 =>
      cases lbl with
      | label a => exact Or.inr ⟨fun w0 cs0 tl => by simp, rfl⟩
      | value w0 => exact Or.inl ⟨w0, cs0, tail, rfl, rfl⟩

/-- Changing the payload of a leading value leaf preserves its relation
to any node on the right. -/
theorem childLTc_value_payload {L V : Type} [LinearOrder L] {w0 v : V}
    {cs0 cs1 : NaiveTrieL L V} {u : NaiveTrie L V}
    (h : childLTc (.intermOrLeaf (.value w0) cs0) u) :
    childLTc (.intermOrLeaf (.value v) cs1) u := by
  cases u with
  | intermOrLeaf lblu csu =>
    unfold childLTc at h ⊢
    simp only [NaiveTrie.cellOf] at h ⊢
    exact (cellLT_value_congr v w0 lblu).2 h
  | root csx =>
    unfold childLTc at h
    simp [NaiveTrie.cellOf] at h
  | phantomSibling =>
    unfold childLTc at h
    simp [NaiveTrie.cellOf] at h

/-- Replacing the payload of a value leaf preserves the invariant. -/
theorem NaiveInv_value_payload {L V : Type} [LinearOrder L] {w0 : V}
    {cs0 : NaiveTrieL L V} (h : NaiveInv (.intermOrLeaf (.value w0) cs0 : NaiveTrie L V))
    (v : V) : NaiveInv (.intermOrLeaf (.value v) cs0 : NaiveTrie L V) := by
  refine NaiveInv.mk _ (by simp) ?_ ?_ ?_
  · exact h.interm_of
  · exact h.child_of
  · exact h.pairwise_of

/-- Every child of an invariant node, when the first child is not a
value leaf, carries a label cell. -/
theorem no_value_below_head {L V : Type} [LinearOrder L] {t : NaiveTrie L V}
    (hInv : NaiveInv t)
    (hhead : ∀ (w0 : V) (cs0 : NaiveTrieL L V) tail,
      t.childrenL ≠ .intermOrLeaf (.value w0) cs0 :: tail) :
    ∀ u ∈ t.childrenL, ∃ a csx, u = .intermOrLeaf (.label a) csx := by
  intro u hu
  cases hcs : t.childrenL with
  | nil => rw [hcs] at hu; simp at hu
  | cons u0 tail =>
    have hu0i : u0.isIntermB = true :=
      hInv.interm_of u0 (by rw [hcs]; exact List.mem_cons_self _ _)
    have hui : u.isIntermB = true := hInv.interm_of u (by rw [hcs] at hu ⊢; exact hu)
    have heu : ∃ lblu csu, u = .intermOrLeaf lblu csu := by
      cases u with
      | intermOrLeaf lblu csu => exact ⟨lblu, csu, rfl⟩
      | root csx => simp [NaiveTrie.isIntermB] at hui
      | phantomSibling => simp [NaiveTrie.isIntermB] at hui
    obtain ⟨lblu, csu, heu⟩ := heu
    cases hlblu : lblu with
    | label a => exact ⟨a, csu, by rw [heu, hlblu]⟩
    | value w =>
      exfalso
      have he0 : ∃ lbl0 cs0, u0 = .intermOrLeaf lbl0 cs0 := by
        cases u0 with
        | intermOrLeaf lbl0 cs0 => exact ⟨lbl0, cs0, rfl⟩
        | root csx => simp [NaiveTrie.isIntermB] at hu0i
        | phantomSibling => simp [NaiveTrie.isIntermB] at hu0i
      obtain ⟨lbl0, cs0, he0⟩ := he0
      rw [hcs] at hu
      rcases List.mem_cons.1 hu with he | htail
      · cases hlbl0 : lbl0 with
        | label a0 =>
          rw [heu, hlblu] at he
          rw [he0, hlbl0] at he
          exact absurd he (by simp)
        | value wx =>
          exact hhead wx cs0 tail (by rw [hcs, he0, hlbl0])
      · have hpw := hInv.pairwise_of
        rw [hcs] at hpw
        have hrel := (List.pairwise_cons.1 hpw).1 u htail
        rw [he0, heu, hlblu] at hrel
        unfold childLTc at hrel
        simp only [NaiveTrie.cellOf] at hrel
        cases lbl0 with
        | label a0 => simp [cellLT] at hrel
        | value wx => simp [cellLT] at hrel

/-- C5 core: `push` preserves the structural invariant of the naive
trie. -/
theorem NaiveInv.push {L V : Type} [LinearOrder L] :
    ∀ (w : List L) (t : NaiveTrie L V) (v : V), NaiveInv t → NaiveInv (t.push w v)
  | [], t, v, hInv => by
    have hne := hInv.ne_phantom
    have hch := push_nil_childrenL t v hne
    rcases insertOrSetValue_cases t.childrenL v with ⟨w0, cs0, tail, hcs, hnew⟩ | ⟨hsh, hnew⟩
    · rw [hnew] at hch
      refine NaiveInv.mk _ (push_ne_phantom t [] v hne) ?_ ?_ ?_ <;> rw [hch]
      · intro u hu
        rcases List.mem_cons.1 hu with he | htail
        · rw [he]; rfl
        · exact hInv.interm_of u (by rw [hcs]; exact List.mem_cons_of_mem _ htail)
      · intro u hu
        rcases List.mem_cons.1 hu with he | htail
        · rw [he]
          exact NaiveInv_value_payload
            (hInv.child_of _ (by rw [hcs]; exact List.mem_cons_self _ _)) v
        · exact hInv.child_of u (by rw [hcs]; exact List.mem_cons_of_mem _ htail)
      · have hpw := hInv.pairwise_of
        rw [hcs, List.pairwise_cons] at hpw
        rw [List.pairwise_cons]
        exact ⟨fun u hu => childLTc_value_payload (hpw.1 u hu), hpw.2⟩
    · rw [hnew] at hch
      have hlab := no_value_below_head hInv hsh
      refine NaiveInv.mk _ (push_ne_phantom t [] v hne) ?_ ?_ ?_ <;> rw [hch]
      · intro u hu
        rcases List.mem_cons.1 hu with he | htail
        · rw [he]; rfl
        · exact hInv.interm_of u htail
      · intro u hu
        rcases List.mem_cons.1 hu with he | htail
        · rw [he]; exact NaiveInv.makeLeaf v
        · exact hInv.child_of u htail
      · rw [List.pairwise_cons]
        refine ⟨?_, hInv.pairwise_of⟩
        intro u hu
        obtain ⟨a, csx, he⟩ := hlab u hu
        rw [he]
        unfold childLTc NaiveTrie.makeLeaf
        simp [NaiveTrie.cellOf, cellLT]
  | c :: rest, t, v, hInv => by
    have hne := hInv.ne_phantom
    have hpw := hInv.pairwise_of
    by_cases hex : ∃ j, ∃ hj : j < t.childrenL.length,
        (t.childrenL.get ⟨j, hj⟩).cellOf = some (.label c)
    · obtain ⟨j, hj, hcell⟩ := hex
      have hbs := binSearch_children_found hpw hj hcell
      have hch := push_cons_found t c rest v hne hbs
      have hgd : t.childrenL.getD j .phantomSibling = t.childrenL.get ⟨j, hj⟩ :=
        List.getD_eq_get _ _ hj
      rw [hgd] at hch
      refine NaiveInv.mk _ (push_ne_phantom t _ v hne) ?_ ?_ ?_ <;> rw [hch]
      · intro u hu
        rcases List.mem_or_eq_of_mem_set hu with hmem | he
        · exact hInv.interm_of u hmem
        · rw [he, isIntermB_push]
          exact hInv.interm_of _ (List.get_mem _ _ _)
      · intro u hu
        rcases List.mem_or_eq_of_mem_set hu with hmem | he
        · exact hInv.child_of u hmem
        · rw [he]
          exact NaiveInv.push rest _ v (hInv.child_of _ (List.get_mem _ _ _))
      · exact pairwise_set_cell_eq hpw hj (cellOf_push _ _ _)
    · push_neg at hex
      have habs : ∀ u ∈ t.childrenL, ¬ u.cellOf = some (.label c) := by
        intro u hu hcontra
        obtain ⟨n, hgn⟩ := List.mem_iff_get.1 hu
        apply hex n n.isLt
        have hfin : (⟨(n : Nat), n.isLt⟩ : Fin t.childrenL.length) = n := rfl
        rw [hfin, hgn]
        exact hcontra
      obtain ⟨p, hple, hbs, hiff, hgt⟩ := binSearch_children_absent hpw habs
      have hch := push_cons_absent t c rest v hne hbs
      have hchain : ((NaiveTrie.makeInterm c).push rest v).cellOf = some (.label c) := by
        rw [cellOf_push]; rfl
      refine NaiveInv.mk _ (push_ne_phantom t _ v hne) ?_ ?_ ?_ <;> rw [hch]
      · intro u hu
        rcases (List.mem_insertIdx hple).1 hu with he | hmem
        · rw [he, isIntermB_push]; rfl
        · exact hInv.interm_of u hmem
      · intro u hu
        rcases (List.mem_insertIdx hple).1 hu with he | hmem
        · rw [he]; exact NaiveInv.push rest _ v (NaiveInv.makeInterm c)
        · exact hInv.child_of u hmem
      · refine pairwise_insertIdx hpw hple ?_ ?_
        · intro i hi hip
          exact childLTc_of_cmp_lt (hInv.interm_of _ (List.get_mem _ _ _))
            ((hiff i hi).1 hip) hchain
        · intro i hi hpi
          exact childLTc_of_cmp_gt (hInv.interm_of _ (List.get_mem _ _ _))
            (hgt i hi hpi) hchain

theorem NaiveInv.pushAll {L V : Type} [LinearOrder L] :
    ∀ (pairs : List (List L × V)) (t : NaiveTrie L V), NaiveInv t →
      NaiveInv (t.pushAll pairs)
  | [], t, hInv => hInv
  | p :: rest, t, hInv =>
    NaiveInv.pushAll rest _ (NaiveInv.push p.1 t p.2 hInv)

/-! ### Claim C5: the children invariant -/

theorem pairwise_cellLT_of_childLTc {L V : Type} [LinearOrder L] :
    ∀ (cs : List (NaiveTrie L V)), cs.Pairwise childLTc →
      (childCells cs).Pairwise cellLT
  | [], _ => by simp [childCells]
  | u :: tl, hpw => by
    rw [List.pairwise_cons] at hpw
    unfold childCells
    rw [List.filterMap_cons]
    cases hc : u.cellOf with
    | none => exact pairwise_cellLT_of_childLTc tl hpw.2
    | some cell =>
      rw [List.pairwise_cons]
      constructor
      · intro y hy
        obtain ⟨u2, hu2, hc2⟩ := List.mem_filterMap.1 hy
        have hrel := hpw.1 u2 hu2
        unfold childLTc at hrel
        rw [hc, hc2] at hrel
        exact hrel
      · exact pairwise_cellLT_of_childLTc tl hpw.2

/-- A cell list sorted strictly by the cell ordering contains at most one
value cell, and a value cell can only sit at the front. -/
theorem pairwise_cellLT_facts {L V : Type} [LinearOrder L] :
    ∀ (l : List (TrieLabel L V)), l.Pairwise cellLT →
      l.countP isValueCell ≤ 1 ∧
      (∀ i (hi : i < l.length) (v : V), l.get ⟨i, hi⟩ = .value v → i = 0)
  | [], _ => by simp
  | x :: tl, hpw => by
    rw [List.pairwise_cons] at hpw
    have htl0 : ∀ y ∈ tl, isValueCell y = false := by
      intro y hy
      have hrel := hpw.1 y hy
      cases x with
      | value v0 =>
        cases y with
        | value w => simp [cellLT] at hrel
        | label a => rfl
      | label a =>
        cases y with
        | value w => simp [cellLT] at hrel
        | label b => rfl
    have hcount0 : tl.countP isValueCell = 0 := by
      rw [List.countP_eq_zero]
      intro y hy
      rw [htl0 y hy]
      simp
    constructor
    · rw [List.countP_cons, hcount0]
      cases x <;> simp [isValueCell]
    · intro i hi v hget
      cases i with
      | zero => rfl
      | succ n =>
        exfalso
        have hn : n < tl.length := by
          simp only [List.length_cons] at hi
          omega
        have : tl.get ⟨n, hn⟩ = .value v := by
          simpa using hget
        have hmem : TrieLabel.value v ∈ tl := by
          rw [← this]
          exact List.get_mem tl n hn
        have := htl0 _ hmem
        simp [isValueCell] at this

theorem allNodes_goodCells_of_inv {L V : Type} [LinearOrder L] {t : NaiveTrie L V}
    (hInv : NaiveInv t) :
    AllNodes (fun cs => (childCells cs).Pairwise cellLT ∧
      (childCells cs).countP isValueCell ≤ 1 ∧
      (∀ i (hi : i < (childCells cs).length) (v : V),
        (childCells cs).get ⟨i, hi⟩ = .value v → i = 0)) t := by
  induction hInv with
  | mk t h1 h2 h3 h4 ih =>
    refine AllNodes.mk t ?_ ih
    have hpc := pairwise_cellLT_of_childLTc t.childrenL h4
    obtain ⟨hc1, hc2⟩ := pairwise_cellLT_facts (childCells t.childrenL) hpc
    exact ⟨hpc, hc1, hc2⟩

/-- C5: after every sequence of pushes on a trie created by `make_root`,
at every node the cell sequence of the children is strictly sorted under
the cell ordering (a `Value` cell below every `Label` cell, `Label` cells
by their tokens), contains at most one `Value` cell, and a `Value` cell
can only be the first child. -/
theorem c5_push_children_invariant {L V : Type} [LinearOrder L]
    (pairs : List (List L × V)) :
    AllNodes (fun cs => (childCells cs).Pairwise cellLT ∧
      (childCells cs).countP isValueCell ≤ 1 ∧
      (∀ i (hi : i < (childCells cs).length) (v : V),
        (childCells cs).get ⟨i, hi⟩ = .value v → i = 0))
      (NaiveTrie.pushAll NaiveTrie.makeRoot pairs) :=
  allNodes_goodCells_of_inv (NaiveInv.pushAll pairs _ NaiveInv.makeRoot)

/-! ### Find toolkit for the reference lookup -/

theorem hasLabelB_iff {L V : Type} [LinearOrder L] (c : L) (u : NaiveTrie L V) :
    NaiveTrie.hasLabelB c u = true ↔ u.cellOf = some (.label c) := by
  unfold NaiveTrie.hasLabelB
  cases hc : u.cellOf with
  | none => simp
  | some cell =>
    cases cell with
    | value w => simp
    | label a => simp [eq_comm]

theorem insertIdx_eq_take_cons_drop {α : Type} :
    ∀ (n : Nat) (l : List α) (x : α), n ≤ l.length →
      l.insertIdx n x = l.take n ++ x :: l.drop n
  | 0, l, x, _ => by simp
  | n + 1, [], x, h => by simp at h
  | n + 1, a :: l, x, h => by
    rw [List.insertIdx_succ_cons, insertIdx_eq_take_cons_drop n l x (by simpa using h)]
    simp

theorem find?_take_none {α : Type} (p : α → Bool) (cs : List α) (n : Nat)
    (hfalse : ∀ i (hi : i < cs.length), i < n → p (cs.get ⟨i, hi⟩) = false) :
    (cs.take n).find? p = none := by
  rw [List.find?_eq_none]
  intro y hy
  obtain ⟨i, hi, hgi⟩ := List.mem_iff_getElem.1 hy
  have hilen : i < cs.length := by
    have := List.length_take n cs
    omega
  have hin : i < n := by
    have := List.length_take n cs
    omega
  have : (cs.take n)[i] = cs[i] := List.getElem_take cs
  rw [this] at hgi
  rw [← hgi]
  have := hfalse i hilen hin
  simp only [List.get_eq_getElem] at this
  simp [this]

theorem eq_take_cons_drop_self {α : Type} (cs : List α) (j : Nat) (hj : j < cs.length) :
    cs = cs.take j ++ cs.get ⟨j, hj⟩ :: cs.drop (j + 1) := by
  conv_lhs => rw [← List.take_append_drop j cs]
  rw [List.drop_eq_get_cons hj]

theorem find?_found_at {α : Type} (p : α → Bool) (cs : List α) (j : Nat)
    (hj : j < cs.length)
    (hfalse : ∀ i (hi : i < cs.length), i < j → p (cs.get ⟨i, hi⟩) = false)
    (htrue : p (cs.get ⟨j, hj⟩) = true) :
    cs.find? p = some (cs.get ⟨j, hj⟩) := by
  conv_lhs => rw [eq_take_cons_drop_self cs j hj]
  rw [List.find?_append, find?_take_none p cs j hfalse, List.find?_cons_of_pos _ htrue]
  rfl

theorem find?_set_found {α : Type} (p : α → Bool) (cs : List α) (j : Nat)
    (hj : j < cs.length) (x : α)
    (hfalse : ∀ i (hi : i < cs.length), i < j → p (cs.get ⟨i, hi⟩) = false)
    (htrue : p x = true) :
    (cs.set j x).find? p = some x := by
  rw [List.set_eq_take_cons_drop x hj, List.find?_append,
    find?_take_none p cs j hfalse, List.find?_cons_of_pos _ htrue]
  rfl

theorem find?_set_pred_false {α : Type} (p : α → Bool) (cs : List α) (j : Nat)
    (hj : j < cs.length) (x : α) (hx : p x = false)
    (hold : p (cs.get ⟨j, hj⟩) = false) :
    (cs.set j x).find? p = cs.find? p := by
  simp only [List.get_eq_getElem] at hold
  rw [List.set_eq_take_cons_drop x hj, List.find?_append,
    List.find?_cons_of_neg _ (by simp [hx])]
  conv_rhs => rw [eq_take_cons_drop_self cs j hj]
  rw [List.find?_append, List.find?_cons_of_neg _ (by simp [hold])]

theorem find?_insertIdx_found {α : Type} (p : α → Bool) (cs : List α) (n : Nat)
    (hn : n ≤ cs.length) (x : α)
    (hfalse : ∀ i (hi : i < cs.length), i < n → p (cs.get ⟨i, hi⟩) = false)
    (htrue : p x = true) :
    (cs.insertIdx n x).find? p = some x := by
  rw [insertIdx_eq_take_cons_drop n cs x hn, List.find?_append,
    find?_take_none p cs n hfalse, List.find?_cons_of_pos _ htrue]
  rfl

theorem find?_insertIdx_pred_false {α : Type} (p : α → Bool) (cs : List α) (n : Nat)
    (hn : n ≤ cs.length) (x : α) (hx : p x = false) :
    (cs.insertIdx n x).find? p = cs.find? p := by
  rw [insertIdx_eq_take_cons_drop n cs x hn, List.find?_append,
    List.find?_cons_of_neg _ (by simp [hx])]
  conv_rhs => rw [← List.take_append_drop n cs]
  rw [List.find?_append]

/-! ### Lookup after push -/

theorem hasLabelB_false_of_lt {L V : Type} [LinearOrder L] {u x : NaiveTrie L V}
    {c : L} (hrel : childLTc u x) (hx : x.cellOf = some (.label c)) :
    NaiveTrie.hasLabelB c u = false := by
  unfold childLTc at hrel
  unfold NaiveTrie.hasLabelB
  cases hu : u.cellOf with
  | none => rfl
  | some cell =>
    rw [hu, hx] at hrel
    cases cell with
    | value w => rfl
    | label a =>
      simp only [cellLT] at hrel
      simp [ne_of_lt hrel]

theorem hasLabelB_false_of_gt {L V : Type} [LinearOrder L] {u x : NaiveTrie L V}
    {c : L} (hrel : childLTc x u) (hx : x.cellOf = some (.label c)) :
    NaiveTrie.hasLabelB c u = false := by
  unfold childLTc at hrel
  unfold NaiveTrie.hasLabelB
  cases hu : u.cellOf with
  | none => rfl
  | some cell =>
    rw [hu, hx] at hrel
    cases cell with
    | value w => simp [cellLT] at hrel
    | label a =>
      simp only [cellLT] at hrel
      simp [ne_of_gt hrel]

theorem hasLabelB_false_of_cmp_lt {L V : Type} [LinearOrder L] {u : NaiveTrie L V}
    {c : L} (hcmp : childCmpLabel u c = .lt) : NaiveTrie.hasLabelB c u = false := by
  unfold childCmpLabel at hcmp
  unfold NaiveTrie.hasLabelB
  cases hu : u.cellOf with
  | none => rfl
  | some cell =>
    rw [hu] at hcmp
    cases cell with
    | value w => rfl
    | label a =>
      simp only [cellCmpLabel] at hcmp
      simp [ne_of_lt (lt_of_lcmp_lt hcmp)]

theorem lookupNaive_eq_of_childrenL_eq {L V : Type} [LinearOrder L]
    {t t2 : NaiveTrie L V} (h : t.childrenL = t2.childrenL) :
    ∀ (k : List L), t.lookupNaive k = t2.lookupNaive k
  | [] => by
    unfold NaiveTrie.lookupNaive NaiveTrie.headValue
    rw [h]
  | c :: r => by
    unfold NaiveTrie.lookupNaive NaiveTrie.findChild
    rw [h]

theorem lookupNaive_makeInterm {L V : Type} [LinearOrder L] (c : L) :
    ∀ (k : List L), (NaiveTrie.makeInterm c (V := V)).lookupNaive k = none
  | [] => rfl
  | c2 :: r => rfl

/-- Pushing a word stores its value: the reference lookup of the pushed
word reads back the pushed value. -/
theorem lookup_push_self {L V : Type} [LinearOrder L] :
    ∀ (w : List L) (t : NaiveTrie L V) (v : V), NaiveInv t →
      (t.push w v).lookupNaive w = some v
  | [], t, v, hInv => by
    have hne := hInv.ne_phantom
    have hch := push_nil_childrenL t v hne
    show (t.push [] v).headValue = some v
    unfold NaiveTrie.headValue
    rw [hch]
    rcases insertOrSetValue_cases t.childrenL v with ⟨w0, cs0, tail, hcs, hnew⟩ | ⟨hsh, hnew⟩
    · rw [hnew]
      rfl
    · rw [hnew]
      rfl
  | c :: rest, t, v, hInv => by
    have hne := hInv.ne_phantom
    have hpw := hInv.pairwise_of
    have hpg := List.pairwise_iff_get.1 hpw
    by_cases hex : ∃ j, ∃ hj : j < t.childrenL.length,
        (t.childrenL.get ⟨j, hj⟩).cellOf = some (.label c)
    · obtain ⟨j, hj, hcell⟩ := hex
      have hbs := binSearch_children_found hpw hj hcell
      have hch := push_cons_found t c rest v hne hbs
      rw [List.getD_eq_get _ _ hj] at hch
      show (match (t.push (c :: rest) v).findChild c with
        | some u => u.lookupNaive rest
        | none => none) = some v
      unfold NaiveTrie.findChild
      rw [hch]
      rw [find?_set_found _ _ j hj _
        (fun i hi hij => hasLabelB_false_of_lt (hpg ⟨i, hi⟩ ⟨j, hj⟩ hij) hcell)
        (by rw [hasLabelB_iff, cellOf_push]; exact hcell)]
      exact lookup_push_self rest _ v (hInv.child_of _ (List.get_mem _ _ _))
    · push_neg at hex
      have habs : ∀ u ∈ t.childrenL, ¬ u.cellOf = some (.label c) := by
        intro u hu hcontra
        obtain ⟨n, hgn⟩ := List.mem_iff_get.1 hu
        apply hex n n.isLt
        have hfin : (⟨(n : Nat), n.isLt⟩ : Fin t.childrenL.length) = n := rfl
        rw [hfin, hgn]
        exact hcontra
      obtain ⟨p, hple, hbs, hiff, hgt⟩ := binSearch_children_absent hpw habs
      have hch := push_cons_absent t c rest v hne hbs
      show (match (t.push (c :: rest) v).findChild c with
        | some u => u.lookupNaive rest
        | none => none) = some v
      unfold NaiveTrie.findChild
      rw [hch]
      rw [find?_insertIdx_found _ _ p hple _
        (fun i hi hip => hasLabelB_false_of_cmp_lt ((hiff i hi).1 hip))
        (by rw [hasLabelB_iff, cellOf_push]; rfl)]
      exact lookup_push_self rest _ v (NaiveInv.makeInterm c)

theorem find?_insertOrSetValue {L V : Type} [LinearOrder L]
    (cs : List (NaiveTrie L V)) (v : V) (c : L) :
    (NaiveTrie.insertOrSetValue cs v).find? (NaiveTrie.hasLabelB c) =
      cs.find? (NaiveTrie.hasLabelB c) := by
  rcases insertOrSetValue_cases cs v with ⟨w0, cs0, tail, hcs, hnew⟩ | ⟨hsh, hnew⟩
  · rw [hnew, hcs]
    rw [List.find?_cons_of_neg _ (by simp [NaiveTrie.hasLabelB, NaiveTrie.cellOf]),
      List.find?_cons_of_neg _ (by simp [NaiveTrie.hasLabelB, NaiveTrie.cellOf])]
  · rw [hnew]
    rw [List.find?_cons_of_neg _
      (by simp [NaiveTrie.hasLabelB, NaiveTrie.makeLeaf, NaiveTrie.cellOf])]

theorem head?_set_zero {A : Type} (l : List A) (x : A) (h : 0 < l.length) :
    (l.set 0 x).head? = some x := by
  cases l with
  | nil => simp at h
  | cons a tl => rfl

theorem head?_set_succ {A : Type} (l : List A) (j : Nat) (x : A) :
    (l.set (j + 1) x).head? = l.head? := by
  cases l with
  | nil => rfl
  | cons a tl => rfl

theorem head?_eq_get_zero {A : Type} (l : List A) (h : 0 < l.length) :
    l.head? = some (l.get ⟨0, h⟩) := by
  cases l with
  | nil => simp at h
  | cons a tl => rfl

/-- Pushing a word leaves the reference lookup of every other key
unchanged. -/
theorem lookup_push_other {L V : Type} [LinearOrder L] :
    ∀ (w : List L) (t : NaiveTrie L V) (v : V) (k : List L), NaiveInv t → k ≠ w →
      (t.push w v).lookupNaive k = t.lookupNaive k
  | [], t, v, k, hInv, hk => by
    have hne := hInv.ne_phantom
    have hch := push_nil_childrenL t v hne
    match k with
    | [] => exact absurd rfl hk
    | c2 :: r =>
      show (match (t.push [] v).findChild c2 with
        | some u => u.lookupNaive r
        | none => none) =
        (match t.findChild c2 with
        | some u => u.lookupNaive r
        | none => none)
      unfold NaiveTrie.findChild
      rw [hch, find?_insertOrSetValue]
  | c :: rest, t, v, k, hInv, hk => by
    have hne := hInv.ne_phantom
    have hpw := hInv.pairwise_of
    have hpg := List.pairwise_iff_get.1 hpw
    by_cases hex : ∃ j, ∃ hj : j < t.childrenL.length,
        (t.childrenL.get ⟨j, hj⟩).cellOf = some (.label c)
    · obtain ⟨j, hj, hcell⟩ := hex
      have hbs := binSearch_children_found hpw hj hcell
      have hch := push_cons_found t c rest v hne hbs
      rw [List.getD_eq_get _ _ hj] at hch
      have hcellx : ((t.childrenL.get ⟨j, hj⟩).push rest v).cellOf =
          some (.label c) := by
        rw [cellOf_push]
        exact hcell
      match k with
      | [] =>
        show (t.push (c :: rest) v).headValue = t.headValue
        unfold NaiveTrie.headValue
        rw [hch]
        match j, hj, hcell, hcellx with
        | 0, hj, hcell, hcellx =>
          rw [head?_set_zero _ _ hj, head?_eq_get_zero _ hj]
          dsimp only
          rw [hcellx, hcell]
        | j2 + 1, hj, hcell, hcellx =>
          rw [head?_set_succ]
      | c2 :: r =>
        show (match (t.push (c :: rest) v).findChild c2 with
          | some u => u.lookupNaive r
          | none => none) =
          (match t.findChild c2 with
          | some u => u.lookupNaive r
          | none => none)
        unfold NaiveTrie.findChild
        rw [hch]
        by_cases hcc : c2 = c
        · subst hcc
          have hr : r ≠ rest := by
            intro hcontra
            rw [hcontra] at hk
            exact hk rfl
          rw [find?_set_found _ _ j hj _
            (fun i hi hij => hasLabelB_false_of_lt (hpg ⟨i, hi⟩ ⟨j, hj⟩ hij) hcell)
            (by rw [hasLabelB_iff]; exact hcellx)]
          rw [find?_found_at _ _ j hj
            (fun i hi hij => hasLabelB_false_of_lt (hpg ⟨i, hi⟩ ⟨j, hj⟩ hij) hcell)
            (by rw [hasLabelB_iff]; exact hcell)]
          exact lookup_push_other rest _ v r (hInv.child_of _ (List.get_mem _ _ _)) hr
        · rw [find?_set_pred_false _ _ j hj _
            (by unfold NaiveTrie.hasLabelB; rw [hcellx]; simp [Ne.symm hcc])
            (by unfold NaiveTrie.hasLabelB; rw [hcell]; simp [Ne.symm hcc])]
    · push_neg at hex
      have habs : ∀ u ∈ t.childrenL, ¬ u.cellOf = some (.label c) := by
        intro u hu hcontra
        obtain ⟨n, hgn⟩ := List.mem_iff_get.1 hu
        apply hex n n.isLt
        have hfin : (⟨(n : Nat), n.isLt⟩ : Fin t.childrenL.length) = n := rfl
        rw [hfin, hgn]
        exact hcontra
      obtain ⟨p, hple, hbs, hiff, hgt⟩ := binSearch_children_absent hpw habs
      have hch := push_cons_absent t c rest v hne hbs
      have hchain : ((NaiveTrie.makeInterm c).push rest v).cellOf =
          some (.label c) := by
        rw [cellOf_push]
        rfl
      match k with
      | [] =>
        show (t.push (c :: rest) v).headValue = t.headValue
        unfold NaiveTrie.headValue
        rw [hch]
        match hp0 : p, hple with
        | 0, hple =>
          rw [insertIdx_eq_take_cons_drop 0 _ _ (by omega)]
          simp only [List.take_zero, List.drop_zero, List.nil_append]
          show (match ((NaiveTrie.makeInterm c).push rest v).cellOf with
            | some (.value v2) => some v2
            | _ => none) = _
          rw [hchain]
          cases hcs : t.childrenL with
          | nil => rfl
          | cons u0 tl =>
            cases hc0 : u0.cellOf with
            | none =>
              rw [List.head?_cons]
              dsimp only
              rw [hc0]
            | some cell =>
              cases cell with
              | label a =>
                rw [List.head?_cons]
                dsimp only
                rw [hc0]
              | value w0 =>
                exfalso
                have h0 : (0 : Nat) < t.childrenL.length := by rw [hcs]; simp
                have hcmp : childCmpLabel (t.childrenL.get ⟨0, h0⟩) c = .lt := by
                  unfold childCmpLabel
                  have : t.childrenL.get ⟨0, h0⟩ = u0 := by
                    simp [hcs]
                  rw [this, hc0]
                  rfl
                have := (hiff 0 h0).2 hcmp
                omega
        | p2 + 1, hple =>
          cases hcs : t.childrenL with
          | nil => rw [hcs] at hple; simp at hple
          | cons u0 tl =>
            rw [hcs] at hple
            rw [insertIdx_eq_take_cons_drop (p2 + 1) _ _ hple]
            simp only [List.take_succ_cons]
            rfl
      | c2 :: r =>
        show (match (t.push (c :: rest) v).findChild c2 with
          | some u => u.lookupNaive r
          | none => none) =
          (match t.findChild c2 with
          | some u => u.lookupNaive r
          | none => none)
        unfold NaiveTrie.findChild
        rw [hch]
        by_cases hcc : c2 = c
        · subst hcc
          have hr : r ≠ rest := by
            intro hcontra
            rw [hcontra] at hk
            exact hk rfl
          rw [find?_insertIdx_found _ _ p hple _
            (fun i hi hip => hasLabelB_false_of_cmp_lt ((hiff i hi).1 hip))
            (by rw [hasLabelB_iff]; exact hchain)]
          rw [List.find?_eq_none.2 (fun u hu => by
            rw [hasLabelB_iff]
            exact habs u hu)]
          dsimp only
          rw [lookup_push_other rest _ v r (NaiveInv.makeInterm c2) hr,
            lookupNaive_makeInterm]
        · rw [find?_insertIdx_pred_false _ _ p hple _
            (by unfold NaiveTrie.hasLabelB; rw [hchain]; simp [Ne.symm hcc])]

/-! ### LOUDS layout of the built bitstring -/

theorem expandBF_interm {L V : Type} (u : NaiveTrie L V) (h : u.isIntermB = true) :
    u.expandBF = u.childrenL ++ [.phantomSibling] := by
  cases u with
  | root cs => simp [NaiveTrie.isIntermB] at h
  | intermOrLeaf cell cs => rfl
  | phantomSibling => simp [NaiveTrie.isIntermB] at h

theorem cellOf_isSome_interm {L V : Type} (u : NaiveTrie L V) (h : u.isIntermB = true) :
    (u.cellOf).isSome = true := by
  cases u with
  | root cs => simp [NaiveTrie.isIntermB] at h
  | intermOrLeaf cell cs => rfl
  | phantomSibling => simp [NaiveTrie.isIntermB] at h

theorem frontierQueue_nil {L V : Type} :
    frontierQueue ([] : List (List (NaiveTrie L V))) = [] := rfl

theorem frontierQueue_cons {L V : Type} (blk : List (NaiveTrie L V)) (fr) :
    frontierQueue (blk :: fr) = blk ++ .phantomSibling :: frontierQueue fr := by
  simp [frontierQueue]

theorem frontierQueue_append {L V : Type} (f1 f2 : List (List (NaiveTrie L V))) :
    frontierQueue (f1 ++ f2) = frontierQueue f1 ++ frontierQueue f2 := by
  simp [frontierQueue]

theorem elemsF_nil {L V : Type} : elemsF ([] : List (List (NaiveTrie L V))) = [] := rfl

theorem elemsF_cons {L V : Type} (blk : List (NaiveTrie L V)) (fr) :
    elemsF (blk :: fr) = blk ++ elemsF fr := by
  simp [elemsF]

theorem mem_elemsF {L V : Type} (fr : List (List (NaiveTrie L V))) (u : NaiveTrie L V) :
    u ∈ elemsF fr ↔ ∃ blk ∈ fr, u ∈ blk := by
  simp [elemsF, List.mem_flatMap]

theorem flatMap_expand_block {L V : Type} :
    ∀ (blk : List (NaiveTrie L V)), (∀ u ∈ blk, u.isIntermB = true) →
      blk.flatMap NaiveTrie.expandBF = frontierQueue (blk.map NaiveTrie.childrenL)
  | [], _ => rfl
  | u :: bs, h => by
    rw [List.flatMap_cons, List.map_cons, frontierQueue_cons,
      expandBF_interm u (h u (by simp)),
      flatMap_expand_block bs (fun x hx => h x (by simp [hx]))]
    simp

theorem expand_frontierQueue {L V : Type} :
    ∀ (fr : List (List (NaiveTrie L V))),
      (∀ blk ∈ fr, ∀ u ∈ blk, u.isIntermB = true) →
      (frontierQueue fr).flatMap NaiveTrie.expandBF = frontierQueue (nextFrontier fr)
  | [], _ => rfl
  | blk :: fr', h => by
    rw [frontierQueue_cons, List.flatMap_append, List.flatMap_cons]
    rw [flatMap_expand_block blk (h blk (by simp)),
      expand_frontierQueue fr' (fun b hb => h b (by simp [hb]))]
    show frontierQueue (blk.map NaiveTrie.childrenL) ++
      ([] ++ frontierQueue (nextFrontier fr')) = _
    rw [List.nil_append]
    unfold nextFrontier
    rw [elemsF_cons, List.map_append, frontierQueue_append]

theorem stream_level {L V : Type} (fr : List (List (NaiveTrie L V))) :
    bfsS (frontierQueue fr) =
      (frontierQueue fr).map NaiveTrie.item ++
        bfsS ((frontierQueue fr).flatMap NaiveTrie.expandBF) := by
  have h := bfsS_level (frontierQueue fr) []
  simpa using h

theorem block_bits {L V : Type} :
    ∀ (blk : List (NaiveTrie L V)), (∀ u ∈ blk, u.isIntermB = true) →
      (blk.map NaiveTrie.item).filterMap itemBit = List.replicate blk.length true
  | [], _ => rfl
  | u :: bs, h => by
    have hu := h u (by simp)
    have hrest := block_bits bs (fun x hx => h x (by simp [hx]))
    cases u with
    | root cs => simp [NaiveTrie.isIntermB] at hu
    | intermOrLeaf cell cs =>
      rw [List.map_cons, List.filterMap_cons]
      show true :: (bs.map NaiveTrie.item).filterMap itemBit = _
      rw [hrest, List.length_cons, List.replicate_succ]
    | phantomSibling => simp [NaiveTrie.isIntermB] at hu

theorem block_cells {L V : Type} :
    ∀ (blk : List (NaiveTrie L V)), (∀ u ∈ blk, u.isIntermB = true) →
      (blk.map NaiveTrie.item).filterMap itemCell = blk.filterMap NaiveTrie.cellOf
  | [], _ => rfl
  | u :: bs, h => by
    have hu := h u (by simp)
    have hrest := block_cells bs (fun x hx => h x (by simp [hx]))
    cases u with
    | root cs => simp [NaiveTrie.isIntermB] at hu
    | intermOrLeaf cell cs =>
      rw [List.map_cons, List.filterMap_cons, List.filterMap_cons]
      show cell :: (bs.map NaiveTrie.item).filterMap itemCell = cell :: _
      rw [hrest]
    | phantomSibling => simp [NaiveTrie.isIntermB] at hu

theorem blocksBits_cons {L V : Type} (blk : List (NaiveTrie L V)) (fr) :
    blocksBits (blk :: fr) =
      List.replicate blk.length true ++ false :: blocksBits fr := by
  simp [blocksBits]

theorem blocksBits_append {L V : Type} (f1 f2 : List (List (NaiveTrie L V))) :
    blocksBits (f1 ++ f2) = blocksBits f1 ++ blocksBits f2 := by
  simp [blocksBits]

theorem level_bits {L V : Type} :
    ∀ (fr : List (List (NaiveTrie L V))),
      (∀ blk ∈ fr, ∀ u ∈ blk, u.isIntermB = true) →
      ((frontierQueue fr).map NaiveTrie.item).filterMap itemBit = blocksBits fr
  | [], _ => rfl
  | blk :: fr', h => by
    rw [frontierQueue_cons, List.map_append, List.filterMap_append,
      block_bits blk (h blk (by simp)), List.map_cons, List.filterMap_cons]
    show List.replicate blk.length true ++
      false :: ((frontierQueue fr').map NaiveTrie.item).filterMap itemBit = _
    rw [level_bits fr' (fun b hb => h b (by simp [hb])), blocksBits_cons]

theorem levelCells_cons {L V : Type} (blk : List (NaiveTrie L V)) (fr) :
    levelCells (blk :: fr) =
      blk.filterMap NaiveTrie.cellOf ++ levelCells fr := by
  simp [levelCells, elemsF]

theorem level_cells {L V : Type} :
    ∀ (fr : List (List (NaiveTrie L V))),
      (∀ blk ∈ fr, ∀ u ∈ blk, u.isIntermB = true) →
      ((frontierQueue fr).map NaiveTrie.item).filterMap itemCell = levelCells fr
  | [], _ => rfl
  | blk :: fr', h => by
    rw [frontierQueue_cons, List.map_append, List.filterMap_append,
      block_cells blk (h blk (by simp)), List.map_cons, List.filterMap_cons]
    show blk.filterMap NaiveTrie.cellOf ++
      ((frontierQueue fr').map NaiveTrie.item).filterMap itemCell = _
    rw [level_cells fr' (fun b hb => h b (by simp [hb])), levelCells_cons]

theorem frInterm_elems {L V : Type} (fr : List (List (NaiveTrie L V)))
    (h : frInterm fr) : ∀ blk ∈ fr, ∀ u ∈ blk, u.isIntermB = true :=
  fun blk hblk u hu => (h blk hblk u hu).1

theorem frInterm_next {L V : Type} (fr : List (List (NaiveTrie L V)))
    (h : frInterm fr) : frInterm (nextFrontier fr) := by
  intro blk hblk u hu
  unfold nextFrontier at hblk
  obtain ⟨e, he, hbe⟩ := List.mem_map.1 hblk
  obtain ⟨b0, hb0, heb⟩ := (mem_elemsF fr e).1 he
  obtain ⟨-, hall⟩ := h b0 hb0 e heb
  cases hall with
  | mk t hP hrec =>
    rw [← hbe] at hu
    refine ⟨hP u hu, hrec u hu⟩

theorem bitsFrom_unfold {L V : Type} (fr : List (List (NaiveTrie L V)))
    (h : frInterm fr) :
    bitsFrom fr = blocksBits fr ++ bitsFrom (nextFrontier fr) := by
  unfold bitsFrom
  rw [stream_level, expand_frontierQueue fr (frInterm_elems fr h),
    List.filterMap_append, level_bits fr (frInterm_elems fr h)]

theorem cellsFrom_unfold {L V : Type} (fr : List (List (NaiveTrie L V)))
    (h : frInterm fr) :
    cellsFrom fr = levelCells fr ++ cellsFrom (nextFrontier fr) := by
  unfold cellsFrom
  rw [stream_level, expand_frontierQueue fr (frInterm_elems fr h),
    List.filterMap_append, level_cells fr (frInterm_elems fr h)]

theorem walk0_zero (bits : List Bool) (c : Nat) : walk0 bits 0 c = (c, bits) := by
  cases bits with
  | nil => rfl
  | cons x rest => cases x <;> rfl

theorem walk0_replicate_true :
    ∀ (n : Nat) (X : List Bool) (k c : Nat),
      walk0 (List.replicate n true ++ X) (k + 1) c = walk0 X (k + 1) (c + n)
  | 0, X, k, c => by simp
  | n + 1, X, k, c => by
    rw [List.replicate_succ, List.cons_append]
    show walk0 (List.replicate n true ++ X) (k + 1) (c + 1) = _
    rw [walk0_replicate_true n X k (c + 1),
      show c + 1 + n = c + (n + 1) from by omega]

theorem trueRun_replicate :
    ∀ (n : Nat) (X : List Bool), trueRun (List.replicate n true ++ false :: X) = n
  | 0, X => rfl
  | n + 1, X => by
    rw [List.replicate_succ, List.cons_append]
    show trueRun (List.replicate n true ++ false :: X) + 1 = n + 1
    rw [trueRun_replicate n X]

theorem offsetIn_zero {L V : Type} (fr : List (List (NaiveTrie L V))) :
    offsetIn fr 0 = 0 := by
  simp [offsetIn]

theorem offsetIn_cons_succ {L V : Type} (blk : List (NaiveTrie L V)) (fr) (b : Nat) :
    offsetIn (blk :: fr) (b + 1) = blk.length + offsetIn fr b := by
  simp [offsetIn]

theorem offsetIn_full {L V : Type} :
    ∀ (fr : List (List (NaiveTrie L V))), offsetIn fr fr.length = (elemsF fr).length
  | [] => rfl
  | blk :: fr' => by
    rw [List.length_cons, offsetIn_cons_succ, offsetIn_full fr', elemsF_cons,
      List.length_append]

theorem offsetIn_append {L V : Type} :
    ∀ (past fr : List (List (NaiveTrie L V))) (b : Nat),
      offsetIn (past ++ fr) (past.length + b) = (elemsF past).length + offsetIn fr b
  | [], fr, b => by simp [elemsF]
  | blk :: p', fr, b => by
    rw [List.cons_append, show (blk :: p').length + b = (p'.length + b) + 1 from by
      simp; omega, offsetIn_cons_succ, offsetIn_append p' fr b, elemsF_cons,
      List.length_append]
    omega

theorem offsetIn_add_lt {L V : Type} :
    ∀ (fr : List (List (NaiveTrie L V))) (b : Nat) (hb : b < fr.length) (j : Nat),
      j < (fr.get ⟨b, hb⟩).length → offsetIn fr b + j < (elemsF fr).length
  | blk :: fr', 0, _, j, hj => by
    rw [offsetIn_zero, elemsF_cons, List.length_append]
    have : j < blk.length := hj
    omega
  | blk :: fr', b + 1, hb, j, hj => by
    rw [offsetIn_cons_succ, elemsF_cons, List.length_append]
    have hb' : b < fr'.length := by
      simp only [List.length_cons] at hb
      omega
    have := offsetIn_add_lt fr' b hb' j hj
    omega

theorem elemsF_get? {L V : Type} :
    ∀ (fr : List (List (NaiveTrie L V))) (b : Nat) (hb : b < fr.length) (j : Nat),
      j < (fr.get ⟨b, hb⟩).length →
      (elemsF fr).get? (offsetIn fr b + j) = (fr.get ⟨b, hb⟩).get? j
  | blk :: fr', 0, _, j, hj => by
    rw [offsetIn_zero, elemsF_cons, Nat.zero_add]
    exact List.get?_append hj
  | blk :: fr', b + 1, hb, j, hj => by
    rw [offsetIn_cons_succ, elemsF_cons]
    have hb' : b < fr'.length := by
      simp only [List.length_cons] at hb
      omega
    rw [List.get?_append_right (by omega),
      show blk.length + offsetIn fr' b + j - blk.length = offsetIn fr' b + j from by
        omega]
    exact elemsF_get? fr' b hb' j hj

theorem filterMap_all_some_length {α β : Type} (f : α → Option β) :
    ∀ (l : List α), (∀ x ∈ l, (f x).isSome = true) →
      (l.filterMap f).length = l.length
  | [], _ => rfl
  | a :: l', h => by
    cases hfa : f a with
    | none =>
      have := h a (by simp)
      rw [hfa] at this
      simp at this
    | some b =>
      rw [List.filterMap_cons, hfa, List.length_cons,
        filterMap_all_some_length f l' (fun x hx => h x (by simp [hx]))]
      simp

theorem filterMap_all_some_get? {α β : Type} (f : α → Option β) :
    ∀ (l : List α), (∀ x ∈ l, (f x).isSome = true) → ∀ (p : Nat),
      (l.filterMap f).get? p = (l.get? p).bind f
  | [], _, p => by simp
  | a :: l', h, p => by
    cases hfa : f a with
    | none =>
      have := h a (by simp)
      rw [hfa] at this
      simp at this
    | some b =>
      rw [List.filterMap_cons, hfa]
      cases p with
      | zero => simp [hfa]
      | succ p' =>
        rw [List.get?_cons_succ, List.get?_cons_succ,
          filterMap_all_some_get? f l' (fun x hx => h x (by simp [hx])) p']

theorem levelCells_length {L V : Type} (fr : List (List (NaiveTrie L V)))
    (h : frInterm fr) : (levelCells fr).length = (elemsF fr).length := by
  unfold levelCells
  refine filterMap_all_some_length _ _ ?_
  intro u hu
  obtain ⟨blk, hblk, hub⟩ := (mem_elemsF fr u).1 hu
  exact cellOf_isSome_interm u (h blk hblk u hub).1

theorem levelCells_get? {L V : Type} (fr : List (List (NaiveTrie L V)))
    (h : frInterm fr) (p : Nat) :
    (levelCells fr).get? p = ((elemsF fr).get? p).bind NaiveTrie.cellOf := by
  unfold levelCells
  refine filterMap_all_some_get? _ _ ?_ p
  intro u hu
  obtain ⟨blk, hblk, hub⟩ := (mem_elemsF fr u).1 hu
  exact cellOf_isSome_interm u (h blk hblk u hub).1

theorem walk0_blocks_at {L V : Type} :
    ∀ (fr : List (List (NaiveTrie L V))) (b : Nat) (hb : b < fr.length)
      (S : List Bool) (c : Nat),
      walk0 (blocksBits fr ++ S) b c =
        (c + offsetIn fr b,
          List.replicate (fr.get ⟨b, hb⟩).length true ++
            false :: (blocksBits (fr.drop (b + 1)) ++ S))
  | blk :: fr', 0, hb, S, c => by
    rw [blocksBits_cons, List.append_assoc, List.cons_append, walk0_zero]
    show (c, List.replicate blk.length true ++ false :: (blocksBits fr' ++ S)) =
      (c + offsetIn (blk :: fr') 0,
        List.replicate ((blk :: fr').get ⟨0, hb⟩).length true ++
          false :: (blocksBits ((blk :: fr').drop 1) ++ S))
    rfl
  | blk :: fr', b + 1, hb, S, c => by
    rw [blocksBits_cons, List.append_assoc, List.cons_append,
      walk0_replicate_true blk.length _ b c]
    show walk0 (blocksBits fr' ++ S) b (c + blk.length) = _
    have hb' : b < fr'.length := by
      simp only [List.length_cons] at hb
      omega
    rw [walk0_blocks_at fr' b hb' S (c + blk.length), offsetIn_cons_succ]
    refine congrArg (fun x => (x, _)) ?_
    omega

theorem walk0_blocks_all {L V : Type} :
    ∀ (fr : List (List (NaiveTrie L V))) (z c : Nat) (S : List Bool),
      walk0 (blocksBits fr ++ S) (fr.length + z) c =
        walk0 S z (c + (elemsF fr).length)
  | [], z, c, S => by
    show walk0 ([] ++ S) (0 + z) c = _
    rw [List.nil_append, Nat.zero_add]
    rfl
  | blk :: fr', z, c, S => by
    rw [blocksBits_cons, List.append_assoc, List.cons_append,
      show (blk :: fr').length + z = (fr'.length + z) + 1 from by simp; omega,
      walk0_replicate_true blk.length _ _ c]
    show walk0 (blocksBits fr' ++ S) (fr'.length + z) (c + blk.length) = _
    rw [walk0_blocks_all fr' z _ S, elemsF_cons, List.length_append]
    refine congrArg (fun x => walk0 S z x) ?_
    omega

theorem range_map_getD {β : Type} (n j : Nat) (f : Nat → β) (d : β) (h : j < n) :
    (((List.range n).map f).getD j d) = f j := by
  rw [List.getD_eq_get?, List.get?_map, List.get?_range h]
  rfl

theorem elemsF_append {L V : Type} (f1 f2 : List (List (NaiveTrie L V))) :
    elemsF (f1 ++ f2) = elemsF f1 ++ elemsF f2 := by
  simp [elemsF]

theorem flatMap_id_map {L V : Type} :
    ∀ (l : List (NaiveTrie L V)),
      (l.map NaiveTrie.childrenL).flatMap id = l.flatMap NaiveTrie.childrenL
  | [] => rfl
  | u :: l' => by
    rw [List.map_cons, List.flatMap_cons, List.flatMap_cons, flatMap_id_map l']
    rfl

theorem elemsF_nextFrontier {L V : Type} (fr : List (List (NaiveTrie L V))) :
    elemsF (nextFrontier fr) = (elemsF fr).flatMap NaiveTrie.childrenL := by
  unfold nextFrontier elemsF
  exact flatMap_id_map _

theorem nextFrontier_length {L V : Type} (fr : List (List (NaiveTrie L V))) :
    (nextFrontier fr).length = (elemsF fr).length := by
  unfold nextFrontier
  simp

theorem sumWeightQ_pos_of_mem {L V : Type} :
    ∀ (q : List (NaiveTrie L V)) (u : NaiveTrie L V), u ∈ q → 1 ≤ sumWeightQ q
  | a :: q', u, hm => by
    rw [sumWeightQ_cons]
    have := sumWeight_pos a
    omega

theorem sumWeight_elems_next {L V : Type} :
    ∀ (l : List (NaiveTrie L V)), (∀ u ∈ l, u.isIntermB = true) →
      sumWeightQ (l.flatMap NaiveTrie.childrenL) + 2 * l.length = sumWeightQ l
  | [], _ => rfl
  | u :: l', h => by
    rw [List.flatMap_cons, sumWeightQ_append, sumWeightQ_cons]
    have hrest := sumWeight_elems_next l' (fun x hx => h x (by simp [hx]))
    have hu := h u (by simp)
    cases u with
    | root cs => simp [NaiveTrie.isIntermB] at hu
    | intermOrLeaf cell cs =>
      have hw : sumWeight (NaiveTrie.intermOrLeaf cell cs) = 2 + sumWeightL cs := rfl
      have hc : (NaiveTrie.intermOrLeaf cell cs).childrenL = cs.toList := rfl
      rw [hc, sumWeightQ_toList, hw, List.length_cons]
      omega
    | phantomSibling => simp [NaiveTrie.isIntermB] at hu

theorem cnn_frontier {L V : Type} (T : Trie L V)
    (past fr : List (List (NaiveTrie L V))) (hfr : frInterm fr)
    (hL : T.louds = true :: false :: (blocksBits past ++ bitsFrom fr))
    (b : Nat) (hb : b < fr.length) :
    childrenNodeNums T (1 + past.length + b) =
      (List.range (fr.get ⟨b, hb⟩).length).map
        (fun j => 1 + (elemsF past).length + offsetIn fr b + j + 1) := by
  have hb2 : past.length + b < (past ++ fr).length := by
    rw [List.length_append]
    omega
  have hget : (past ++ fr).get ⟨past.length + b, hb2⟩ = fr.get ⟨b, hb⟩ := by
    have h1 : (past ++ fr).get? (past.length + b) = fr.get? b := by
      rw [List.get?_append_right (by omega)]
      congr 1
      omega
    rw [List.get?_eq_get hb2, List.get?_eq_get hb] at h1
    exact Option.some.inj h1
  have hwalk : walk0 T.louds (1 + past.length + b) 0 =
      (1 + ((elemsF past).length + offsetIn fr b),
        List.replicate (fr.get ⟨b, hb⟩).length true ++
          false :: (blocksBits ((past ++ fr).drop (past.length + b + 1)) ++
            bitsFrom (nextFrontier fr))) := by
    rw [hL, bitsFrom_unfold fr hfr, ← List.append_assoc, ← blocksBits_append,
      show 1 + past.length + b = (past.length + b) + 1 from by omega]
    show walk0 (blocksBits (past ++ fr) ++ bitsFrom (nextFrontier fr))
      (past.length + b) 1 = _
    rw [walk0_blocks_at (past ++ fr) (past.length + b) hb2 _ 1,
      offsetIn_append, hget]
  show (List.range (trueRun (walk0 T.louds (1 + past.length + b) 0).2)).map
    (fun j => (walk0 T.louds (1 + past.length + b) 0).1 + j + 1) = _
  rw [hwalk]
  dsimp only
  rw [trueRun_replicate]
  refine List.map_congr_left ?_
  intro j hj
  omega

theorem labelAt_frontier {L V : Type} (T : Trie L V)
    (past fr : List (List (NaiveTrie L V))) (hfr : frInterm fr)
    (C : List (TrieLabel L V))
    (hC : T.trieLabels = C ++ cellsFrom fr)
    (hCl : C.length = (elemsF past).length)
    (b : Nat) (hb : b < fr.length) (j : Nat) (hj : j < (fr.get ⟨b, hb⟩).length) :
    T.trieLabelAt (1 + (elemsF past).length + offsetIn fr b + j + 1) =
      ((fr.get ⟨b, hb⟩).get ⟨j, hj⟩).cellOf := by
  unfold Trie.trieLabelAt
  rw [hC, show 1 + (elemsF past).length + offsetIn fr b + j + 1 - 2 =
    (elemsF past).length + (offsetIn fr b + j) from by omega, ← hCl,
    List.get?_append_right (by omega),
    show C.length + (offsetIn fr b + j) - C.length = offsetIn fr b + j from by
      omega,
    cellsFrom_unfold fr hfr]
  have hlt : offsetIn fr b + j < (levelCells fr).length := by
    rw [levelCells_length fr hfr]
    exact offsetIn_add_lt fr b hb j hj
  rw [List.get?_append hlt, levelCells_get? fr hfr, elemsF_get? fr b hb j hj,
    List.get?_eq_get hj]
  rfl

/-- Construction of the LOUDS soundness relation, level by level: if the
bitstring and the label table of the trie decompose as the fully emitted
blocks of past levels followed by the stream of the current frontier,
then every block of the frontier is the child group of its node number. -/
theorem nodeCorr_frontier {L V : Type} (T : Trie L V) :
    ∀ (fuel : Nat) (past fr : List (List (NaiveTrie L V)))
      (C : List (TrieLabel L V)),
      sumWeightQ (elemsF fr) ≤ fuel →
      frInterm fr →
      T.louds = true :: false :: (blocksBits past ++ bitsFrom fr) →
      T.trieLabels = C ++ cellsFrom fr →
      C.length = (elemsF past).length →
      past.length + fr.length = (elemsF past).length + 1 →
      ∀ (b : Nat) (hb : b < fr.length) (u : NaiveTrie L V),
        u.childrenL = fr.get ⟨b, hb⟩ →
        NodeCorr T (1 + past.length + b) u := by
  intro fuel
  induction fuel using Nat.strong_induction_on with
  | _ fuel ih =>
    intro past fr C hfuel hfr hL hC hCl hcount b hb u hu
    have hcnn := cnn_frontier T past fr hfr hL b hb
    have hlen : u.childrenL.length = (fr.get ⟨b, hb⟩).length := by rw [hu]
    refine NodeCorr.mk _ u ?_ ?_ ?_ ?_
    · rw [hcnn, List.length_map, List.length_range, hlen]
    · intro j hj
      rw [hcnn, range_map_getD _ _ _ _ (by omega)]
      omega
    · intro j hj
      have hj2 : j < (fr.get ⟨b, hb⟩).length := by omega
      rw [hcnn, range_map_getD _ _ _ _ hj2,
        labelAt_frontier T past fr hfr C hC hCl b hb j hj2, hu,
        List.getD_eq_get _ _ hj2]
    · intro j hj
      have hj2 : j < (fr.get ⟨b, hb⟩).length := by omega
      rw [hcnn, range_map_getD _ _ _ _ hj2, hu, List.getD_eq_get _ _ hj2]
      have hmm : (fr.get ⟨b, hb⟩).get ⟨j, hj2⟩ ∈ elemsF fr := by
        rw [mem_elemsF]
        exact ⟨fr.get ⟨b, hb⟩, List.get_mem fr b hb, List.get_mem _ j hj2⟩
      have hdec := sumWeight_elems_next (elemsF fr)
        (fun x hx => by
          obtain ⟨blk, hblk, hxb⟩ := (mem_elemsF fr x).1 hx
          exact (hfr blk hblk x hxb).1)
      have hpos : 1 ≤ (elemsF fr).length :=
        List.length_pos.2 (List.ne_nil_of_mem hmm)
      have hwpos := sumWeightQ_pos_of_mem (elemsF fr) _ hmm
      have hfuel2 : sumWeightQ (elemsF (nextFrontier fr)) < fuel := by
        rw [elemsF_nextFrontier]
        omega
      have hb2 : offsetIn fr b + j < (nextFrontier fr).length := by
        rw [nextFrontier_length]
        exact offsetIn_add_lt fr b hb j hj2
      have hblock : ((fr.get ⟨b, hb⟩).get ⟨j, hj2⟩).childrenL =
          (nextFrontier fr).get ⟨offsetIn fr b + j, hb2⟩ := by
        have h1 : (nextFrontier fr).get? (offsetIn fr b + j) =
            ((elemsF fr).get? (offsetIn fr b + j)).map NaiveTrie.childrenL := by
          unfold nextFrontier
          rw [List.get?_map]
        rw [elemsF_get? fr b hb j hj2, List.get?_eq_get hj2,
          List.get?_eq_get hb2] at h1
        exact (Option.some.inj h1).symm
      have hres := ih (sumWeightQ (elemsF (nextFrontier fr))) hfuel2
        (past ++ fr) (nextFrontier fr) (C ++ levelCells fr) (le_refl _)
        (frInterm_next fr hfr)
        (by rw [hL, bitsFrom_unfold fr hfr, ← List.append_assoc,
          ← blocksBits_append])
        (by rw [hC, cellsFrom_unfold fr hfr, List.append_assoc])
        (by rw [List.length_append, hCl, levelCells_length fr hfr,
          elemsF_append, List.length_append])
        (by rw [List.length_append, nextFrontier_length, elemsF_append,
          List.length_append]
            omega)
        (offsetIn fr b + j) hb2 _ hblock
      have hnum : 1 + (past ++ fr).length + (offsetIn fr b + j) =
          1 + (elemsF past).length + offsetIn fr b + j + 1 := by
        rw [List.length_append]
        omega
      rw [hnum] at hres
      exact hres

/-- Every child at every node of an invariant tree is an `IntermOrLeaf`
node. -/
theorem allNodes_interm_of_inv {L V : Type} [LinearOrder L] {t : NaiveTrie L V}
    (h : NaiveInv t) : AllNodes (fun cs => ∀ c ∈ cs, c.isIntermB = true) t := by
  induction h with
  | mk t h1 h2 h3 h4 ih => exact AllNodes.mk t h2 ih

/-- Initialisation of the LOUDS soundness relation: the built trie of a
root-variant naive trie satisfying the structural invariant corresponds
to it at node number `1`. -/
theorem nodeCorr_build {L V : Type} [LinearOrder L] (nt : NaiveTrie L V)
    (hInv : NaiveInv nt) (cs : NaiveTrieL L V) (hroot : nt = NaiveTrie.root cs) :
    NodeCorr (Trie.build nt) 1 nt := by
  subst hroot
  have hfq : frontierQueue [(NaiveTrie.root cs).childrenL] =
      cs.toList ++ [.phantomSibling] := by
    simp [frontierQueue, NaiveTrie.childrenL]
  have hstream : bfsS [NaiveTrie.root cs] =
      .root :: bfsS (frontierQueue [(NaiveTrie.root cs).childrenL]) := by
    rw [bfsS_cons, hfq]
    show BFItem.root :: bfsS ([] ++ (cs.toList ++ [.phantomSibling])) = _
    rw [List.nil_append]
  have hL : (Trie.build (NaiveTrie.root cs)).louds =
      true :: false ::
        (blocksBits ([] : List (List (NaiveTrie L V))) ++
          bitsFrom [(NaiveTrie.root cs).childrenL]) := by
    show true :: false :: (bfsS [NaiveTrie.root cs]).filterMap itemBit = _
    rw [hstream]
    rfl
  have hC : (Trie.build (NaiveTrie.root cs)).trieLabels =
      [] ++ cellsFrom [(NaiveTrie.root cs).childrenL] := by
    show (bfsS [NaiveTrie.root cs]).filterMap itemCell = _
    rw [hstream]
    rfl
  have hfr : frInterm [(NaiveTrie.root cs).childrenL] := by
    intro blk hblk u hu
    have hblk2 : blk = (NaiveTrie.root cs).childrenL := by simpa using hblk
    subst hblk2
    exact ⟨hInv.interm_of u hu, allNodes_interm_of_inv (hInv.child_of u hu)⟩
  have hres := nodeCorr_frontier (Trie.build (NaiveTrie.root cs))
    (sumWeightQ (elemsF [(NaiveTrie.root cs).childrenL]))
    [] [(NaiveTrie.root cs).childrenL] []
    (le_refl _) hfr hL hC rfl rfl 0 (by simp) (NaiveTrie.root cs) rfl
  exact hres

/-! ### Claim C1: the round trip through build and exact_match -/

theorem NodeCorr.len_eq {L V : Type} {T : Trie L V} {i : Nat} {t : NaiveTrie L V}
    (h : NodeCorr T i t) :
    (childrenNodeNums T i).length = t.childrenL.length := by
  cases h with
  | mk i t h1 h2 h3 h4 => exact h1

theorem NodeCorr.ge2 {L V : Type} {T : Trie L V} {i : Nat} {t : NaiveTrie L V}
    (h : NodeCorr T i t) :
    ∀ j, j < t.childrenL.length → 2 ≤ (childrenNodeNums T i).getD j 0 := by
  cases h with
  | mk i t h1 h2 h3 h4 => exact h2

theorem NodeCorr.labelAt {L V : Type} {T : Trie L V} {i : Nat} {t : NaiveTrie L V}
    (h : NodeCorr T i t) :
    ∀ j, j < t.childrenL.length →
      T.trieLabelAt ((childrenNodeNums T i).getD j 0) =
        (t.childrenL.getD j .phantomSibling).cellOf := by
  cases h with
  | mk i t h1 h2 h3 h4 => exact h3

theorem NodeCorr.child {L V : Type} {T : Trie L V} {i : Nat} {t : NaiveTrie L V}
    (h : NodeCorr T i t) :
    ∀ j, j < t.childrenL.length →
      NodeCorr T ((childrenNodeNums T i).getD j 0)
        (t.childrenL.getD j .phantomSibling) := by
  cases h with
  | mk i t h1 h2 h3 h4 => exact h4

theorem headValue_inv {L V : Type} (u : NaiveTrie L V) (v : V)
    (h : u.headValue = some v) :
    ∃ w, u.childrenL.head? = some w ∧ w.cellOf = some (.value v) := by
  unfold NaiveTrie.headValue at h
  cases hh : u.childrenL.head? with
  | none => rw [hh] at h; exact absurd h (by simp)
  | some w =>
    rw [hh] at h
    dsimp only at h
    cases hc : w.cellOf with
    | none => rw [hc] at h; exact absurd h (by simp)
    | some cell =>
      rw [hc] at h
      cases cell with
      | label a => exact absurd h (by simp)
      | value v2 =>
        refine ⟨w, rfl, ?_⟩
        rw [hc]
        have hv : v2 = v := by
          have h2 : some v2 = some v := h
          exact Option.some.inj h2
        rw [hv]

theorem childLTc_cells {L V : Type} [LinearOrder L] {a b : NaiveTrie L V}
    {x y : TrieLabel L V} (hca : a.cellOf = some x) (hcb : b.cellOf = some y)
    (hab : childLTc a b) : cellLT x y := by
  unfold childLTc at hab
  rw [hca, hcb] at hab
  exact hab

theorem cellLT_to_value_false {L V : Type} [LinearOrder L]
    (x : TrieLabel L V) (v : V) : ¬ cellLT x (.value v) := by
  cases x with
  | label a => exact fun h => h
  | value w => exact fun h => h

theorem cellOf_exists_interm {L V : Type} (u : NaiveTrie L V)
    (h : u.isIntermB = true) : ∃ x, u.cellOf = some x := by
  cases u with
  | root cs => simp [NaiveTrie.isIntermB] at h
  | intermOrLeaf cell cs => exact ⟨cell, rfl⟩
  | phantomSibling => simp [NaiveTrie.isIntermB] at h

theorem cell_label_of_pos {L V : Type} [LinearOrder L] (t : NaiveTrie L V)
    (hInv : NaiveInv t) (i : Nat) (hi : i < t.childrenL.length) (hpos : 1 ≤ i) :
    ∃ a, (t.childrenL.get ⟨i, hi⟩).cellOf = some (.label a) := by
  obtain ⟨x, hx⟩ := cellOf_exists_interm _
    (hInv.interm_of _ (List.get_mem _ i hi))
  cases x with
  | label a => exact ⟨a, hx⟩
  | value v =>
    exfalso
    have h0 : 0 < t.childrenL.length := by omega
    have hpg := List.pairwise_iff_get.1 hInv.pairwise_of
    have hrel := hpg ⟨0, h0⟩ ⟨i, hi⟩ (by
      show (0 : Nat) < i
      omega)
    obtain ⟨y, hy⟩ := cellOf_exists_interm _
      (hInv.interm_of _ (List.get_mem _ 0 h0))
    exact cellLT_to_value_false y v (childLTc_cells hy hx hrel)

/-- Simulation of the `exact_match_node` loop along the LOUDS
correspondence: when the reference lookup of a nonempty key succeeds, the
loop lands on a node whose `value` readout is the stored payload. The
binary search cannot hit the `Value`-cell panic because the probed range
always contains the matching label, which sits strictly after the `Value`
cell. -/
theorem exactMatchGo_corr {L V : Type} [LinearOrder L] (T : Trie L V) :
    ∀ (k : List L) (t : NaiveTrie L V) (n : Nat) (v : V),
      NodeCorr T n t → NaiveInv t → t.lookupNaive k = some v → k ≠ [] →
      ∃ m, T.exactMatchGo n k = .ok (some m) ∧ T.valueAt m = some v
  | [], _, _, _, _, _, _, hk => absurd rfl hk
  | c :: rest, t, n, v, hCorr, hInv, hlk, _ => by
    have hlk2 : (match t.findChild c with
      | some u => u.lookupNaive rest
      | none => none) = some v := hlk
    cases hfc : t.findChild c with
    | none =>
      rw [hfc] at hlk2
      exact absurd hlk2 (by simp)
    | some u =>
      rw [hfc] at hlk2
      unfold NaiveTrie.findChild at hfc
      have hmem := List.mem_of_find?_eq_some hfc
      have hpred := List.find?_some hfc
      have hcellu : u.cellOf = some (.label c) := (hasLabelB_iff c u).1 hpred
      obtain ⟨jf, hjf⟩ := List.mem_iff_get.1 hmem
      have hj2 : (jf : Nat) < (childrenNodeNums T n).length := by
        rw [hCorr.len_eq]
        exact jf.isLt
      have hfin : (⟨(jf : Nat), jf.isLt⟩ : Fin t.childrenL.length) = jf :=
        Fin.ext rfl
      have hpg := List.pairwise_iff_get.1 hInv.pairwise_of
      have heqc : T.labelCmpP c ((childrenNodeNums T n).get ⟨jf, hj2⟩) =
          some .eq := by
        unfold Trie.labelCmpP
        rw [show (childrenNodeNums T n).get ⟨(jf : Nat), hj2⟩ =
            (childrenNodeNums T n).getD (jf : Nat) 0 from
          (List.getD_eq_get _ _ hj2).symm,
          hCorr.labelAt (jf : Nat) jf.isLt, List.getD_eq_get _ _ jf.isLt,
          hfin, hjf, hcellu]
        dsimp only
        rw [lcmp_eq rfl]
      have hlt : ∀ i (hi : i < (childrenNodeNums T n).length), 1 ≤ i →
          i < (jf : Nat) →
          T.labelCmpP c ((childrenNodeNums T n).get ⟨i, hi⟩) = some .lt := by
        intro i hi h1 hij
        have hi2 : i < t.childrenL.length := by
          rw [← hCorr.len_eq]
          exact hi
        obtain ⟨a, ha⟩ := cell_label_of_pos t hInv i hi2 h1
        have hrel := hpg ⟨i, hi2⟩ jf (by
          show i < (jf : Nat)
          omega)
        have hcellg : (t.childrenL.get jf).cellOf = some (.label c) := by
          rw [hjf]
          exact hcellu
        have hac : a < c := childLTc_cells ha hcellg hrel
        unfold Trie.labelCmpP
        rw [show (childrenNodeNums T n).get ⟨i, hi⟩ =
            (childrenNodeNums T n).getD i 0 from
          (List.getD_eq_get _ _ hi).symm,
          hCorr.labelAt i hi2, List.getD_eq_get _ _ hi2, ha]
        dsimp only
        rw [lcmp_lt hac]
      have hgt : ∀ i (hi : i < (childrenNodeNums T n).length), (jf : Nat) < i →
          T.labelCmpP c ((childrenNodeNums T n).get ⟨i, hi⟩) = some .gt := by
        intro i hi hij
        have hi2 : i < t.childrenL.length := by
          rw [← hCorr.len_eq]
          exact hi
        obtain ⟨x, hx⟩ := cellOf_exists_interm _
          (hInv.interm_of _ (List.get_mem _ i hi2))
        have hrel := hpg jf ⟨i, hi2⟩ (by
          show (jf : Nat) < i
          omega)
        have hcellg : (t.childrenL.get jf).cellOf = some (.label c) := by
          rw [hjf]
          exact hcellu
        have hcl := childLTc_cells hcellg hx hrel
        cases x with
        | value w => exact absurd hcl (cellLT_to_value_false _ _)
        | label b =>
          have hcb : c < b := hcl
          unfold Trie.labelCmpP
          rw [show (childrenNodeNums T n).get ⟨i, hi⟩ =
              (childrenNodeNums T n).getD i 0 from
            (List.getD_eq_get _ _ hi).symm,
            hCorr.labelAt i hi2, List.getD_eq_get _ _ hi2, hx]
          dsimp only
          rw [lcmp_gt hcb]
      have hbs : T.binSearchByChildrenLabels c (childrenNodeNums T n) =
          some (.inl (jf : Nat)) :=
        binarySearchByP_found (T.labelCmpP c) (childrenNodeNums T n)
          (jf : Nat) hj2 heqc hlt hgt
      have hgetDu : t.childrenL.getD (jf : Nat) .phantomSibling = u := by
        rw [List.getD_eq_get _ _ jf.isLt, hfin, hjf]
      have hCorrU : NodeCorr T ((childrenNodeNums T n).getD (jf : Nat) 0) u := by
        have h4 := hCorr.child (jf : Nat) jf.isLt
        rw [hgetDu] at h4
        exact h4
      have hInvU := hInv.child_of u hmem
      have hgo : T.exactMatchGo n (c :: rest) =
          (if rest = [] ∧ T.isTerminal ((childrenNodeNums T n).getD (jf : Nat) 0)
            then .ok (some ((childrenNodeNums T n).getD (jf : Nat) 0))
            else T.exactMatchGo ((childrenNodeNums T n).getD (jf : Nat) 0) rest) := by
        show (match T.binSearchByChildrenLabels c (childrenNodeNums T n) with
          | none => PanicOr.panic
          | some (.inr _) => .ok none
          | some (.inl j) =>
            if rest = [] ∧ T.isTerminal ((childrenNodeNums T n).getD j 0)
              then .ok (some ((childrenNodeNums T n).getD j 0))
              else T.exactMatchGo ((childrenNodeNums T n).getD j 0) rest) = _
        rw [hbs]
      by_cases hrne : rest = []
      · subst hrne
        have hval : u.headValue = some v := hlk2
        obtain ⟨w, hw, hwc⟩ := headValue_inv u v hval
        have hulen : 0 < u.childrenL.length := by
          cases hcu : u.childrenL with
          | nil => rw [hcu] at hw; exact absurd hw (by simp)
          | cons a l => simp
        have hwget : w = u.childrenL.get ⟨0, hulen⟩ := by
          rw [head?_eq_get_zero _ hulen] at hw
          exact (Option.some.inj hw).symm
        have hm2 : 2 ≤ (childrenNodeNums T n).getD (jf : Nat) 0 :=
          hCorr.ge2 (jf : Nat) jf.isLt
        have hculen : 0 <
            (childrenNodeNums T ((childrenNodeNums T n).getD (jf : Nat) 0)).length := by
          rw [hCorrU.len_eq]
          exact hulen
        have hchead :
            (childrenNodeNums T ((childrenNodeNums T n).getD (jf : Nat) 0)).head? =
            some ((childrenNodeNums T
              ((childrenNodeNums T n).getD (jf : Nat) 0)).getD 0 0) := by
          rw [head?_eq_get_zero _ hculen, List.getD_eq_get _ _ hculen]
        have hlab0 : T.trieLabelAt
            ((childrenNodeNums T ((childrenNodeNums T n).getD (jf : Nat) 0)).getD 0 0) =
            some (.value v) := by
          rw [hCorrU.labelAt 0 hulen, List.getD_eq_get _ _ hulen, ← hwget, hwc]
        have hterm : T.isTerminal ((childrenNodeNums T n).getD (jf : Nat) 0) = true := by
          unfold Trie.isTerminal
          rw [if_pos hm2, hchead]
          dsimp only
          rw [hlab0]
        have hvalm : T.valueAt ((childrenNodeNums T n).getD (jf : Nat) 0) =
            some v := by
          unfold Trie.valueAt
          rw [if_pos hm2, hchead]
          dsimp only
          rw [hlab0]
        refine ⟨(childrenNodeNums T n).getD (jf : Nat) 0, ?_, hvalm⟩
        rw [hgo, if_pos ⟨rfl, hterm⟩]
      · obtain ⟨m, hm1, hm2⟩ := exactMatchGo_corr T rest u
          ((childrenNodeNums T n).getD (jf : Nat) 0) v hCorrU hInvU hlk2 hrne
        refine ⟨m, ?_, hm2⟩
        rw [hgo, if_neg (fun hand => hrne hand.1), hm1]

theorem withChildren_root {L V : Type} (cs : NaiveTrieL L V)
    (l : List (NaiveTrie L V)) :
    (NaiveTrie.root cs).withChildren l = NaiveTrie.root (NaiveTrieL.ofList l) := rfl

theorem push_root_exists {L V : Type} [LinearOrder L] (w : List L)
    (cs : NaiveTrieL L V) (v : V) :
    ∃ cs2, (NaiveTrie.root cs).push w v = NaiveTrie.root cs2 := by
  cases w with
  | nil => exact ⟨_, rfl⟩
  | cons c rest =>
    show ∃ cs2, (match binarySearchBy (fun child => childCmpLabel child c) cs.toList with
      | .inl j => NaiveTrie.withChildren (NaiveTrie.root cs)
          (cs.toList.set j
            (NaiveTrie.push (cs.toList.getD j .phantomSibling) rest v))
      | .inr j => NaiveTrie.withChildren (NaiveTrie.root cs)
          (cs.toList.insertIdx j
            (NaiveTrie.push (NaiveTrie.makeInterm c) rest v))) =
      NaiveTrie.root cs2
    cases binarySearchBy (fun child => childCmpLabel child c) cs.toList with
    | inl j => exact ⟨_, rfl⟩
    | inr j => exact ⟨_, rfl⟩

theorem pushAll_root_exists {L V : Type} [LinearOrder L] :
    ∀ (pairs : List (List L × V)) (cs : NaiveTrieL L V),
      ∃ cs2, NaiveTrie.pushAll (NaiveTrie.root cs) pairs = NaiveTrie.root cs2
  | [], cs => ⟨cs, rfl⟩
  | p :: rest, cs => by
    obtain ⟨cs1, h1⟩ := push_root_exists p.1 cs p.2
    obtain ⟨cs2, h2⟩ := pushAll_root_exists rest cs1
    refine ⟨cs2, ?_⟩
    show NaiveTrie.pushAll ((NaiveTrie.root cs).push p.1 p.2) rest = _
    rw [h1, h2]

theorem lookupNaive_makeRoot {L V : Type} [LinearOrder L] (k : List L) :
    (NaiveTrie.makeRoot (L := L) (V := V)).lookupNaive k = none := by
  cases k with
  | nil => rfl
  | cons c r => rfl

theorem lookup_pushAll {L V : Type} [LinearOrder L] :
    ∀ (pairs : List (List L × V)) (t : NaiveTrie L V) (k : List L), NaiveInv t →
      (t.pushAll pairs).lookupNaive k =
        pairs.foldl (fun acc p => if p.1 = k then some p.2 else acc)
          (t.lookupNaive k)
  | [], _, _, _ => rfl
  | p :: rest, t, k, hInv => by
    show ((t.push p.1 p.2).pushAll rest).lookupNaive k =
      rest.foldl (fun acc q => if q.1 = k then some q.2 else acc)
        (if p.1 = k then some p.2 else t.lookupNaive k)
    rw [lookup_pushAll rest _ k (NaiveInv.push p.1 t p.2 hInv)]
    by_cases hpk : p.1 = k
    · rw [if_pos hpk, ← hpk, lookup_push_self p.1 t p.2 hInv]
    · rw [if_neg hpk, lookup_push_other p.1 t p.2 k hInv (fun h => hpk h.symm)]

theorem lookup_pushAll_lastAssoc {L V : Type} [LinearOrder L]
    (pairs : List (List L × V)) (k : List L) :
    (NaiveTrie.pushAll NaiveTrie.makeRoot pairs).lookupNaive k =
      lastAssoc pairs k := by
  rw [lookup_pushAll pairs _ k NaiveInv.makeRoot, lookupNaive_makeRoot]
  rfl

/-- C1, amended: the round trip holds for every nonempty key: if the last
push of a key stored a value, `exact_match` on the built trie returns
that value without panicking. (The original claim fails for the empty
key.) -/
theorem c1_round_trip_amended {L V : Type} [LinearOrder L]
    (pairs : List (List L × V)) (k : List L) (v : V)
    (hk : k ≠ []) (hlast : lastAssoc pairs k = some v) :
    (Trie.build (NaiveTrie.pushAll NaiveTrie.makeRoot pairs)).exactMatch k =
      .ok (some v) := by
  have hInv := NaiveInv.pushAll pairs _ NaiveInv.makeRoot
  obtain ⟨cs2, hroot⟩ := pushAll_root_exists pairs NaiveTrieL.nil
  have hlk : (NaiveTrie.pushAll NaiveTrie.makeRoot pairs).lookupNaive k = some v := by
    rw [lookup_pushAll_lastAssoc, hlast]
  obtain ⟨m, hgo, hval⟩ := exactMatchGo_corr
    (Trie.build (NaiveTrie.pushAll NaiveTrie.makeRoot pairs)) k
    (NaiveTrie.pushAll NaiveTrie.makeRoot pairs) 1 v
    (nodeCorr_build _ hInv cs2 hroot) hInv hlk hk
  show ((Trie.build (NaiveTrie.pushAll NaiveTrie.makeRoot pairs)).exactMatchGo
    1 k).map (fun o => o.bind
      ((Trie.build (NaiveTrie.pushAll NaiveTrie.makeRoot pairs)).valueAt)) = _
  rw [hgo]
  show PanicOr.ok ((Trie.build (NaiveTrie.pushAll NaiveTrie.makeRoot pairs)).valueAt m) = _
  rw [hval]

theorem c1_round_trip_amended_witness :
    ([97] : List Nat) ≠ [] ∧
    lastAssoc [([97], 0), ([98], 1)] [97] = some 0 ∧
    (Trie.build (NaiveTrie.pushAll NaiveTrie.makeRoot
      [([97], 0), ([98], 1)])).exactMatch [97] = .ok (some (0 : Nat)) :=
  ⟨by decide, by decide, c1_round_trip_amended _ _ _ (by decide) (by decide)⟩

/-! ### Claim C9: the payload write of exact_match_mut -/

theorem set_append_left {α : Type} :
    ∀ (l1 l2 : List α) (j : Nat) (x : α), j < l1.length →
      (l1 ++ l2).set j x = l1.set j x ++ l2
  | a :: t1, l2, 0, x, _ => rfl
  | a :: t1, l2, j + 1, x, h => by
    show a :: ((t1 ++ l2).set j x) = a :: (t1.set j x ++ l2)
    rw [set_append_left t1 l2 j x (by simp at h; omega)]

theorem set_append_right2 {α : Type} :
    ∀ (l1 l2 : List α) (j : Nat) (x : α),
      (l1 ++ l2).set (l1.length + j) x = l1 ++ l2.set j x
  | [], l2, j, x => by simp
  | a :: t1, l2, j, x => by
    rw [show (a :: t1 : List α).length + j = (t1.length + j) + 1 from by
      simp
      omega]
    show a :: ((t1 ++ l2).set (t1.length + j) x) = a :: (t1 ++ l2.set j x)
    rw [set_append_right2 t1 l2 j x]

theorem item_ne_phantom {L V : Type} (t : NaiveTrie L V)
    (h : t.item ≠ .phantom) : t ≠ .phantomSibling := by
  intro hcontra
  rw [hcontra] at h
  exact h rfl

theorem expandBF_eq_childrenL {L V : Type} (t : NaiveTrie L V)
    (h : t ≠ .phantomSibling) :
    t.expandBF = t.childrenL ++ [.phantomSibling] := by
  cases t with
  | root cs => rfl
  | intermOrLeaf cell cs => rfl
  | phantomSibling => exact absurd rfl h

theorem payloadDiff_ne_phantom {L V : Type} {w v : V} {t t2 : NaiveTrie L V}
    (h : PayloadDiff w v t t2) : t ≠ .phantomSibling ∧ t2 ≠ .phantomSibling := by
  cases h with
  | cell cs =>
    refine ⟨?_, ?_⟩
    · intro hc
      cases hc
    · intro hc
      cases hc
  | down t3 t4 u2 j hj hitem hch hrec =>
    have ht : t ≠ .phantomSibling := by
      intro hc
      rw [hc] at hj
      simp [NaiveTrie.childrenL] at hj
    refine ⟨ht, ?_⟩
    intro hc
    rw [hc] at hitem
    have : NaiveTrie.item (L := L) (V := V) .phantomSibling = .phantom := rfl
    rw [this] at hitem
    cases t with
    | root cs => exact absurd hitem.symm (by intro hx; cases hx)
    | intermOrLeaf cell cs => exact absurd hitem.symm (by intro hx; cases hx)
    | phantomSibling => exact ht rfl

theorem payloadDiff_item {L V : Type} {w v : V} {t t2 : NaiveTrie L V}
    (h : PayloadDiff w v t t2) :
    t2.item = t.item ∨
      (t.item = .node (.value w) ∧ t2.item = .node (.value v) ∧
        t2.expandBF = t.expandBF) := by
  cases h with
  | cell cs => exact Or.inr ⟨rfl, rfl, rfl⟩
  | down t3 t4 u2 j hj hitem hch hrec => exact Or.inl hitem

/-- The breadth-first stream of a queue whose entry at one position has a
localised payload difference is the original stream with exactly one
`Value` cell payload replaced. -/
theorem bfs_payloadDiff {L V : Type} {w v : V} :
    ∀ (fuel : Nat) (Q : List (NaiveTrie L V)) (P : Nat) (x2 : NaiveTrie L V),
      sumWeightQ Q ≤ fuel →
      (hP : P < Q.length) →
      PayloadDiff w v (Q.get ⟨P, hP⟩) x2 →
      ∃ S, bfsS (Q.set P x2) = (bfsS Q).set S (.node (.value v)) ∧
        (bfsS Q).get? S = some (.node (.value w)) := by
  intro fuel
  induction fuel using Nat.strong_induction_on with
  | _ fuel ih =>
    intro Q P x2 hfuel hP hPD
    match Q, P, hP with
    | x :: Q0, 0, hP =>
      have hx : (x :: Q0).get ⟨0, hP⟩ = x := rfl
      rw [hx] at hPD
      have hmeas : sumWeightQ (Q0 ++ x.expandBF) + 1 = sumWeight x + sumWeightQ Q0 :=
        sumWeightQ_expand x Q0
      have hwx := sumWeight_pos x
      rw [sumWeightQ_cons] at hfuel
      cases hPD with
      | cell cs =>
        refine ⟨0, ?_, ?_⟩
        · show bfsS (NaiveTrie.intermOrLeaf (.value v) cs :: Q0) = _
          rw [bfsS_cons, bfsS_cons]
          show NaiveTrie.item (.intermOrLeaf (.value v) cs) ::
            bfsS (Q0 ++ (NaiveTrie.intermOrLeaf (.value v) cs).expandBF) = _
          have hexp : (NaiveTrie.intermOrLeaf (L := L) (.value v) cs).expandBF =
              (NaiveTrie.intermOrLeaf (L := L) (.value w) cs).expandBF := rfl
          rw [hexp]
          rfl
        · rw [bfsS_cons]
          rfl
      | down t3 t4 u2 j hj hitem hch hrec =>
        obtain ⟨ht, ht2⟩ := payloadDiff_ne_phantom (PayloadDiff.down x x2 u2 j hj hitem hch hrec)
        have hexp2 : x2.expandBF = x2.childrenL ++ [.phantomSibling] :=
          expandBF_eq_childrenL x2 ht2
        have hexp : x.expandBF = x.childrenL ++ [.phantomSibling] :=
          expandBF_eq_childrenL x ht
        have hq2 : Q0 ++ x2.expandBF =
            (Q0 ++ x.expandBF).set (Q0.length + j) u2 := by
          rw [hexp2, hexp, hch, set_append_right2, set_append_left _ _ j u2 hj]
        have hP2 : Q0.length + j < (Q0 ++ x.expandBF).length := by
          rw [List.length_append, hexp, List.length_append]
          simp
          omega
        have hget2 : (Q0 ++ x.expandBF).get ⟨Q0.length + j, hP2⟩ =
            x.childrenL.getD j .phantomSibling := by
          have h1 : (Q0 ++ x.expandBF).get? (Q0.length + j) =
              x.childrenL.get? j := by
            rw [List.get?_append_right (by omega), hexp,
              show Q0.length + j - Q0.length = j from by omega,
              List.get?_append hj]
          rw [List.get?_eq_get hP2, List.get?_eq_get hj] at h1
          rw [Option.some.inj h1, List.getD_eq_get _ _ hj]
        obtain ⟨S0, hS1, hS2⟩ := ih (sumWeightQ (Q0 ++ x.expandBF))
          (by omega) (Q0 ++ x.expandBF) (Q0.length + j) u2 (le_refl _) hP2
          (by rw [hget2]; exact hrec)
        refine ⟨S0 + 1, ?_, ?_⟩
        · show bfsS (x2 :: Q0) = _
          rw [bfsS_cons, bfsS_cons, hitem]
          show x.item :: bfsS (Q0 ++ x2.expandBF) = (x.item :: bfsS (Q0 ++ x.expandBF)).set (S0 + 1) _
          rw [hq2, hS1]
          rfl
        · rw [bfsS_cons]
          show (bfsS (Q0 ++ x.expandBF)).get? S0 = _
          exact hS2
    | x :: Q0, p + 1, hP =>
      have hp0 : p < Q0.length := by
        simp at hP
        omega
      have hget : (x :: Q0).get ⟨p + 1, hP⟩ = Q0.get ⟨p, hp0⟩ := rfl
      rw [hget] at hPD
      have hmeas : sumWeightQ (Q0 ++ x.expandBF) + 1 = sumWeight x + sumWeightQ Q0 :=
        sumWeightQ_expand x Q0
      have hwx := sumWeight_pos x
      rw [sumWeightQ_cons] at hfuel
      have hP2 : p < (Q0 ++ x.expandBF).length := by
        rw [List.length_append]
        omega
      have hget2 : (Q0 ++ x.expandBF).get ⟨p, hP2⟩ = Q0.get ⟨p, hp0⟩ := by
        have h1 : (Q0 ++ x.expandBF).get? p = Q0.get? p := List.get?_append hp0
        rw [List.get?_eq_get hP2, List.get?_eq_get hp0] at h1
        exact Option.some.inj h1
      obtain ⟨S0, hS1, hS2⟩ := ih (sumWeightQ (Q0 ++ x.expandBF)) (by omega)
        (Q0 ++ x.expandBF) p x2 (le_refl _) hP2 (by rw [hget2]; exact hPD)
      refine ⟨S0 + 1, ?_, ?_⟩
      · show bfsS (x :: Q0.set p x2) = _
        rw [bfsS_cons, bfsS_cons]
        show x.item :: bfsS (Q0.set p x2 ++ x.expandBF) =
          (x.item :: bfsS (Q0 ++ x.expandBF)).set (S0 + 1) _
        rw [set_append_left _ _ p x2 hp0] at hS1
        rw [hS1]
        rfl
      · rw [bfsS_cons]
        exact hS2

theorem filterMap_set_congr {α β : Type} (f : α → Option β) :
    ∀ (l : List α) (S : Nat) (x x2 : α), l.get? S = some x → f x2 = f x →
      (l.set S x2).filterMap f = l.filterMap f
  | [], S, x, x2, hget, _ => by simp at hget
  | a :: tl, 0, x, x2, hget, hf => by
    have hax : a = x := Option.some.inj hget
    show (x2 :: tl).filterMap f = (a :: tl).filterMap f
    rw [List.filterMap_cons, List.filterMap_cons, hf, hax]
  | a :: tl, S + 1, x, x2, hget, hf => by
    show (a :: tl.set S x2).filterMap f = (a :: tl).filterMap f
    rw [List.filterMap_cons, List.filterMap_cons,
      filterMap_set_congr f tl S x x2 hget hf]

theorem filterMap_set_some {α β : Type} (f : α → Option β) :
    ∀ (l : List α) (S : Nat) (x x2 : α) (y y2 : β), l.get? S = some x →
      f x = some y → f x2 = some y2 →
      ∃ S2, (l.set S x2).filterMap f = (l.filterMap f).set S2 y2 ∧
        (l.filterMap f).get? S2 = some y
  | [], S, x, x2, y, y2, hget, _, _ => by simp at hget
  | a :: tl, 0, x, x2, y, y2, hget, hfx, hfx2 => by
    have hax : a = x := Option.some.inj hget
    subst hax
    refine ⟨0, ?_, ?_⟩
    · show (x2 :: tl).filterMap f = ((a :: tl).filterMap f).set 0 y2
      rw [List.filterMap_cons, List.filterMap_cons, hfx, hfx2]
      rfl
    · rw [List.filterMap_cons, hfx]
      rfl
  | a :: tl, S + 1, x, x2, y, y2, hget, hfx, hfx2 => by
    obtain ⟨S2, h1, h2⟩ := filterMap_set_some f tl S x x2 y y2 hget hfx hfx2
    cases hfa : f a with
    | none =>
      refine ⟨S2, ?_, ?_⟩
      · show (a :: tl.set S x2).filterMap f = _
        rw [List.filterMap_cons, List.filterMap_cons, hfa, h1]
      · rw [List.filterMap_cons, hfa]
        exact h2
    | some b =>
      refine ⟨S2 + 1, ?_, ?_⟩
      · show (a :: tl.set S x2).filterMap f = _
        rw [List.filterMap_cons, List.filterMap_cons, hfa, h1]
        rfl
      · rw [List.filterMap_cons, hfa]
        exact h2

/-- Building the payload-replaced tree yields the same LOUDS bitstring
and the label table with exactly one `Value` payload replaced. -/
theorem build_payloadDiff {L V : Type} {w v : V} (t t2 : NaiveTrie L V)
    (hPD : PayloadDiff w v t t2) :
    (Trie.build t2).louds = (Trie.build t).louds ∧
    ∃ S2, (Trie.build t2).trieLabels =
        ((Trie.build t).trieLabels).set S2 (.value v) ∧
      ((Trie.build t).trieLabels).get? S2 = some (.value w) := by
  have h0 : (0 : Nat) < ([t] : List (NaiveTrie L V)).length := by simp
  have hget : ([t] : List (NaiveTrie L V)).get ⟨0, h0⟩ = t := rfl
  obtain ⟨S, hS1, hS2⟩ := bfs_payloadDiff (sumWeightQ [t]) [t] 0 t2 (le_refl _) h0
    (by rw [hget]; exact hPD)
  have hset : ([t] : List (NaiveTrie L V)).set 0 t2 = [t2] := rfl
  rw [hset] at hS1
  constructor
  · show true :: false :: (bfsS [t2]).filterMap itemBit = _
    rw [hS1, filterMap_set_congr itemBit (bfsS [t]) S
      (BFItem.node (.value w)) (BFItem.node (.value v)) hS2 rfl]
    rfl
  · obtain ⟨S2, h1, h2⟩ := filterMap_set_some itemCell (bfsS [t]) S
      (BFItem.node (.value w)) (BFItem.node (.value v)) (.value w) (.value v)
      hS2 rfl rfl
    refine ⟨S2, ?_, ?_⟩
    · show (bfsS [t2]).filterMap itemCell = _
      rw [hS1]
      exact h1
    · exact h2

theorem item_push {L V : Type} [LinearOrder L] :
    ∀ (k : List L) (t : NaiveTrie L V) (v : V), (t.push k v).item = t.item
  | [], t, v => by cases t <;> rfl
  | c :: rest, t, v => by
    show (match binarySearchBy (fun child => childCmpLabel child c) t.childrenL with
      | .inl j => NaiveTrie.withChildren t
          (t.childrenL.set j
            (NaiveTrie.push (t.childrenL.getD j .phantomSibling) rest v))
      | .inr j => NaiveTrie.withChildren t
          (t.childrenL.insertIdx j
            (NaiveTrie.push (NaiveTrie.makeInterm c) rest v))).item = t.item
    cases binarySearchBy (fun child => childCmpLabel child c) t.childrenL with
    | inl j => cases t <;> rfl
    | inr j => cases t <;> rfl

/-- When the pushed key is already stored, `push` only replaces one
`Value` payload along the descent path of the key. -/
theorem push_stored_PD {L V : Type} [LinearOrder L] :
    ∀ (k : List L) (t : NaiveTrie L V) (w v : V), NaiveInv t →
      t.lookupNaive k = some w → PayloadDiff w v t (t.push k v)
  | [], t, w, v, hInv, hlk => by
    obtain ⟨x, hx, hxc⟩ := headValue_inv t w hlk
    have hne := hInv.ne_phantom
    have h0 : 0 < t.childrenL.length := by
      cases hcl : t.childrenL with
      | nil => rw [hcl] at hx; exact absurd hx (by simp)
      | cons a l => simp
    obtain ⟨cs0, hx0⟩ : ∃ cs0, x = NaiveTrie.intermOrLeaf (.value w) cs0 := by
      cases x with
      | root cs => exact absurd hxc (by simp [NaiveTrie.cellOf])
      | intermOrLeaf cell cs =>
        have : cell = .value w := by
          have h2 : some cell = some (.value w) := hxc
          exact Option.some.inj h2
        exact ⟨cs, by rw [this]⟩
      | phantomSibling => exact absurd hxc (by simp [NaiveTrie.cellOf])
    refine PayloadDiff.down t (t.push [] v)
      (NaiveTrie.intermOrLeaf (.value v) cs0) 0 h0 (item_push [] t v) ?_ ?_
    · rw [push_nil_childrenL t v hne]
      cases hcl : t.childrenL with
      | nil => rw [hcl] at h0; simp at h0
      | cons a tl =>
        have hax : a = x := by
          rw [hcl] at hx
          exact Option.some.inj hx
        rw [hax, hx0]
        rfl
    · rw [List.getD_eq_get _ _ h0]
      have hx2 : t.childrenL.get ⟨0, h0⟩ = x := by
        rw [head?_eq_get_zero _ h0] at hx
        exact Option.some.inj hx
      rw [hx2, hx0]
      exact PayloadDiff.cell cs0
  | c :: rest, t, w, v, hInv, hlk => by
    have hne := hInv.ne_phantom
    have hlk2 : (match t.findChild c with
      | some u => u.lookupNaive rest
      | none => none) = some w := hlk
    cases hfc : t.findChild c with
    | none =>
      rw [hfc] at hlk2
      exact absurd hlk2 (by simp)
    | some u =>
      rw [hfc] at hlk2
      unfold NaiveTrie.findChild at hfc
      have hmem := List.mem_of_find?_eq_some hfc
      have hcellu : u.cellOf = some (.label c) :=
        (hasLabelB_iff c u).1 (List.find?_some hfc)
      obtain ⟨jf, hjf⟩ := List.mem_iff_get.1 hmem
      have hfin : (⟨(jf : Nat), jf.isLt⟩ : Fin t.childrenL.length) = jf :=
        Fin.ext rfl
      have hcell : (t.childrenL.get ⟨(jf : Nat), jf.isLt⟩).cellOf =
          some (.label c) := by
        rw [hfin, hjf]
        exact hcellu
      have hbs := binSearch_children_found hInv.pairwise_of jf.isLt hcell
      have hch := push_cons_found t c rest v hne hbs
      refine PayloadDiff.down t (t.push (c :: rest) v)
        ((t.childrenL.getD (jf : Nat) .phantomSibling).push rest v)
        (jf : Nat) jf.isLt (item_push (c :: rest) t v) hch ?_
      refine push_stored_PD rest _ w v (hInv.child_of _ ?_) ?_
      · rw [List.getD_eq_get _ _ jf.isLt]
        exact List.get_mem _ _ _
      · rw [List.getD_eq_get _ _ jf.isLt, hfin, hjf]
        exact hlk2

theorem cnn_louds_congr {L V : Type} (T1 T2 : Trie L V)
    (h : T2.louds = T1.louds) (i : Nat) :
    childrenNodeNums T2 i = childrenNodeNums T1 i := by
  unfold childrenNodeNums
  rw [h]

theorem hasChildren_congr {L V : Type} (T1 T2 : Trie L V)
    (h : T2.louds = T1.louds) (n : Nat) :
    T2.hasChildrenNodeNums n = T1.hasChildrenNodeNums n := by
  unfold Trie.hasChildrenNodeNums
  rw [cnn_louds_congr T1 T2 h]

theorem binSearch_labels_congr {L V : Type} [LinearOrder L] (T1 T2 : Trie L V)
    (hcmp : ∀ (q : L) (n : Nat), T2.labelCmpP q n = T1.labelCmpP q n)
    (q : L) (ch : List Nat) :
    T2.binSearchByChildrenLabels q ch = T1.binSearchByChildrenLabels q ch := by
  unfold Trie.binSearchByChildrenLabels
  rw [funext (hcmp q)]

theorem exactMatchGo_congr {L V : Type} [LinearOrder L] (T1 T2 : Trie L V)
    (hL : T2.louds = T1.louds)
    (hcmp : ∀ (q : L) (n : Nat), T2.labelCmpP q n = T1.labelCmpP q n)
    (hterm : ∀ n, T2.isTerminal n = T1.isTerminal n) :
    ∀ (q : List L) (n : Nat), T2.exactMatchGo n q = T1.exactMatchGo n q
  | [], _ => rfl
  | c :: rest, n => by
    show (match T2.binSearchByChildrenLabels c (childrenNodeNums T2 n) with
      | none => PanicOr.panic
      | some (.inr _) => .ok none
      | some (.inl j) =>
        if rest = [] ∧ T2.isTerminal ((childrenNodeNums T2 n).getD j 0)
          then .ok (some ((childrenNodeNums T2 n).getD j 0))
          else T2.exactMatchGo ((childrenNodeNums T2 n).getD j 0) rest) =
      (match T1.binSearchByChildrenLabels c (childrenNodeNums T1 n) with
      | none => PanicOr.panic
      | some (.inr _) => .ok none
      | some (.inl j) =>
        if rest = [] ∧ T1.isTerminal ((childrenNodeNums T1 n).getD j 0)
          then .ok (some ((childrenNodeNums T1 n).getD j 0))
          else T1.exactMatchGo ((childrenNodeNums T1 n).getD j 0) rest)
    rw [cnn_louds_congr T1 T2 hL n, binSearch_labels_congr T1 T2 hcmp c _]
    cases T1.binSearchByChildrenLabels c (childrenNodeNums T1 n) with
    | none => rfl
    | some s =>
      cases s with
      | inr j => rfl
      | inl j =>
        dsimp only
        rw [hterm ((childrenNodeNums T1 n).getD j 0),
          exactMatchGo_congr T1 T2 hL hcmp hterm rest
            ((childrenNodeNums T1 n).getD j 0)]

theorem descGo_congr {L V : Type} [LinearOrder L] (T1 T2 : Trie L V)
    (hL : T2.louds = T1.louds)
    (hcmp : ∀ (q : L) (n : Nat), T2.labelCmpP q n = T1.labelCmpP q n) :
    ∀ (q : List L) (n : Nat), T2.descGo n q = T1.descGo n q
  | [], _ => rfl
  | c :: rest, n => by
    show (match T2.binSearchByChildrenLabels c (childrenNodeNums T2 n) with
      | none => PanicOr.panic
      | some (.inr _) => .ok none
      | some (.inl j) => T2.descGo ((childrenNodeNums T2 n).getD j 0) rest) =
      (match T1.binSearchByChildrenLabels c (childrenNodeNums T1 n) with
      | none => PanicOr.panic
      | some (.inr _) => .ok none
      | some (.inl j) => T1.descGo ((childrenNodeNums T1 n).getD j 0) rest)
    rw [cnn_louds_congr T1 T2 hL n, binSearch_labels_congr T1 T2 hcmp c _]
    cases T1.binSearchByChildrenLabels c (childrenNodeNums T1 n) with
    | none => rfl
    | some s =>
      cases s with
      | inr j => rfl
      | inl j =>
        dsimp only
        rw [descGo_congr T1 T2 hL hcmp rest ((childrenNodeNums T1 n).getD j 0)]

theorem isPrefixFun_congr {L V : Type} [LinearOrder L] (T1 T2 : Trie L V)
    (hL : T2.louds = T1.louds)
    (hcmp : ∀ (q : L) (n : Nat), T2.labelCmpP q n = T1.labelCmpP q n)
    (q : List L) : T2.isPrefixFun q = T1.isPrefixFun q := by
  unfold Trie.isPrefixFun
  rw [descGo_congr T1 T2 hL hcmp q 1]
  cases T1.descGo 1 q with
  | panic => rfl
  | ok o =>
    cases o with
    | none => rfl
    | some n =>
      show PanicOr.ok (T2.hasChildrenNodeNums n) =
        PanicOr.ok (T1.hasChildrenNodeNums n)
      rw [hasChildren_congr T1 T2 hL n]

theorem binSearchPGo_inl {α : Type} (f : α → Option Ordering) (xs : List α) :
    ∀ (fuel left right j : Nat),
      binSearchPGo f xs fuel left right = some (.inl j) →
      ∃ hj : j < xs.length, f (xs.get ⟨j, hj⟩) = some .eq
  | 0, left, right, j, h => by simp [binSearchPGo] at h
  | fuel + 1, left, right, j, h => by
    rw [binSearchPGo] at h
    by_cases hlr : left < right
    · rw [if_pos hlr] at h
      dsimp only at h
      cases hm : xs.get? (left + (right - left) / 2) with
      | none => rw [hm] at h; simp at h
      | some x =>
        rw [hm] at h
        dsimp only at h
        cases hf : f x with
        | none => rw [hf] at h; simp at h
        | some o =>
          rw [hf] at h
          cases o with
          | lt => exact binSearchPGo_inl f xs fuel _ right j h
          | gt => exact binSearchPGo_inl f xs fuel left _ j h
          | eq =>
            have hj : left + (right - left) / 2 = j := by
              have h2 : some (Sum.inl (left + (right - left) / 2) : Nat ⊕ Nat) =
                  some (.inl j) := h
              exact Sum.inl.inj (Option.some.inj h2)
            obtain ⟨hlt2, hget⟩ := List.get?_eq_some.1 hm
            subst hj
            exact ⟨hlt2, by rw [hget]; exact hf⟩
    · rw [if_neg hlr] at h
      simp at h

theorem binarySearchByP_inl {α : Type} (f : α → Option Ordering) (xs : List α)
    (j : Nat) (h : binarySearchByP f xs = some (.inl j)) :
    ∃ hj : j < xs.length, f (xs.get ⟨j, hj⟩) = some .eq :=
  binSearchPGo_inl f xs xs.length 0 xs.length j h

theorem labelCmpP_eq_inv {L V : Type} [LinearOrder L] (T : Trie L V) (c : L)
    (n : Nat) (h : T.labelCmpP c n = some .eq) :
    T.trieLabelAt n = some (.label c) := by
  unfold Trie.labelCmpP at h
  cases hl : T.trieLabelAt n with
  | none => rw [hl] at h; simp at h
  | some cell =>
    rw [hl] at h
    cases cell with
    | value w => simp at h
    | label a =>
      dsimp only at h
      have ha : lcmp a c = .eq := Option.some.inj h
      rw [eq_of_lcmp_eq ha]

theorem label_child_unique {L V : Type} [LinearOrder L]
    {cs : List (NaiveTrie L V)} (hpw : cs.Pairwise childLTc) {i j : Nat}
    (hi : i < cs.length) (hj : j < cs.length) {c : L}
    (hci : (cs.get ⟨i, hi⟩).cellOf = some (.label c))
    (hcj : (cs.get ⟨j, hj⟩).cellOf = some (.label c)) : i = j := by
  have hpg := List.pairwise_iff_get.1 hpw
  rcases lt_trichotomy i j with hij | hij | hij
  · have hrel := hpg ⟨i, hi⟩ ⟨j, hj⟩ hij
    have := childLTc_cells hci hcj hrel
    have hcc : c < c := this
    exact absurd hcc (lt_irrefl c)
  · exact hij
  · have hrel := hpg ⟨j, hj⟩ ⟨i, hi⟩ hij
    have := childLTc_cells hcj hci hrel
    have hcc : c < c := this
    exact absurd hcc (lt_irrefl c)

theorem isTerminal_true_value {L V : Type} (T : Trie L V) (n : Nat)
    (h : T.isTerminal n = true) :
    ∃ x v, (childrenNodeNums T n).head? = some x ∧
      T.trieLabelAt x = some (.value v) := by
  unfold Trie.isTerminal at h
  by_cases h2 : 2 ≤ n
  · rw [if_pos h2] at h
    cases hh : (childrenNodeNums T n).head? with
    | none => rw [hh] at h; simp at h
    | some x =>
      rw [hh] at h
      dsimp only at h
      cases hl : T.trieLabelAt x with
      | none => rw [hl] at h; simp at h
      | some cell =>
        rw [hl] at h
        cases cell with
        | label a => simp at h
        | value v => exact ⟨x, v, rfl, hl⟩
  · rw [if_neg h2] at h
    simp at h

theorem headValue_of_head {L V : Type} (u : NaiveTrie L V) (y : NaiveTrie L V)
    (v : V) (hy : u.childrenL.head? = some y)
    (hcell : y.cellOf = some (.value v)) : u.headValue = some v := by
  unfold NaiveTrie.headValue
  rw [hy]
  dsimp only
  rw [hcell]

/-- Reverse simulation: when the reference lookup of a nonempty key
fails, the search loop cannot land on a node (it either reports `None` or
panics). -/
theorem exactMatchGo_none_corr {L V : Type} [LinearOrder L] (T : Trie L V) :
    ∀ (k : List L) (t : NaiveTrie L V) (n m : Nat),
      NodeCorr T n t → NaiveInv t → t.lookupNaive k = none → k ≠ [] →
      T.exactMatchGo n k = .ok (some m) → False
  | [], _, _, _, _, _, _, hk, _ => absurd rfl hk
  | c :: rest, t, n, m, hCorr, hInv, hlk, _, hgo => by
    have hgo2 : (match T.binSearchByChildrenLabels c (childrenNodeNums T n) with
      | none => PanicOr.panic
      | some (.inr _) => .ok none
      | some (.inl j) =>
        if rest = [] ∧ T.isTerminal ((childrenNodeNums T n).getD j 0)
          then .ok (some ((childrenNodeNums T n).getD j 0))
          else T.exactMatchGo ((childrenNodeNums T n).getD j 0) rest) =
        .ok (some m) := hgo
    cases hbs : T.binSearchByChildrenLabels c (childrenNodeNums T n) with
    | none =>
      rw [hbs] at hgo2
      exact PanicOr.noConfusion hgo2
    | some s =>
      rw [hbs] at hgo2
      cases s with
      | inr j => exact Option.noConfusion (PanicOr.ok.inj hgo2)
      | inl j =>
        dsimp only at hgo2
        unfold Trie.binSearchByChildrenLabels at hbs
        obtain ⟨hjlen, hfeq⟩ := binarySearchByP_inl _ _ j hbs
        have hlab := labelCmpP_eq_inv T c _ hfeq
        have hj2 : j < t.childrenL.length := by
          rw [← hCorr.len_eq]
          exact hjlen
        have hcellj : (t.childrenL.get ⟨j, hj2⟩).cellOf = some (.label c) := by
          rw [show (childrenNodeNums T n).get ⟨j, hjlen⟩ =
              (childrenNodeNums T n).getD j 0 from
            (List.getD_eq_get _ _ hjlen).symm] at hlab
          rw [hCorr.labelAt j hj2, List.getD_eq_get _ _ hj2] at hlab
          exact hlab
        have hlk2 : (match t.findChild c with
          | some u => u.lookupNaive rest
          | none => none) = none := hlk
        cases hfc : t.findChild c with
        | none =>
          unfold NaiveTrie.findChild at hfc
          have := List.find?_eq_none.1 hfc _ (List.get_mem _ j hj2)
          rw [hasLabelB_iff] at this
          exact this hcellj
        | some u =>
          rw [hfc] at hlk2
          unfold NaiveTrie.findChild at hfc
          have hmem := List.mem_of_find?_eq_some hfc
          have hcellu : u.cellOf = some (.label c) :=
            (hasLabelB_iff c u).1 (List.find?_some hfc)
          obtain ⟨jf, hjf⟩ := List.mem_iff_get.1 hmem
          have hfin : (⟨(jf : Nat), jf.isLt⟩ : Fin t.childrenL.length) = jf :=
            Fin.ext rfl
          have hcellf : (t.childrenL.get ⟨(jf : Nat), jf.isLt⟩).cellOf =
              some (.label c) := by
            rw [hfin, hjf]
            exact hcellu
          have hjj : (jf : Nat) = j :=
            label_child_unique hInv.pairwise_of jf.isLt hj2 hcellf hcellj
          have huj : u = t.childrenL.get ⟨j, hj2⟩ := by
            rw [← hjf, ← hfin]
            congr 1
            exact Fin.ext hjj
          have hCorrU : NodeCorr T ((childrenNodeNums T n).getD j 0)
              (t.childrenL.get ⟨j, hj2⟩) := by
            have h4 := hCorr.child j hj2
            rw [List.getD_eq_get _ _ hj2] at h4
            exact h4
          have hInvU : NaiveInv (t.childrenL.get ⟨j, hj2⟩) :=
            hInv.child_of _ (List.get_mem _ _ _)
          have hlkj : (t.childrenL.get ⟨j, hj2⟩).lookupNaive rest = none := by
            rw [← huj]
            exact hlk2
          by_cases hrest : rest = []
          · subst hrest
            by_cases hterm : T.isTerminal ((childrenNodeNums T n).getD j 0) = true
            · obtain ⟨x, v2, hx, hxv⟩ := isTerminal_true_value T _ hterm
              have hculen : 0 < (childrenNodeNums T
                  ((childrenNodeNums T n).getD j 0)).length := by
                cases hcn : (childrenNodeNums T
                    ((childrenNodeNums T n).getD j 0)) with
                | nil => rw [hcn] at hx; exact absurd hx (by simp)
                | cons a l => simp
              have hulen : 0 < (t.childrenL.get ⟨j, hj2⟩).childrenL.length := by
                rw [← hCorrU.len_eq]
                exact hculen
              have hxg : x = (childrenNodeNums T
                  ((childrenNodeNums T n).getD j 0)).getD 0 0 := by
                rw [head?_eq_get_zero _ hculen] at hx
                rw [List.getD_eq_get _ _ hculen]
                exact (Option.some.inj hx).symm
              have hcell0 : ((t.childrenL.get ⟨j, hj2⟩).childrenL.getD 0
                  .phantomSibling).cellOf = some (.value v2) := by
                rw [← hCorrU.labelAt 0 hulen, ← hxg]
                exact hxv
              have hhv : (t.childrenL.get ⟨j, hj2⟩).headValue = some v2 := by
                rw [List.getD_eq_get _ _ hulen] at hcell0
                exact headValue_of_head _ _ v2 (head?_eq_get_zero _ hulen) hcell0
              exact absurd (hlkj.symm.trans hhv) (by simp)
            · rw [if_neg (fun hand => hterm hand.2)] at hgo2
              have hnone : (t.childrenL.get ⟨j, hj2⟩).lookupNaive [] = none := hlkj
              have hgonil : T.exactMatchGo ((childrenNodeNums T n).getD j 0) [] =
                  .ok none := rfl
              rw [hgonil] at hgo2
              exact Option.noConfusion (PanicOr.ok.inj hgo2)
          · rw [if_neg (fun hand => hrest hand.1)] at hgo2
            exact exactMatchGo_none_corr T rest _ _ m hCorrU hInvU hlkj hrest hgo2

theorem get?_set_self {α : Type} :
    ∀ (l : List α) (i : Nat) (a : α), i < l.length →
      (l.set i a).get? i = some a
  | [], i, a, h => by simp at h
  | x :: tl, 0, a, _ => rfl
  | x :: tl, i + 1, a, h => by
    show (x :: tl.set i a).get? (i + 1) = some a
    rw [List.get?_cons_succ]
    exact get?_set_self tl i a (by simp at h; omega)

theorem get?_set_ne {α : Type} :
    ∀ (l : List α) (i j : Nat) (a : α), i ≠ j →
      (l.set i a).get? j = l.get? j
  | [], i, j, a, _ => by simp
  | x :: tl, 0, 0, a, h => absurd rfl h
  | x :: tl, 0, j + 1, a, _ => rfl
  | x :: tl, i + 1, 0, a, _ => rfl
  | x :: tl, i + 1, j + 1, a, h => by
    show (x :: tl.set i a).get? (j + 1) = (x :: tl).get? (j + 1)
    rw [List.get?_cons_succ, List.get?_cons_succ]
    exact get?_set_ne tl i j a (fun hc => h (by omega))

theorem set_of_get? {α : Type} :
    ∀ (l : List α) (i : Nat) (a : α), l.get? i = some a → l.set i a = l
  | [], i, a, h => by simp at h
  | x :: tl, 0, a, h => by
    have hx : x = a := Option.some.inj h
    rw [← hx]
    rfl
  | x :: tl, i + 1, a, h => by
    show x :: tl.set i a = x :: tl
    rw [set_of_get? tl i a h]

theorem trie_fields_eq {L V : Type} (a b : Trie L V)
    (h1 : a.louds = b.louds) (h2 : a.trieLabels = b.trieLabels) : a = b := by
  cases a with
  | mk lo la =>
    cases b with
    | mk lo2 la2 =>
      simp only [Trie.mk.injEq]
      exact ⟨h1, h2⟩

theorem valueAt_some_inv {L V : Type} (T : Trie L V) (n : Nat) (v : V)
    (h : T.valueAt n = some v) :
    2 ≤ n ∧ ∃ x, (childrenNodeNums T n).head? = some x ∧
      T.trieLabelAt x = some (.value v) := by
  unfold Trie.valueAt at h
  by_cases h2 : 2 ≤ n
  · rw [if_pos h2] at h
    refine ⟨h2, ?_⟩
    cases hh : (childrenNodeNums T n).head? with
    | none => rw [hh] at h; simp at h
    | some x =>
      rw [hh] at h
      dsimp only at h
      cases hl : T.trieLabelAt x with
      | none => rw [hl] at h; simp at h
      | some cell =>
        rw [hl] at h
        cases cell with
        | label a => simp at h
        | value v2 =>
          have hv : v2 = v := Option.some.inj h
          exact ⟨x, rfl, by rw [hl, hv]⟩
  · rw [if_neg h2] at h
    simp at h

/-- C9: the write through exact_match_mut is a pure payload update: the
LOUDS bitstring is unchanged, every Label cell of the label table is
unchanged, the written key reads back the new value, and every other key
behaves identically under exact_match and is_prefix. -/
theorem c9_exact_match_mut_frame {L V : Type} [LinearOrder L]
    (pairs : List (List L × V)) (k : List L) (w v : V)
    (hk : k ≠ []) (hw : lastAssoc pairs k = some w) :
    ∀ (T T2 : Trie L V),
      T = Trie.build (NaiveTrie.pushAll NaiveTrie.makeRoot pairs) →
      T2 = T.setValueAt k v →
      T2.louds = T.louds ∧
      (∀ (p : Nat) (a : L), T.trieLabels.get? p = some (.label a) →
        T2.trieLabels.get? p = some (.label a)) ∧
      T2.exactMatch k = .ok (some v) ∧
      (∀ k2, k2 ≠ k → T2.exactMatch k2 = T.exactMatch k2) ∧
      (∀ k2, T2.isPrefixFun k2 = T.isPrefixFun k2) := by
  intro T T2 hT hT2
  have hInv := NaiveInv.pushAll pairs _ NaiveInv.makeRoot
  obtain ⟨cs2, hroot⟩ := pushAll_root_exists pairs NaiveTrieL.nil
  have hCorr : NodeCorr T 1 (NaiveTrie.pushAll NaiveTrie.makeRoot pairs) := by
    rw [hT]
    exact nodeCorr_build _ hInv cs2 hroot
  have hlk : (NaiveTrie.pushAll NaiveTrie.makeRoot pairs).lookupNaive k =
      some w := by
    rw [lookup_pushAll_lastAssoc, hw]
  obtain ⟨m, hgo, hval⟩ := exactMatchGo_corr T k
    (NaiveTrie.pushAll NaiveTrie.makeRoot pairs) 1 w hCorr hInv hlk hk
  obtain ⟨hm2, c0, hchead, hlabc⟩ := valueAt_some_inv T m w hval
  have hc0get : T.trieLabels.get? (c0 - 2) = some (.value w) := hlabc
  -- the pushed tree
  have hInvB := NaiveInv.push k (NaiveTrie.pushAll NaiveTrie.makeRoot pairs) v hInv
  have hPD := push_stored_PD k (NaiveTrie.pushAll NaiveTrie.makeRoot pairs) w v
    hInv hlk
  obtain ⟨hLeq0, S2, hlabset0, hlabold0⟩ := build_payloadDiff _ _ hPD
  have hLeq : (Trie.build ((NaiveTrie.pushAll NaiveTrie.makeRoot pairs).push k v)).louds
      = T.louds := by rw [hT]; exact hLeq0
  have hlabset : (Trie.build ((NaiveTrie.pushAll NaiveTrie.makeRoot pairs).push k v)).trieLabels
      = T.trieLabels.set S2 (.value v) := by rw [hT]; exact hlabset0
  have hlabold : T.trieLabels.get? S2 = some (.value w) := by
    rw [hT]; exact hlabold0
  have hS2len : S2 < T.trieLabels.length := (List.get?_eq_some.1 hlabold).1
  set TB := Trie.build ((NaiveTrie.pushAll NaiveTrie.makeRoot pairs).push k v) with hTB
  -- pointwise comparator equality
  have hcmp : ∀ (q : L) (n : Nat), TB.labelCmpP q n = T.labelCmpP q n := by
    intro q n
    unfold Trie.labelCmpP Trie.trieLabelAt
    rw [hlabset]
    by_cases hn : S2 = n - 2
    · rw [← hn, get?_set_self _ _ _ hS2len, hlabold]
    · rw [get?_set_ne _ _ _ _ hn]
  have hterm : ∀ n, TB.isTerminal n = T.isTerminal n := by
    intro n
    unfold Trie.isTerminal
    rw [cnn_louds_congr T TB hLeq n]
    by_cases h2 : 2 ≤ n
    · rw [if_pos h2, if_pos h2]
      cases hh : (childrenNodeNums T n).head? with
      | none => rfl
      | some x =>
        dsimp only
        show (match TB.trieLabelAt x with
          | some (.value _) => true
          | _ => false) = (match T.trieLabelAt x with
          | some (.value _) => true
          | _ => false)
        unfold Trie.trieLabelAt
        rw [hlabset]
        by_cases hn : S2 = x - 2
        · rw [← hn, get?_set_self _ _ _ hS2len, hlabold]
        · rw [get?_set_ne _ _ _ _ hn]
    · rw [if_neg h2, if_neg h2]
  have hnode : ∀ q, TB.exactMatchGo 1 q = T.exactMatchGo 1 q :=
    fun q => exactMatchGo_congr T TB hLeq hcmp hterm q 1
  -- the write fires and produces the set-table trie
  have hEMN : T.exactMatchNode k = .ok (some m) := hgo
  have hSV : T.setValueAt k v =
      { louds := T.louds, trieLabels := T.trieLabels.set (c0 - 2) (.value v) } := by
    unfold Trie.setValueAt
    rw [hEMN]
    dsimp only
    rw [hchead]
    dsimp only
    rw [hlabc]
  -- the built pushed tree coincides with the written trie
  have hlk2 : ((NaiveTrie.pushAll NaiveTrie.makeRoot pairs).push k v).lookupNaive k =
      some v := lookup_push_self k _ v hInv
  obtain ⟨cs3, hroot3⟩ : ∃ cs3,
      (NaiveTrie.pushAll NaiveTrie.makeRoot pairs).push k v = NaiveTrie.root cs3 := by
    have hroot2 : NaiveTrie.pushAll NaiveTrie.makeRoot pairs =
        NaiveTrie.root cs2 := hroot
    rw [hroot2]
    exact push_root_exists k cs2 v
  have hCorrB : NodeCorr TB 1 ((NaiveTrie.pushAll NaiveTrie.makeRoot pairs).push k v) :=
    nodeCorr_build _ hInvB cs3 hroot3
  obtain ⟨mB, hgoB, hvalB⟩ := exactMatchGo_corr TB k
    ((NaiveTrie.pushAll NaiveTrie.makeRoot pairs).push k v) 1 v hCorrB hInvB hlk2 hk
  have hmB : mB = m := by
    have h1 : PanicOr.ok (some mB) = PanicOr.ok (some m) := by
      rw [← hgoB, ← hEMN]
      exact hnode k
    exact Option.some.inj (PanicOr.ok.inj h1)
  obtain ⟨hmB2, cB, hcBhead, hcBlab⟩ := valueAt_some_inv TB mB v hvalB
  have hcB : cB = c0 := by
    rw [hmB] at hcBhead
    rw [cnn_louds_congr T TB hLeq m, hchead] at hcBhead
    exact (Option.some.inj hcBhead).symm
  have hTBc0 : TB.trieLabels.get? (c0 - 2) = some (.value v) := by
    rw [← hcB]
    exact hcBlab
  have hTBlab : T.trieLabels.set (c0 - 2) (.value v) = TB.trieLabels := by
    by_cases hS : S2 = c0 - 2
    · rw [hlabset, hS]
    · rw [hlabset] at hTBc0
      rw [get?_set_ne _ _ _ _ hS] at hTBc0
      have hwv : w = v := by
        have h1 : some (TrieLabel.value w : TrieLabel L V) = some (.value v) :=
          hc0get.symm.trans hTBc0
        have h2 := Option.some.inj h1
        exact (TrieLabel.value.inj h2)
      rw [hlabset, ← hwv, set_of_get? _ _ _ hlabold, set_of_get? _ _ _ (by
        rw [← hwv] at hTBc0
        exact hTBc0)]
  have hT2B : T2 = TB := by
    rw [hT2, hSV]
    refine trie_fields_eq _ _ ?_ ?_
    · rw [hLeq]
    · exact hTBlab
  -- conclusions
  refine ⟨?_, ?_, ?_, ?_, ?_⟩
  · rw [hT2, hSV]
  · intro p a hp
    rw [hT2, hSV]
    show (T.trieLabels.set (c0 - 2) (.value v)).get? p = some (.label a)
    by_cases hpc : c0 - 2 = p
    · exfalso
      rw [← hpc] at hp
      have h1 := hc0get.symm.trans hp
      have h2 := Option.some.inj h1
      exact TrieLabel.noConfusion h2
    · rw [get?_set_ne _ _ _ _ hpc]
      exact hp
  · rw [hT2B]
    show (TB.exactMatchGo 1 k).map (fun o => o.bind TB.valueAt) = .ok (some v)
    rw [hgoB]
    show PanicOr.ok ((some mB).bind TB.valueAt) = .ok (some v)
    show PanicOr.ok (TB.valueAt mB) = .ok (some v)
    rw [hvalB]
  · intro k2 hk2
    rw [hT2B]
    cases hk2nil : k2 with
    | nil => rfl
    | cons a l =>
      have hk2ne : k2 ≠ [] := by rw [hk2nil]; simp
      rw [← hk2nil]
      cases hl2 : lastAssoc pairs k2 with
      | some w2 =>
        have hlkT : (NaiveTrie.pushAll NaiveTrie.makeRoot pairs).lookupNaive k2 =
            some w2 := by
          rw [lookup_pushAll_lastAssoc, hl2]
        have hlkB : ((NaiveTrie.pushAll NaiveTrie.makeRoot pairs).push k v).lookupNaive k2 =
            some w2 := by
          rw [lookup_push_other k _ v k2 hInv hk2]
          exact hlkT
        obtain ⟨m3, hgo3, hval3⟩ := exactMatchGo_corr T k2
          (NaiveTrie.pushAll NaiveTrie.makeRoot pairs) 1 w2 hCorr hInv hlkT hk2ne
        obtain ⟨m4, hgo4, hval4⟩ := exactMatchGo_corr TB k2
          ((NaiveTrie.pushAll NaiveTrie.makeRoot pairs).push k v) 1 w2
          hCorrB hInvB hlkB hk2ne
        have hA : TB.exactMatch k2 = .ok (some w2) := by
          show (TB.exactMatchGo 1 k2).map (fun o => o.bind TB.valueAt) = _
          rw [hgo4]
          show PanicOr.ok (TB.valueAt m4) = _
          rw [hval4]
        have hB : T.exactMatch k2 = .ok (some w2) := by
          show (T.exactMatchGo 1 k2).map (fun o => o.bind T.valueAt) = _
          rw [hgo3]
          show PanicOr.ok (T.valueAt m3) = _
          rw [hval3]
        rw [hA, hB]
      | none =>
        have hlkT : (NaiveTrie.pushAll NaiveTrie.makeRoot pairs).lookupNaive k2 =
            none := by
          rw [lookup_pushAll_lastAssoc, hl2]
        show (TB.exactMatchGo 1 k2).map (fun o => o.bind TB.valueAt) =
          (T.exactMatchGo 1 k2).map (fun o => o.bind T.valueAt)
        rw [hnode k2]
        cases hres : T.exactMatchGo 1 k2 with
        | panic => rfl
        | ok o =>
          cases o with
          | none => rfl
          | some m3 =>
            exact absurd hres (fun hres2 => exactMatchGo_none_corr T k2
              (NaiveTrie.pushAll NaiveTrie.makeRoot pairs) 1 m3 hCorr hInv
              hlkT hk2ne hres2)
  · intro k2
    rw [hT2B]
    exact isPrefixFun_congr T TB hLeq hcmp k2

theorem c9_exact_match_mut_frame_witness :
    (([97] : List Nat) ≠ [] ∧
      lastAssoc [([97], 0), ([98], 1)] [97] = some 0) ∧
    (let T := Trie.build (NaiveTrie.pushAll NaiveTrie.makeRoot
      [(([97] : List Nat), (0 : Nat)), ([98], 1)])
    (T.setValueAt [97] 5).louds = T.louds ∧
      (∀ (p : Nat) (a : Nat), T.trieLabels.get? p = some (.label a) →
        (T.setValueAt [97] 5).trieLabels.get? p = some (.label a)) ∧
      (T.setValueAt [97] 5).exactMatch [97] = .ok (some 5) ∧
      (∀ k2, k2 ≠ [97] →
        (T.setValueAt [97] 5).exactMatch k2 = T.exactMatch k2) ∧
      (∀ k2, (T.setValueAt [97] 5).isPrefixFun k2 = T.isPrefixFun k2)) :=
  ⟨⟨by decide, by decide⟩,
    c9_exact_match_mut_frame [([97], 0), ([98], 1)] [97] 0 5
      (by decide) (by decide) _ _ rfl rfl⟩

/-! ### Claim C7: order independence of the builder -/

theorem toList_inj {L V : Type} :
    ∀ (a b : NaiveTrieL L V), a.toList = b.toList → a = b
  | .nil, .nil, _ => rfl
  | .nil, .cons t ts, h => by simp [NaiveTrieL.toList] at h
  | .cons t ts, .nil, h => by simp [NaiveTrieL.toList] at h
  | .cons t ts, .cons u us, h => by
    have h2 : t :: ts.toList = u :: us.toList := h
    have ht : t = u := (List.cons.injEq _ _ _ _ ▸ h2).1
    have hts : ts.toList = us.toList := (List.cons.injEq _ _ _ _ ▸ h2).2
    rw [ht, toList_inj ts us hts]

theorem eq_of_item_children {L V : Type} :
    ∀ (t1 t2 : NaiveTrie L V), t1.item = t2.item →
      t1.childrenL = t2.childrenL → t1 = t2
  | .root cs1, .root cs2, _, hch => by
    rw [toList_inj cs1 cs2 hch]
  | .root _, .intermOrLeaf _ _, hit, _ => by simp [NaiveTrie.item] at hit
  | .root _, .phantomSibling, hit, _ => by simp [NaiveTrie.item] at hit
  | .intermOrLeaf _ _, .root _, hit, _ => by simp [NaiveTrie.item] at hit
  | .intermOrLeaf c1 cs1, .intermOrLeaf c2 cs2, hit, hch => by
    have hc : c1 = c2 := by
      have h2 : BFItem.node c1 = BFItem.node c2 := hit
      exact BFItem.node.inj h2
    rw [hc, toList_inj cs1 cs2 hch]
  | .intermOrLeaf _ _, .phantomSibling, hit, _ => by simp [NaiveTrie.item] at hit
  | .phantomSibling, .root _, hit, _ => by simp [NaiveTrie.item] at hit
  | .phantomSibling, .intermOrLeaf _ _, hit, _ => by simp [NaiveTrie.item] at hit
  | .phantomSibling, .phantomSibling, _, _ => rfl

theorem rootOf_childrenL {L V : Type} (cs : List (NaiveTrie L V)) :
    (NaiveTrie.root (NaiveTrieL.ofList cs)).childrenL = cs :=
  NaiveTrieL.toList_ofList cs

theorem lookupCs_childrenL {L V : Type} [LinearOrder L] (t : NaiveTrie L V)
    (k : List L) : lookupCs t.childrenL k = t.lookupNaive k :=
  lookupNaive_eq_of_childrenL_eq (rootOf_childrenL t.childrenL) k

theorem lookupCs_nil_key {L V : Type} [LinearOrder L]
    (cs : List (NaiveTrie L V)) :
    lookupCs cs [] = (match cs.head? with
      | some u =>
        match u.cellOf with
        | some (.value v) => some v
        | _ => none
      | none => none) := by
  show (NaiveTrie.root (NaiveTrieL.ofList cs)).headValue = _
  unfold NaiveTrie.headValue
  rw [rootOf_childrenL]

theorem lookupCs_cons_key {L V : Type} [LinearOrder L]
    (cs : List (NaiveTrie L V)) (c : L) (r : List L) :
    lookupCs cs (c :: r) = (match cs.find? (NaiveTrie.hasLabelB c) with
      | some u => u.lookupNaive r
      | none => none) := by
  show (match (NaiveTrie.root (NaiveTrieL.ofList cs)).findChild c with
    | some u => u.lookupNaive r
    | none => none) = _
  unfold NaiveTrie.findChild
  rw [rootOf_childrenL]

theorem tidy_P {L V : Type} [LinearOrder L] {t : NaiveTrie L V}
    (h : t.tidy) : ∀ c ∈ t.childrenL,
      ((∃ a, c.cellOf = some (.label a)) → c.productive) ∧
      ((∃ v2, c.cellOf = some (.value v2)) → c.childrenL = []) := by
  cases h with
  | mk t hP hrec => exact hP

theorem tidy_children {L V : Type} [LinearOrder L] {t : NaiveTrie L V}
    (h : t.tidy) : ∀ c ∈ t.childrenL, c.tidy := by
  cases h with
  | mk t hP hrec => exact hrec

theorem tidy_of_childrenL_nil {L V : Type} [LinearOrder L] (t : NaiveTrie L V)
    (h : t.childrenL = []) : t.tidy := by
  refine AllNodes.mk _ ?_ ?_ <;> rw [h] <;> intro c hc <;> simp at hc

theorem tidy_makeRoot {L V : Type} [LinearOrder L] :
    (NaiveTrie.makeRoot (L := L) (V := V)).tidy :=
  tidy_of_childrenL_nil _ rfl

theorem tidy_makeInterm {L V : Type} [LinearOrder L] (c : L) :
    (NaiveTrie.makeInterm (V := V) c).tidy :=
  tidy_of_childrenL_nil _ rfl

theorem tidy_makeLeaf {L V : Type} [LinearOrder L] (v : V) :
    (NaiveTrie.makeLeaf (L := L) v).tidy :=
  tidy_of_childrenL_nil _ rfl

theorem tidy_push {L V : Type} [LinearOrder L] :
    ∀ (k : List L) (t : NaiveTrie L V) (v : V), NaiveInv t → t.tidy →
      (t.push k v).tidy
  | [], t, v, hInv, hT => by
    have hch := push_nil_childrenL t v hInv.ne_phantom
    rcases insertOrSetValue_cases t.childrenL v with
      ⟨w0, cs0, tail, hcs, hnew⟩ | ⟨hsh, hnew⟩
    · have hmem : NaiveTrie.intermOrLeaf (TrieLabel.value w0) cs0 ∈
          t.childrenL := by
        rw [hcs]
        simp
      refine AllNodes.mk _ ?_ ?_
      · rw [hch, hnew]
        intro x hx
        rcases List.mem_cons.1 hx with hx1 | hx2
        · subst hx1
          constructor
          · rintro ⟨a, ha⟩
            exact absurd ha (by simp [NaiveTrie.cellOf])
          · intro _
            exact (tidy_P hT _ hmem).2 ⟨w0, rfl⟩
        · refine tidy_P hT x ?_
          rw [hcs]
          simp [hx2]
      · rw [hch, hnew]
        intro x hx
        rcases List.mem_cons.1 hx with hx1 | hx2
        · subst hx1
          exact tidy_of_childrenL_nil _ ((tidy_P hT _ hmem).2 ⟨w0, rfl⟩)
        · refine tidy_children hT x ?_
          rw [hcs]
          simp [hx2]
    · refine AllNodes.mk _ ?_ ?_
      · rw [hch, hnew]
        intro x hx
        rcases List.mem_cons.1 hx with hx1 | hx2
        · subst hx1
          constructor
          · rintro ⟨a, ha⟩
            exact absurd ha (by simp [NaiveTrie.makeLeaf, NaiveTrie.cellOf])
          · intro _
            rfl
        · exact tidy_P hT x hx2
      · rw [hch, hnew]
        intro x hx
        rcases List.mem_cons.1 hx with hx1 | hx2
        · subst hx1
          exact tidy_makeLeaf v
        · exact tidy_children hT x hx2
  | c :: rest, t, v, hInv, hT => by
    have hne := hInv.ne_phantom
    have hpw := hInv.pairwise_of
    by_cases hex : ∃ j, ∃ hj : j < t.childrenL.length,
        (t.childrenL.get ⟨j, hj⟩).cellOf = some (.label c)
    · obtain ⟨j, hj, hcell⟩ := hex
      have hbs := binSearch_children_found hpw hj hcell
      have hch := push_cons_found t c rest v hne hbs
      rw [List.getD_eq_get _ _ hj] at hch
      have hInvC : NaiveInv (t.childrenL.get ⟨j, hj⟩) :=
        hInv.child_of _ (List.get_mem _ _ _)
      refine AllNodes.mk _ ?_ ?_
      · rw [hch]
        intro x hx
        rcases List.mem_or_eq_of_mem_set hx with hx2 | hx1
        · exact tidy_P hT x hx2
        · subst hx1
          constructor
          · intro _
            exact ⟨rest, v, lookup_push_self rest _ v hInvC⟩
          · rintro ⟨v2, hv2⟩
            rw [cellOf_push, hcell] at hv2
            simp at hv2
      · rw [hch]
        intro x hx
        rcases List.mem_or_eq_of_mem_set hx with hx2 | hx1
        · exact tidy_children hT x hx2
        · subst hx1
          exact tidy_push rest _ v hInvC
            (tidy_children hT _ (List.get_mem _ _ _))
    · push_neg at hex
      have habs : ∀ u ∈ t.childrenL, ¬ u.cellOf = some (.label c) := by
        intro u hu hcontra
        obtain ⟨n, hgn⟩ := List.mem_iff_get.1 hu
        apply hex n n.isLt
        rw [show (⟨(n : Nat), n.isLt⟩ : Fin t.childrenL.length) = n from
          Fin.ext rfl, hgn]
        exact hcontra
      obtain ⟨p, hple, hbs, hiff, hgt⟩ := binSearch_children_absent hpw habs
      have hch := push_cons_absent t c rest v hne hbs
      refine AllNodes.mk _ ?_ ?_
      · rw [hch]
        intro x hx
        rcases (List.mem_insertIdx hple).1 hx with hx1 | hx2
        · subst hx1
          constructor
          · intro _
            exact ⟨rest, v, lookup_push_self rest _ v (NaiveInv.makeInterm c)⟩
          · rintro ⟨v2, hv2⟩
            rw [cellOf_push] at hv2
            simp [NaiveTrie.makeInterm, NaiveTrie.cellOf] at hv2
        · exact tidy_P hT x hx2
      · rw [hch]
        intro x hx
        rcases (List.mem_insertIdx hple).1 hx with hx1 | hx2
        · subst hx1
          exact tidy_push rest _ v (NaiveInv.makeInterm c) (tidy_makeInterm c)
        · exact tidy_children hT x hx2

theorem tidy_pushAll {L V : Type} [LinearOrder L] :
    ∀ (pairs : List (List L × V)) (t : NaiveTrie L V), NaiveInv t → t.tidy →
      (t.pushAll pairs).tidy
  | [], _, _, hT => hT
  | p :: rest, t, hInv, hT =>
    tidy_pushAll rest _ (NaiveInv.push p.1 t p.2 hInv)
      (tidy_push p.1 t p.2 hInv hT)

theorem item_pushAll {L V : Type} [LinearOrder L] :
    ∀ (pairs : List (List L × V)) (t : NaiveTrie L V),
      (t.pushAll pairs).item = t.item
  | [], _ => rfl
  | p :: rest, t => by
    show ((t.push p.1 p.2).pushAll rest).item = t.item
    rw [item_pushAll rest _, item_push]

theorem lastAssoc_foldl_none {L V : Type} [DecidableEq L] :
    ∀ (l : List (List L × V)) (init : Option V) (k : List L),
      (∀ p ∈ l, p.1 ≠ k) →
      l.foldl (fun acc p => if p.1 = k then some p.2 else acc) init = init
  | [], _, _, _ => rfl
  | p :: rest, init, k, h => by
    show rest.foldl (fun acc q => if q.1 = k then some q.2 else acc)
      (if p.1 = k then some p.2 else init) = init
    rw [if_neg (h p (by simp))]
    exact lastAssoc_foldl_none rest init k (fun q hq => h q (by simp [hq]))

theorem lastAssoc_foldl_mem {L V : Type} [DecidableEq L] :
    ∀ (l : List (List L × V)) (init : Option V) (k : List L) (v : V),
      (l.map Prod.fst).Nodup → (k, v) ∈ l →
      l.foldl (fun acc p => if p.1 = k then some p.2 else acc) init = some v
  | [], _, _, _, _, hmem => by simp at hmem
  | p :: rest, init, k, v, hnd, hmem => by
    rw [List.map_cons, List.nodup_cons] at hnd
    show rest.foldl (fun acc q => if q.1 = k then some q.2 else acc)
      (if p.1 = k then some p.2 else init) = some v
    rcases List.mem_cons.1 hmem with hp | hmem2
    · subst hp
      rw [if_pos rfl]
      refine lastAssoc_foldl_none rest _ k ?_
      intro q hq hqk
      apply hnd.1
      show k ∈ List.map Prod.fst rest
      rw [← hqk]
      exact List.mem_map_of_mem Prod.fst hq
    · by_cases hpk : p.1 = k
      · exfalso
        apply hnd.1
        rw [hpk]
        have : (k, v).1 ∈ rest.map Prod.fst := List.mem_map_of_mem Prod.fst hmem2
        exact this
      · rw [if_neg hpk]
        exact lastAssoc_foldl_mem rest init k v hnd.2 hmem2

theorem lastAssoc_perm {L V : Type} [DecidableEq L]
    (l1 l2 : List (List L × V)) (hperm : l1.Perm l2)
    (hnd : (l1.map Prod.fst).Nodup) (k : List L) :
    lastAssoc l1 k = lastAssoc l2 k := by
  have hnd2 : (l2.map Prod.fst).Nodup := ((hperm.map Prod.fst).nodup_iff).1 hnd
  by_cases hex : ∃ v, (k, v) ∈ l1
  · obtain ⟨v, hv⟩ := hex
    unfold lastAssoc
    rw [lastAssoc_foldl_mem l1 none k v hnd hv,
      lastAssoc_foldl_mem l2 none k v hnd2 (hperm.mem_iff.1 hv)]
  · push_neg at hex
    have h1 : ∀ p ∈ l1, p.1 ≠ k := by
      intro p hp hpk
      apply hex p.2
      rw [← hpk]
      exact hp
    have h2 : ∀ p ∈ l2, p.1 ≠ k := by
      intro p hp hpk
      exact h1 p (hperm.mem_iff.2 hp) hpk
    unfold lastAssoc
    rw [lastAssoc_foldl_none l1 none k h1, lastAssoc_foldl_none l2 none k h2]

theorem hasLabelB_value_false {L V : Type} [LinearOrder L] (u : NaiveTrie L V)
    (v : V) (c : L) (h : u.cellOf = some (.value v)) :
    NaiveTrie.hasLabelB c u = false := by
  unfold NaiveTrie.hasLabelB
  rw [h]

theorem hasLabelB_none_false {L V : Type} [LinearOrder L] (u : NaiveTrie L V)
    (c : L) (h : u.cellOf = none) : NaiveTrie.hasLabelB c u = false := by
  unfold NaiveTrie.hasLabelB
  rw [h]

theorem hasLabelB_label_ne {L V : Type} [LinearOrder L] (u : NaiveTrie L V)
    (b c : L) (h : u.cellOf = some (.label b)) (hne : b ≠ c) :
    NaiveTrie.hasLabelB c u = false := by
  unfold NaiveTrie.hasLabelB
  rw [h]
  simp [hne]

theorem lookupCs_head_label {L V : Type} [LinearOrder L]
    (u : NaiveTrie L V) (us : List (NaiveTrie L V)) (a : L) (s : List L)
    (hcell : u.cellOf = some (.label a)) :
    lookupCs (u :: us) (a :: s) = u.lookupNaive s := by
  rw [lookupCs_cons_key,
    List.find?_cons_of_pos _ (by rw [hasLabelB_iff]; exact hcell)]

theorem lookupCs_head_value {L V : Type} [LinearOrder L]
    (u : NaiveTrie L V) (us : List (NaiveTrie L V)) (v : V)
    (hcell : u.cellOf = some (.value v)) :
    lookupCs (u :: us) [] = some v := by
  rw [lookupCs_nil_key, List.head?_cons]
  dsimp only
  rw [hcell]

theorem lookupCs_head_label_nil_key {L V : Type} [LinearOrder L]
    (u : NaiveTrie L V) (us : List (NaiveTrie L V)) (a : L)
    (hcell : u.cellOf = some (.label a)) :
    lookupCs (u :: us) [] = none := by
  rw [lookupCs_nil_key, List.head?_cons]
  dsimp only
  rw [hcell]

theorem lookupCs_no_label {L V : Type} [LinearOrder L]
    (cs : List (NaiveTrie L V)) (c : L) (r : List L)
    (h : ∀ y ∈ cs, NaiveTrie.hasLabelB c y = false) :
    lookupCs cs (c :: r) = none := by
  rw [lookupCs_cons_key, List.find?_eq_none.2 (by
    intro y hy
    rw [h y hy]
    simp)]

theorem lookupCs_skip_head {L V : Type} [LinearOrder L]
    (u : NaiveTrie L V) (us : List (NaiveTrie L V)) (c : L) (r : List L)
    (h : NaiveTrie.hasLabelB c u = false) :
    lookupCs (u :: us) (c :: r) = lookupCs us (c :: r) := by
  rw [lookupCs_cons_key, lookupCs_cons_key,
    List.find?_cons_of_neg _ (by rw [h]; simp)]

theorem lookupCs_empty {L V : Type} [LinearOrder L] (k : List L) :
    lookupCs ([] : List (NaiveTrie L V)) k = none := by
  cases k with
  | nil => rfl
  | cons c r =>
    rw [lookupCs_cons_key]
    rfl

theorem tail_no_value {L V : Type} [LinearOrder L]
    (u : NaiveTrie L V) (us : List (NaiveTrie L V))
    (hpw : (u :: us).Pairwise childLTc) (x : TrieLabel L V)
    (hcell : u.cellOf = some x) :
    ∀ y ∈ us, ∀ (v : V), y.cellOf ≠ some (.value v) := by
  intro y hy v hvy
  have hrel := (List.pairwise_cons.1 hpw).1 y hy
  exact cellLT_to_value_false x v (childLTc_cells hcell hvy hrel)

theorem tail_no_small_label {L V : Type} [LinearOrder L]
    (u : NaiveTrie L V) (us : List (NaiveTrie L V))
    (hpw : (u :: us).Pairwise childLTc) (b : L)
    (hcell : u.cellOf = some (.label b)) :
    ∀ y ∈ us, ∀ c, c ≤ b → NaiveTrie.hasLabelB c y = false := by
  intro y hy c hcb
  have hrel := (List.pairwise_cons.1 hpw).1 y hy
  cases hcy : y.cellOf with
  | none => exact hasLabelB_none_false y c hcy
  | some cell =>
    cases cell with
    | value v => exact hasLabelB_value_false y v c hcy
    | label by2 =>
      have hlt : b < by2 := childLTc_cells hcell hcy hrel
      exact hasLabelB_label_ne y by2 c hcy (by
        intro hc
        rw [hc] at hlt
        exact absurd hcb (not_le_of_lt hlt))

theorem lookupCs_tail_nil_key {L V : Type} [LinearOrder L]
    (us : List (NaiveTrie L V))
    (h : ∀ y ∈ us, ∀ (v : V), y.cellOf ≠ some (.value v)) :
    lookupCs us [] = none := by
  cases us with
  | nil => rfl
  | cons y ys =>
    rw [lookupCs_nil_key, List.head?_cons]
    dsimp only
    cases hcy : y.cellOf with
    | none => rfl
    | some cell =>
      cases cell with
      | label a => rfl
      | value v => exact absurd hcy (h y (by simp) v)

theorem item_of_cell {L V : Type} (u : NaiveTrie L V) (x : TrieLabel L V)
    (h : u.cellOf = some x) : u.item = .node x := by
  cases u with
  | root cs => exact absurd h (by simp [NaiveTrie.cellOf])
  | intermOrLeaf cell cs =>
    have : cell = x := Option.some.inj h
    rw [← this]
    rfl
  | phantomSibling => exact absurd h (by simp [NaiveTrie.cellOf])

theorem sumWeight_childrenL {L V : Type} (u : NaiveTrie L V)
    (h : u.isIntermB = true) :
    sumWeightQ u.childrenL + 2 = sumWeight u := by
  cases u with
  | root cs => simp [NaiveTrie.isIntermB] at h
  | intermOrLeaf cell cs =>
    show sumWeightQ cs.toList + 2 = 2 + sumWeightL cs
    rw [sumWeightQ_toList]
    omega
  | phantomSibling => simp [NaiveTrie.isIntermB] at h

/-- Extensionality of tidy sorted children lists: two strictly sorted,
tidy, invariant children lists with the same lookup function are equal. -/
theorem ext_lists {L V : Type} [LinearOrder L] :
    ∀ (fuel : Nat) (cs1 cs2 : List (NaiveTrie L V)),
      sumWeightQ cs1 ≤ fuel →
      cs1.Pairwise childLTc → cs2.Pairwise childLTc →
      (∀ c ∈ cs1, c.isIntermB = true) → (∀ c ∈ cs2, c.isIntermB = true) →
      (∀ c ∈ cs1, NaiveInv c) → (∀ c ∈ cs2, NaiveInv c) →
      (∀ c ∈ cs1, ((∃ a, c.cellOf = some (.label a)) → c.productive) ∧
        ((∃ v2, c.cellOf = some (.value v2)) → c.childrenL = [])) →
      (∀ c ∈ cs2, ((∃ a, c.cellOf = some (.label a)) → c.productive) ∧
        ((∃ v2, c.cellOf = some (.value v2)) → c.childrenL = [])) →
      (∀ c ∈ cs1, c.tidy) → (∀ c ∈ cs2, c.tidy) →
      (∀ k, lookupCs cs1 k = lookupCs cs2 k) →
      cs1 = cs2 := by
  intro fuel
  induction fuel using Nat.strong_induction_on with
  | _ fuel ih =>
    intro cs1 cs2 hw hpw1 hpw2 hint1 hint2 hinv1 hinv2 hP1 hP2 hT1 hT2 hlk
    match cs1, cs2 with
    | [], [] => rfl
    | [], u2 :: us2 =>
      exfalso
      obtain ⟨x2, hx2⟩ := cellOf_exists_interm u2 (hint2 u2 (by simp))
      cases x2 with
      | value v2 =>
        have h1 := hlk []
        rw [lookupCs_empty, lookupCs_head_value u2 us2 v2 hx2] at h1
        exact Option.noConfusion h1
      | label a2 =>
        obtain ⟨s, v, hsv⟩ := (hP2 u2 (by simp)).1 ⟨a2, hx2⟩
        have h1 := hlk (a2 :: s)
        rw [lookupCs_empty, lookupCs_head_label u2 us2 a2 s hx2, hsv] at h1
        exact Option.noConfusion h1
    | u1 :: us1, [] =>
      exfalso
      obtain ⟨x1, hx1⟩ := cellOf_exists_interm u1 (hint1 u1 (by simp))
      cases x1 with
      | value v1 =>
        have h1 := hlk []
        rw [lookupCs_empty, lookupCs_head_value u1 us1 v1 hx1] at h1
        exact Option.noConfusion h1.symm
      | label a1 =>
        obtain ⟨s, v, hsv⟩ := (hP1 u1 (by simp)).1 ⟨a1, hx1⟩
        have h1 := hlk (a1 :: s)
        rw [lookupCs_empty, lookupCs_head_label u1 us1 a1 s hx1, hsv] at h1
        exact Option.noConfusion h1.symm
    | u1 :: us1, u2 :: us2 =>
      obtain ⟨x1, hx1⟩ := cellOf_exists_interm u1 (hint1 u1 (by simp))
      obtain ⟨x2, hx2⟩ := cellOf_exists_interm u2 (hint2 u2 (by simp))
      have hwu1 : 1 ≤ sumWeight u1 := sumWeight_pos u1
      have hwcons : sumWeightQ (u1 :: us1) = sumWeight u1 + sumWeightQ us1 :=
        sumWeightQ_cons u1 us1
      have htail : ∀ k, lookupCs us1 k = lookupCs us2 k → True := fun _ _ => trivial
      have hheads : u1 = u2 → us1 = us2 → u1 :: us1 = u2 :: us2 := by
        intro h1 h2
        rw [h1, h2]
      -- tail lookups on the empty key are none on both sides
      have htail1nil : lookupCs us1 [] = none :=
        lookupCs_tail_nil_key us1 (tail_no_value u1 us1 hpw1 x1 hx1)
      have htail2nil : lookupCs us2 [] = none :=
        lookupCs_tail_nil_key us2 (tail_no_value u2 us2 hpw2 x2 hx2)
      have hwus1 : sumWeightQ us1 < fuel := by omega
      have hrec_tails : (∀ k, lookupCs us1 k = lookupCs us2 k) → us1 = us2 := by
        intro hlkt
        exact ih (sumWeightQ us1) hwus1 us1 us2 (le_refl _)
          (List.Pairwise.of_cons hpw1) (List.Pairwise.of_cons hpw2)
          (fun c hc => hint1 c (by simp [hc]))
          (fun c hc => hint2 c (by simp [hc]))
          (fun c hc => hinv1 c (by simp [hc]))
          (fun c hc => hinv2 c (by simp [hc]))
          (fun c hc => hP1 c (by simp [hc]))
          (fun c hc => hP2 c (by simp [hc]))
          (fun c hc => hT1 c (by simp [hc]))
          (fun c hc => hT2 c (by simp [hc]))
          hlkt
      cases x1 with
      | value v1 =>
        cases x2 with
        | value v2 =>
          have hv : v1 = v2 := by
            have h1 := hlk []
            rw [lookupCs_head_value u1 us1 v1 hx1,
              lookupCs_head_value u2 us2 v2 hx2] at h1
            exact Option.some.inj h1
          have hu : u1 = u2 := by
            refine eq_of_item_children u1 u2 ?_ ?_
            · rw [item_of_cell u1 _ hx1, item_of_cell u2 _ hx2, hv]
            · rw [(hP1 u1 (by simp)).2 ⟨v1, hx1⟩, (hP2 u2 (by simp)).2 ⟨v2, hx2⟩]
          refine hheads hu (hrec_tails ?_)
          intro k
          cases k with
          | nil => rw [htail1nil, htail2nil]
          | cons c r =>
            rw [← lookupCs_skip_head u1 us1 c r (hasLabelB_value_false u1 v1 c hx1),
              ← lookupCs_skip_head u2 us2 c r (hasLabelB_value_false u2 v2 c hx2)]
            exact hlk (c :: r)
        | label b2 =>
          exfalso
          have h1 := hlk []
          rw [lookupCs_head_value u1 us1 v1 hx1,
            lookupCs_head_label_nil_key u2 us2 b2 hx2] at h1
          exact Option.noConfusion h1
      | label b1 =>
        cases x2 with
        | value v2 =>
          exfalso
          have h1 := hlk []
          rw [lookupCs_head_value u2 us2 v2 hx2,
            lookupCs_head_label_nil_key u1 us1 b1 hx1] at h1
          exact Option.noConfusion h1.symm
        | label b2 =>
          rcases lt_trichotomy b1 b2 with hb | hb | hb
          · exfalso
            obtain ⟨s, v, hsv⟩ := (hP1 u1 (by simp)).1 ⟨b1, hx1⟩
            have h1 := hlk (b1 :: s)
            rw [lookupCs_head_label u1 us1 b1 s hx1, hsv,
              lookupCs_skip_head u2 us2 b1 s
                (hasLabelB_label_ne u2 b2 b1 hx2 (by
                  intro hc
                  rw [hc] at hb
                  exact absurd hb (lt_irrefl b1))),
              lookupCs_no_label us2 b1 s
                (fun y hy => tail_no_small_label u2 us2 hpw2 b2 hx2 y hy b1
                  (le_of_lt hb))] at h1
            exact Option.noConfusion h1
          · subst hb
            have hsub : ∀ r, u1.lookupNaive r = u2.lookupNaive r := by
              intro r
              have h1 := hlk (b1 :: r)
              rw [lookupCs_head_label u1 us1 b1 r hx1,
                lookupCs_head_label u2 us2 b1 r hx2] at h1
              exact h1
            have hInvU1 := hinv1 u1 (by simp)
            have hInvU2 := hinv2 u2 (by simp)
            have hwch : sumWeightQ u1.childrenL < fuel := by
              have := sumWeight_childrenL u1 (hint1 u1 (by simp))
              omega
            have hch : u1.childrenL = u2.childrenL := by
              refine ih (sumWeightQ u1.childrenL) hwch _ _ (le_refl _)
                hInvU1.pairwise_of hInvU2.pairwise_of
                hInvU1.interm_of hInvU2.interm_of
                hInvU1.child_of hInvU2.child_of
                (tidy_P (hT1 u1 (by simp))) (tidy_P (hT2 u2 (by simp)))
                (tidy_children (hT1 u1 (by simp)))
                (tidy_children (hT2 u2 (by simp))) ?_
              intro k
              rw [lookupCs_childrenL, lookupCs_childrenL]
              exact hsub k
            have hu : u1 = u2 := by
              refine eq_of_item_children u1 u2 ?_ hch
              rw [item_of_cell u1 _ hx1, item_of_cell u2 _ hx2]
            refine hheads hu (hrec_tails ?_)
            intro k
            cases k with
            | nil => rw [htail1nil, htail2nil]
            | cons c r =>
              by_cases hcb : c = b1
              · subst hcb
                rw [lookupCs_no_label us1 c r
                    (fun y hy => tail_no_small_label u1 us1 hpw1 c hx1 y hy c
                      (le_refl c)),
                  lookupCs_no_label us2 c r
                    (fun y hy => tail_no_small_label u2 us2 hpw2 c hx2 y hy c
                      (le_refl c))]
              · rw [← lookupCs_skip_head u1 us1 c r
                    (hasLabelB_label_ne u1 b1 c hx1 (fun hc => hcb hc.symm)),
                  ← lookupCs_skip_head u2 us2 c r
                    (hasLabelB_label_ne u2 b1 c hx2 (fun hc => hcb hc.symm))]
                exact hlk (c :: r)
          · exfalso
            obtain ⟨s, v, hsv⟩ := (hP2 u2 (by simp)).1 ⟨b2, hx2⟩
            have h1 := hlk (b2 :: s)
            rw [lookupCs_head_label u2 us2 b2 s hx2, hsv,
              lookupCs_skip_head u1 us1 b2 s
                (hasLabelB_label_ne u1 b1 b2 hx1 (by
                  intro hc
                  rw [hc] at hb
                  exact absurd hb (lt_irrefl b2))),
              lookupCs_no_label us1 b2 s
                (fun y hy => tail_no_small_label u1 us1 hpw1 b1 hx1 y hy b2
                  (le_of_lt hb))] at h1
            exact Option.noConfusion h1.symm

/-- C7: pushing pairwise-distinct keys in any two orders produces equal
naive tries, and hence byte-for-byte identical LOUDS bitstrings and label
tables after build. -/
theorem c7_order_independence {L V : Type} [LinearOrder L]
    (l1 l2 : List (List L × V)) (hperm : l1.Perm l2)
    (hnd : (l1.map Prod.fst).Nodup) :
    NaiveTrie.pushAll NaiveTrie.makeRoot l1 =
      NaiveTrie.pushAll NaiveTrie.makeRoot l2 ∧
    Trie.build (NaiveTrie.pushAll NaiveTrie.makeRoot l1) =
      Trie.build (NaiveTrie.pushAll NaiveTrie.makeRoot l2) := by
  have hInv1 := NaiveInv.pushAll l1 _ (NaiveInv.makeRoot (L := L) (V := V))
  have hInv2 := NaiveInv.pushAll l2 _ (NaiveInv.makeRoot (L := L) (V := V))
  have hT1 := tidy_pushAll l1 _ (NaiveInv.makeRoot (L := L) (V := V)) tidy_makeRoot
  have hT2 := tidy_pushAll l2 _ (NaiveInv.makeRoot (L := L) (V := V)) tidy_makeRoot
  have hitem : (NaiveTrie.pushAll NaiveTrie.makeRoot l1).item =
      (NaiveTrie.pushAll NaiveTrie.makeRoot l2).item := by
    rw [item_pushAll, item_pushAll]
  have hlk : ∀ k, (NaiveTrie.pushAll NaiveTrie.makeRoot l1).lookupNaive k =
      (NaiveTrie.pushAll NaiveTrie.makeRoot l2).lookupNaive k := by
    intro k
    rw [lookup_pushAll_lastAssoc, lookup_pushAll_lastAssoc]
    exact lastAssoc_perm l1 l2 hperm hnd k
  have hch : (NaiveTrie.pushAll NaiveTrie.makeRoot l1).childrenL =
      (NaiveTrie.pushAll NaiveTrie.makeRoot l2).childrenL := by
    refine ext_lists
      (sumWeightQ (NaiveTrie.pushAll NaiveTrie.makeRoot l1).childrenL) _ _
      (le_refl _) hInv1.pairwise_of hInv2.pairwise_of
      hInv1.interm_of hInv2.interm_of hInv1.child_of hInv2.child_of
      (tidy_P hT1) (tidy_P hT2) (tidy_children hT1) (tidy_children hT2) ?_
    intro k
    rw [lookupCs_childrenL, lookupCs_childrenL]
    exact hlk k
  have hEq := eq_of_item_children _ _ hitem hch
  exact ⟨hEq, by rw [hEq]⟩

theorem c7_order_independence_witness :
    ([([97], 0), ([98], 1)] : List (List Nat × Nat)).Perm
      [([98], 1), ([97], 0)] ∧
    (([([97], 0), ([98], 1)] : List (List Nat × Nat)).map Prod.fst).Nodup ∧
    (NaiveTrie.pushAll NaiveTrie.makeRoot
        ([([97], 0), ([98], 1)] : List (List Nat × Nat)) =
      NaiveTrie.pushAll NaiveTrie.makeRoot [([98], 1), ([97], 0)] ∧
    Trie.build (NaiveTrie.pushAll NaiveTrie.makeRoot
        ([([97], 0), ([98], 1)] : List (List Nat × Nat))) =
      Trie.build (NaiveTrie.pushAll NaiveTrie.makeRoot
        [([98], 1), ([97], 0)])) :=
  ⟨List.Perm.swap _ _ _, by decide,
    c7_order_independence [([97], 0), ([98], 1)] [([98], 1), ([97], 0)]
      (List.Perm.swap _ _ _) (by decide)⟩
